import Mathlib

/-!
# Verification of the claude-setup settings reconciliation core

This file gives a shallow embedding, in Lean, of the configuration
reconciliation core of the `claude-setup` tool:

* `merge_settings` / `merge_permissions` / `merge_plugins`
  (from `src/claude_setup/merge.py`),
* the settings field classifier inside `scan_settings`
  (from `src/claude_setup/create_config.py`),
* the template substitution pair `resolve_templates` /
  `apply_reverse_templates` (serialize, textual replace, deserialize),
* environment variable expansion and source loading
  (from `src/claude_setup/sources.py`),
* the backup directory naming scheme (from `src/claude_setup/backup.py`),

together with theorems settling the specification claims about them.

JSON documents are modelled by the inductive type `JVal`; Python `dict`s
are modelled as insertion-ordered association lists (`Obj`), with `dict`
primitives (`d[k] = v`, `d.get`, `in`, `update`) embedded by the
functions `setItem`, `getD`, `hasKey`, `update`.  Fallible Python code
(`TypeError` / `AttributeError` / `SourceError`) is embedded in the
`Except PyErr` monad.  Numbers are restricted to integers, which covers
every value the tool's merge logic treats specially.
-/

namespace ClaudeSetup

/-- A JSON-like value: the payload type of a Python settings document. -/
inductive JVal where
  | str (s : String)
  | num (n : Int)
  | bool (b : Bool)
  | null
  | arr (xs : List JVal)
  | obj (kvs : List (String × JVal))
deriving Repr

-- Decidable equality on `JVal` (mutually with lists/objects), written
-- by hand because `deriving DecidableEq` does not handle the nested
-- occurrence of `JVal` under `List`.
mutual

def jvalDecEq : (a b : JVal) → Decidable (a = b)
  | .str a, .str b =>
      if h : a = b then .isTrue (by rw [h]) else .isFalse (by simp [h])
  | .num a, .num b =>
      if h : a = b then .isTrue (by rw [h]) else .isFalse (by simp [h])
  | .bool a, .bool b =>
      if h : a = b then .isTrue (by rw [h]) else .isFalse (by simp [h])
  | .null, .null => .isTrue rfl
  | .arr a, .arr b =>
      match jlistDecEq a b with
      | .isTrue h => .isTrue (by rw [h])
      | .isFalse h => .isFalse (by simp [h])
  | .obj a, .obj b =>
      match jobjDecEq a b with
      | .isTrue h => .isTrue (by rw [h])
      | .isFalse h => .isFalse (by simp [h])
  | .str _, .num _ => .isFalse (by simp)
  | .str _, .bool _ => .isFalse (by simp)
  | .str _, .null => .isFalse (by simp)
  | .str _, .arr _ => .isFalse (by simp)
  | .str _, .obj _ => .isFalse (by simp)
  | .num _, .str _ => .isFalse (by simp)
  | .num _, .bool _ => .isFalse (by simp)
  | .num _, .null => .isFalse (by simp)
  | .num _, .arr _ => .isFalse (by simp)
  | .num _, .obj _ => .isFalse (by simp)
  | .bool _, .str _ => .isFalse (by simp)
  | .bool _, .num _ => .isFalse (by simp)
  | .bool _, .null => .isFalse (by simp)
  | .bool _, .arr _ => .isFalse (by simp)
  | .bool _, .obj _ => .isFalse (by simp)
  | .null, .str _ => .isFalse (by simp)
  | .null, .num _ => .isFalse (by simp)
  | .null, .bool _ => .isFalse (by simp)
  | .null, .arr _ => .isFalse (by simp)
  | .null, .obj _ => .isFalse (by simp)
  | .arr _, .str _ => .isFalse (by simp)
  | .arr _, .num _ => .isFalse (by simp)
  | .arr _, .bool _ => .isFalse (by simp)
  | .arr _, .null => .isFalse (by simp)
  | .arr _, .obj _ => .isFalse (by simp)
  | .obj _, .str _ => .isFalse (by simp)
  | .obj _, .num _ => .isFalse (by simp)
  | .obj _, .bool _ => .isFalse (by simp)
  | .obj _, .null => .isFalse (by simp)
  | .obj _, .arr _ => .isFalse (by simp)

def jlistDecEq : (a b : List JVal) → Decidable (a = b)
  | [], [] => .isTrue rfl
  | x :: xs, y :: ys =>
      match jvalDecEq x y, jlistDecEq xs ys with
      | .isTrue h1, .isTrue h2 => .isTrue (by rw [h1, h2])
      | .isFalse h1, _ => .isFalse (by simp [h1])
      | _, .isFalse h2 => .isFalse (by simp [h2])
  | [], _ :: _ => .isFalse (by simp)
  | _ :: _, [] => .isFalse (by simp)

def jobjDecEq : (a b : List (String × JVal)) → Decidable (a = b)
  | [], [] => .isTrue rfl
  | (k, v) :: xs, (k', v') :: ys =>
      match String.decEq k k', jvalDecEq v v', jobjDecEq xs ys with
      | .isTrue h0, .isTrue h1, .isTrue h2 => .isTrue (by rw [h0, h1, h2])
      | .isFalse h0, _, _ => .isFalse (by simp [h0])
      | _, .isFalse h1, _ => .isFalse (by simp [h1])
      | _, _, .isFalse h2 => .isFalse (by simp [h2])
  | [], _ :: _ => .isFalse (by simp)
  | _ :: _, [] => .isFalse (by simp)

end

instance : DecidableEq JVal := jvalDecEq

instance exceptDecEq {ε α : Type} [DecidableEq ε] [DecidableEq α] :
    DecidableEq (Except ε α) := fun a b =>
  match a, b with
  | .ok x, .ok y => if h : x = y then .isTrue (by rw [h]) else .isFalse (by simp [h])
  | .error e, .error f => if h : e = f then .isTrue (by rw [h]) else .isFalse (by simp [h])
  | .ok _, .error _ => .isFalse (by simp)
  | .error _, .ok _ => .isFalse (by simp)

/-- A Python `dict[str, Any]`: an insertion-ordered association list.
Keys built by the embedded operations are unique, as in a real `dict`. -/
abbrev Obj := List (String × JVal)

/-! ## Python dict primitives -/

/-- `d.get(k)` / `d[k]` as an `Option`: the value at the first occurrence
of key `k`. -/
def lookup? (d : Obj) (k : String) : Option JVal :=
  match d with
  | [] => none
  | (k', v) :: rest => if k' = k then some v else lookup? rest k

/-- `k in d`. -/
def hasKey (d : Obj) (k : String) : Bool := (lookup? d k).isSome

/-- `d.get(k, dflt)`. -/
def getD (d : Obj) (k : String) (dflt : JVal) : JVal := (lookup? d k).getD dflt

/-- `d[k] = v`: replace the value at `k` in place if present (keeping its
position), otherwise append the new binding at the end — Python dict
insertion-order semantics. -/
def setItem (d : Obj) (k : String) (v : JVal) : Obj :=
  match d with
  | [] => [(k, v)]
  | (k', v') :: rest => if k' = k then (k, v) :: rest else (k', v') :: setItem rest k v

/-- `d.update(e)` for a mapping argument `e`: assign each of `e`'s
bindings into `d`, in `e`'s order. -/
def update (d : Obj) (e : Obj) : Obj := e.foldl (fun acc kv => setItem acc kv.1 kv.2) d

/-- The key list of a document, in insertion order. -/
def keys (d : Obj) : List String := d.map Prod.fst

/-- The keys of a genuine Python dict are pairwise distinct. -/
def nodupKeys (d : Obj) : Prop := (keys d).Nodup

instance (d : Obj) : Decidable (nodupKeys d) := by
  unfold nodupKeys; infer_instance

/-! ## Python value helpers: identity, hashing, iteration, sorting -/

/-- Embedded Python errors raised by the modelled code paths. -/
inductive PyErr where
  | typeError
  | attributeError
  | keyError
  | sourceError (msg : String)
deriving Repr, DecidableEq

/-- Python's numeric view of a value: `bool` is a subtype of `int`, so
`True == 1` and `False == 0`. -/
def toIntVal : JVal → Option Int
  | .num n => some n
  | .bool b => some (if b then 1 else 0)
  | _ => none

/-- Python `==` on the values that can appear in hash-based containers:
numeric values compare by numeric value (`True == 1`), everything else
structurally.  (The embedded code never compares two containers with
this, so structural container equality is never exercised.) -/
def pyEq (a b : JVal) : Bool :=
  match toIntVal a, toIntVal b with
  | some x, some y => x == y
  | some _, none => false
  | none, some _ => false
  | none, none => decide (a = b)

/-- `x in l` with Python equality. -/
def pyMemB (x : JVal) (l : List JVal) : Bool := l.any (pyEq x)

/-- Hashability: lists and dicts are unhashable, everything else hashes. -/
def pyHashable : JVal → Bool
  | .arr _ => false
  | .obj _ => false
  | _ => true

/-- Keep the first occurrence of each `pyEq`-class (`seen` accumulates
the representatives already kept). -/
def pyDedupAux (seen : List JVal) : List JVal → List JVal
  | [] => []
  | x :: rest => if pyMemB x seen then pyDedupAux seen rest else x :: pyDedupAux (x :: seen) rest

/-- The insertion-order set conversion: first occurrence of each
`pyEq`-class survives. -/
def pyDedup (l : List JVal) : List JVal := pyDedupAux [] l

/-- `set(a) | set(b)` on already deduplicated lists: `a`'s elements, then
`b`'s elements not already present. -/
def pyUnion (a b : List JVal) : List JVal := a ++ b.filter fun x => !(pyMemB x a)

/-- `set(v)`: iterate a value (list elements, string characters, dict
keys), require every element hashable, and deduplicate.  Non-iterables
raise `TypeError`, as does an unhashable element. -/
def pySetOf : JVal → Except PyErr (List JVal)
  | .arr xs => if xs.all pyHashable then .ok (pyDedup xs) else .error .typeError
  | .str s => .ok (pyDedup (s.data.map fun c => .str (String.mk [c])))
  | .obj kvs => .ok (pyDedup (kvs.map fun kv => .str kv.1))
  | _ => .error .typeError

/-- Lexicographic comparison of character lists by code point — the
order Python uses on `str`. -/
def strLeB : List Char → List Char → Bool
  | [], _ => true
  | _ :: _, [] => false
  | a :: as, b :: bs => if a = b then strLeB as bs else decide (a < b)

/-- String order as a `Prop` relation, for the sorting API. -/
def sLe (a b : String) : Prop := strLeB a.data b.data = true

instance sLeDecidable : DecidableRel sLe := fun _ _ => instDecidableEqBool _ _

/-- Numeric sort key (only applied to numeric values). -/
def intKey (v : JVal) : Int := (toIntVal v).getD 0

/-- Order on numeric values used by `sorted` (bool sorts as its int). -/
def numLe (a b : JVal) : Prop := intKey a ≤ intKey b

instance numLeDecidable : DecidableRel numLe := fun _ _ => Int.decLe _ _

def jIsStr : JVal → Bool
  | .str _ => true
  | _ => false

def jIsNum : JVal → Bool
  | .num _ => true
  | .bool _ => true
  | _ => false

def unStr : JVal → String
  | .str s => s
  | _ => ""

/-- `sorted(l)` on the output of a set operation: succeeds on at most one
element, on all-string input (code point order), and on all-numeric
input; any other mix of hashable values is incomparable and raises
`TypeError`, exactly as Python's `sorted` does. -/
def pySorted (l : List JVal) : Except PyErr (List JVal) :=
  if l.length ≤ 1 then .ok l
  else if l.all jIsStr then .ok (((l.map unStr).insertionSort sLe).map JVal.str)
  else if l.all jIsNum then .ok (l.insertionSort numLe)
  else .error .typeError

/-- `v.get(...)` on a value that must be a dict: non-dicts raise
`AttributeError` exactly where Python would. -/
def asObj : JVal → Except PyErr Obj
  | .obj kvs => .ok kvs
  | _ => .error .attributeError

/-! ## The merge engine (`merge.py`) -/

/-- `_merge_permissions(source, target)` from `merge.py`: union the
`allow` lists (as sets, sorted), keep the target's `deny` and `ask`.
The `allow` key is omitted when the union is empty.  Statement order
(and therefore error order) follows the Python source. -/
def merge_permissions (source target : JVal) : Except PyErr Obj := do
  let so ← asObj source
  let sourceAllow ← pySetOf (getD so "allow" (.arr []))
  let to' ← asObj target
  let targetAllow ← pySetOf (getD to' "allow" (.arr []))
  let combinedAllow ← pySorted (pyUnion sourceAllow targetAllow)
  let r0 : Obj := if combinedAllow.isEmpty then [] else [("allow", .arr combinedAllow)]
  let r1 : Obj := if hasKey to' "deny" then setItem r0 "deny" (getD to' "deny" .null) else r0
  let r2 : Obj := if hasKey to' "ask" then setItem r1 "ask" (getD to' "ask" .null) else r1
  pure r2

/-- `_merge_plugins(source, target)` from `merge.py`: start from the
user's plugin map, then overlay the team's entries (team wins on
collision).  The arguments are annotated `dict[str, bool]` in the
source; non-dict arguments raise when `dict.update` receives them. -/
def merge_plugins (source target : JVal) : Except PyErr Obj := do
  let to' ← asObj target
  let so ← asObj source
  pure (update (update [] to') so)

/-- The guard `"permissions" in source or "permissions" in target` of
`merge_settings`. -/
def permCond (source target : Obj) : Bool :=
  hasKey source "permissions" || hasKey target "permissions"

/-- The guard `"enabledPlugins" in source or "enabledPlugins" in target`
of `merge_settings`. -/
def plugCond (source target : Obj) : Bool :=
  hasKey source "enabledPlugins" || hasKey target "enabledPlugins"

/-- `merge_settings(source, target)` from `merge.py`: start from a copy
of the target (preserving unknown keys), merge `permissions` and
`enabledPlugins` through their helpers, overwrite the team-standard
fields, and re-assert the target's `feedbackSurveyState` and the team's
`$schema`. -/
def merge_settings (source target : Obj) : Except PyErr Obj := do
  let r0 : Obj := update [] target
  let r1 : Obj ←
    if permCond source target then do
      let p ← merge_permissions (getD source "permissions" (.obj []))
        (getD target "permissions" (.obj []))
      pure (setItem r0 "permissions" (.obj p))
    else pure r0
  let r2 : Obj := if hasKey source "model" then setItem r1 "model" (getD source "model" .null) else r1
  let r3 : Obj :=
    if hasKey source "statusLine" then setItem r2 "statusLine" (getD source "statusLine" .null) else r2
  let r4 : Obj :=
    if hasKey source "alwaysThinkingEnabled" then
      setItem r3 "alwaysThinkingEnabled" (getD source "alwaysThinkingEnabled" .null)
    else r3
  let r5 : Obj ←
    if plugCond source target then do
      let p ← merge_plugins (getD source "enabledPlugins" (.obj []))
        (getD target "enabledPlugins" (.obj []))
      pure (setItem r4 "enabledPlugins" (.obj p))
    else pure r4
  let r6 : Obj :=
    if hasKey target "feedbackSurveyState" then
      setItem r5 "feedbackSurveyState" (getD target "feedbackSurveyState" .null)
    else r5
  let r7 : Obj :=
    if hasKey source "$schema" then setItem r6 "$schema" (getD source "$schema" .null) else r6
  pure r7


/-- The pure tail of `_merge_permissions` once the sorted combined allow
list `srt` is known: emit `allow` when nonempty, then the target's
`deny` and `ask`. -/
def permAssemble (to' : Obj) (srt : List JVal) : Obj :=
  let r0 : Obj := if srt.isEmpty then [] else [("allow", .arr srt)]
  let r1 : Obj := if hasKey to' "deny" then setItem r0 "deny" (getD to' "deny" .null) else r0
  if hasKey to' "ask" then setItem r1 "ask" (getD to' "ask" .null) else r1

/-- The merge-relevant well-formedness of a `permissions` value: an
object whose `allow` entry, if any, is a list of strings.  (A sufficient
condition for `_merge_permissions` to succeed.) -/
def permValueOk (v : JVal) : Bool :=
  match v with
  | .obj o =>
      match lookup? o "allow" with
      | none => true
      | some (.arr xs) => xs.all jIsStr
      | some _ => false
  | _ => false

/-- The merge-relevant well-formedness of an `enabledPlugins` value: it
must be an object for `dict.update` to accept it. -/
def plugValueOk (v : JVal) : Bool :=
  match v with
  | .obj _ => true
  | _ => false

/-- A settings document whose special values are shaped as the merge
logic expects (text values elsewhere are unconstrained). -/
def mergeInputOk (d : Obj) : Bool :=
  permValueOk (getD d "permissions" (.obj [])) && plugValueOk (getD d "enabledPlugins" (.obj []))

/-- A `permissions` value contributing an empty allow set: an object
whose `allow` entry is absent or the empty list. -/
def allowEmptyV (v : JVal) : Bool :=
  match v with
  | .obj o =>
      match lookup? o "allow" with
      | none => true
      | some (.arr []) => true
      | some _ => false
  | _ => false

/-- The keys of a settings document with special merge policy; every
other key is preserved target-side verbatim. -/
def recognizedKeys : List String :=
  ["$schema", "model", "statusLine", "alwaysThinkingEnabled", "permissions",
   "enabledPlugins", "feedbackSurveyState"]

/-- The merge-or-copy choice made by `Installer._merge_settings_file`
(`installer.py`): when the loaded target settings are empty (falsy), the
team document is used as-is and `merge_settings` is never invoked. -/
def installer_merge_choice (source target : Obj) : Except PyErr Obj :=
  if target.isEmpty then .ok source else merge_settings source target

/-- Key uniqueness of an object value (trivially true for non-objects):
what holds of every object produced by `json.loads`. -/
def nodupKeysV : JVal → Prop
  | .obj o => nodupKeys o
  | _ => True

instance nodupKeysVDec : (v : JVal) → Decidable (nodupKeysV v)
  | .obj o => inferInstanceAs (Decidable (nodupKeys o))
  | .str _ => .isTrue trivial
  | .num _ => .isTrue trivial
  | .bool _ => .isTrue trivial
  | .null => .isTrue trivial
  | .arr _ => .isTrue trivial

/-- Distinct `pyEq`-classes, pairwise: the invariant of a Python set's
element list. -/
def pyNodup (l : List JVal) : Prop := l.Pairwise fun a b => pyEq a b = false

/-! ## The settings field classifier (`scan_settings` in `create_config.py`) -/

/-- `TEAM_FIELD_NAMES` from `scan_settings`. -/
def teamFieldNames : List String := ["$schema", "model", "statusLine", "alwaysThinkingEnabled"]

/-- Substring containment on character lists (Python `needle in str`). -/
def containsSub (pat : List Char) : List Char → Bool
  | [] => pat.isEmpty
  | c :: rest => pat.isPrefixOf (c :: rest) || containsSub pat rest

/-- Python `needle in value` for the container kinds a permissions value
can take: key test on dicts, substring test on strings, membership on
lists; `TypeError` otherwise. -/
def pyContains (needle : String) (v : JVal) : Except PyErr Bool :=
  match v with
  | .obj kvs => .ok (hasKey kvs needle)
  | .str s => .ok (containsSub needle.data s.data)
  | .arr xs => .ok (xs.any (pyEq (.str needle)))
  | _ => .error .typeError

/-- Python `value[k]` with a string key: only dicts support it. -/
def pyIndex (v : JVal) (k : String) : Except PyErr JVal :=
  match v with
  | .obj kvs =>
      match lookup? kvs k with
      | some x => .ok x
      | none => .error .keyError
  | _ => .error .typeError

/-- The `permissions` branch of the classifier loop in `scan_settings`:
build the team-side `{allow: ...}` object (emitted only if nonempty) and
the personal-side `{deny: ..., ask: ...}` object (likewise); any other
sub-key of the permissions value is not inspected. -/
def classifyPermissions (v : JVal) : Except PyErr (Option JVal × Option JVal) := do
  let hasAllow ← pyContains "allow" v
  let perms : Obj ←
    if hasAllow then do
      let av ← pyIndex v "allow"
      pure [("allow", av)]
    else pure []
  let teamPart : Option JVal := if perms.isEmpty then none else some (.obj perms)
  let hasDeny ← pyContains "deny" v
  let pp1 : Obj ←
    if hasDeny then do
      let dv ← pyIndex v "deny"
      pure [("deny", dv)]
    else pure []
  let hasAsk ← pyContains "ask" v
  let pp2 : Obj ←
    if hasAsk then do
      let av ← pyIndex v "ask"
      pure (setItem pp1 "ask" av)
    else pure pp1
  let personalPart : Option JVal := if pp2.isEmpty then none else some (.obj pp2)
  pure (teamPart, personalPart)

/-- One iteration of the classifier loop in `scan_settings`: route the
key into the team bucket, the personal bucket, or split `permissions`. -/
def classifyStep (acc : Obj × Obj) (kv : String × JVal) : Except PyErr (Obj × Obj) :=
  if kv.1 ∈ teamFieldNames then .ok (setItem acc.1 kv.1 kv.2, acc.2)
  else if kv.1 = "permissions" then do
    let parts ← classifyPermissions kv.2
    let team' := match parts.1 with
      | some tv => setItem acc.1 "permissions" tv
      | none => acc.1
    let personal' := match parts.2 with
      | some pv => setItem acc.2 "permissions" pv
      | none => acc.2
    pure (team', personal')
  else if kv.1 = "enabledPlugins" then .ok (setItem acc.1 kv.1 kv.2, acc.2)
  else if kv.1 = "feedbackSurveyState" then .ok (acc.1, setItem acc.2 kv.1 kv.2)
  else .ok (acc.1, setItem acc.2 kv.1 kv.2)

/-- The classifier loop of `scan_settings`: split a raw settings
document into `(team_fields, personal_fields)`. -/
def scan_settings_classify (raw : Obj) : Except PyErr (Obj × Obj) :=
  raw.foldlM classifyStep ([], [])

/-- The team side of a classified object-valued `permissions` entry:
just its `allow` sub-key, when present. -/
def permTeamPart (o : Obj) : Option JVal :=
  match lookup? o "allow" with
  | some av => some (.obj [("allow", av)])
  | none => none

/-- The personal side of a classified object-valued `permissions`
entry: its `deny` and `ask` sub-keys, when present. -/
def permPersonalObj (o : Obj) : Obj :=
  let pp1 : Obj :=
    match lookup? o "deny" with
    | some dv => [("deny", dv)]
    | none => []
  match lookup? o "ask" with
  | some av => setItem pp1 "ask" av
  | none => pp1

def permPersonalPart (o : Obj) : Option JVal :=
  match lookup? o "deny", lookup? o "ask" with
  | none, none => none
  | _, _ => some (.obj (permPersonalObj o))

/-- A key the classifier routes to the team bucket. -/
def teamKeyP (k : String) : Prop := k ∈ teamFieldNames ∨ k = "enabledPlugins"

instance (k : String) : Decidable (teamKeyP k) := by
  unfold teamKeyP; infer_instance

/-! ## Environment-variable expansion and source loading (`sources.py`) -/

/-- The process environment, as a finite name/value map. -/
abbrev Env := List (String × String)

def envLookup? (env : Env) (k : String) : Option String :=
  (env.find? fun kv => kv.1 == k).map Prod.snd

/-- A single quote character (`chr 39`), used in the error message. -/
def sq : Char := Char.ofNat 39

def dollar : Char := Char.ofNat 36

def openBrace : Char := Char.ofNat 123

def closeBrace : Char := Char.ofNat 125

/-- First character class of a bare `$VAR` reference: `[A-Za-z_]`. -/
def isVarStart (c : Char) : Bool :=
  (65 ≤ c.toNat && c.toNat ≤ 90) || (97 ≤ c.toNat && c.toNat ≤ 122) || c == Char.ofNat 95

/-- Continuation character class of a bare `$VAR` reference: `[A-Za-z0-9_]`. -/
def isVarChar (c : Char) : Bool :=
  isVarStart c || (48 ≤ c.toNat && c.toNat ≤ 57)

/-- Split off the (possibly empty) run of characters before the first
closing brace; `none` when no closing brace exists. -/
def findClose : List Char → Option (List Char × List Char)
  | [] => none
  | c :: cs =>
      if c = closeBrace then some ([], cs)
      else
        match findClose cs with
        | some (b, r) => some (c :: b, r)
        | none => none

/-- The message of the `SourceError` raised by `expand_env_vars` for an
unset variable `v`. -/
def envMsg (v : String) : String :=
  "Environment variable " ++ String.singleton sq ++ v ++ String.singleton sq ++
    " not set. Please set it with: export " ++ v ++ "=<value>"

/-- The scanning loop of `re.sub` with the pattern
`\x5c$\x5c\x7b([^\x7d]+)\x7d|\x5c$([A-Za-z_][A-Za-z0-9_]*)` from
`expand_env_vars`: at each position try the braced alternative, then the
bare alternative, else move one character forward.  The replacement
callback raises `SourceError` for a variable absent from the
environment and substitutes its value otherwise.  Fuel decreases on
every recursive call and `length + 1` fuel always suffices. -/
def expandAux (env : Env) : Nat → List Char → Except PyErr (List Char)
  | 0, cs => .ok cs
  | _ + 1, [] => .ok []
  | fuel + 1, c :: cs =>
      if c = dollar then
        match cs with
        | [] => .ok [c]
        | d :: cs' =>
            if d = openBrace then
              match findClose cs' with
              | some (body, rest) =>
                  if body.isEmpty then do
                    -- `$\x7b\x7d` matches neither alternative: advance one char.
                    let r ← expandAux env fuel (d :: cs')
                    pure (c :: r)
                  else
                    match envLookup? env (String.mk body) with
                    | some v => do
                        let r ← expandAux env fuel rest
                        pure (v.data ++ r)
                    | none => .error (.sourceError (envMsg (String.mk body)))
              | none => do
                  let r ← expandAux env fuel (d :: cs')
                  pure (c :: r)
            else if isVarStart d then
              let name := d :: cs'.takeWhile isVarChar
              let rest := cs'.dropWhile isVarChar
              match envLookup? env (String.mk name) with
              | some v => do
                  let r ← expandAux env fuel rest
                  pure (v.data ++ r)
              | none => .error (.sourceError (envMsg (String.mk name)))
            else do
              let r ← expandAux env fuel (d :: cs')
              pure (c :: r)
      else do
        let r ← expandAux env fuel cs
        pure (c :: r)

/-- `expand_env_vars(value)` from `sources.py` on a string value (the
non-string early return is handled by the caller's dispatch in
`expand_config_env_vars`). -/
def expand_env_vars (env : Env) (s : String) : Except PyErr String := do
  let r ← expandAux env (s.data.length + 1) s.data
  pure (String.mk r)

mutual
-- `expand_config_env_vars(config)` from `sources.py`: dict values (not
-- keys) are expanded recursively, list items recursively, strings via
-- `expand_env_vars`, everything else unchanged.
def expand_config_env_vars (env : Env) : JVal → Except PyErr JVal
  | .obj o =>
      match expandObjVars env o with
      | .ok o' => .ok (.obj o')
      | .error e => .error e
  | .arr xs =>
      match expandArrVars env xs with
      | .ok xs' => .ok (.arr xs')
      | .error e => .error e
  | .str s =>
      match expand_env_vars env s with
      | .ok s' => .ok (.str s')
      | .error e => .error e
  | .num n => .ok (.num n)
  | .bool b => .ok (.bool b)
  | .null => .ok .null
def expandArrVars (env : Env) : List JVal → Except PyErr (List JVal)
  | [] => .ok []
  | v :: vs =>
      match expand_config_env_vars env v with
      | .error e => .error e
      | .ok v' =>
          match expandArrVars env vs with
          | .error e => .error e
          | .ok vs' => .ok (v' :: vs')
def expandObjVars (env : Env) : List (String × JVal) → Except PyErr (List (String × JVal))
  | [] => .ok []
  | kv :: rest =>
      match expand_config_env_vars env kv.2 with
      | .error e => .error e
      | .ok v' =>
          match expandObjVars env rest with
          | .error e => .error e
          | .ok rest' => .ok ((kv.1, v') :: rest')
end

/-- A constructed fetcher, as `load_sources` appends it to
`self.sources`: the subclass chosen by the `type` dispatch, the resolved
name, and the expanded per-source config. -/
inductive SourceSpec where
  | localSrc (nm : JVal) (config : JVal)
  | githubSrc (nm : JVal) (config : JVal)
  | zipSrc (nm : JVal) (config : JVal)
deriving Repr, DecidableEq

/-- Python `str()` of a JSON value, used by the f-string in the
unknown-source-type message.  (`repr` quoting of container elements is
rendered without escape sequences; the embedded strings never need
them.) -/
def intRepr (n : Int) : String :=
  if n < 0 then "-" ++ Nat.repr n.natAbs else Nat.repr n.natAbs

mutual
def pyStr : JVal → String
  | .str s => s
  | .null => "None"
  | .bool true => "True"
  | .bool false => "False"
  | .num n => intRepr n
  | .arr xs => "[" ++ pyStrItems xs ++ "]"
  | .obj o => "\x7b" ++ pyStrPairs o ++ "\x7d"
def pyStrInner : JVal → String
  | .str s => String.singleton sq ++ s ++ String.singleton sq
  | .null => "None"
  | .bool true => "True"
  | .bool false => "False"
  | .num n => intRepr n
  | .arr xs => "[" ++ pyStrItems xs ++ "]"
  | .obj o => "\x7b" ++ pyStrPairs o ++ "\x7d"
def pyStrItems : List JVal → String
  | [] => ""
  | [x] => pyStrInner x
  | x :: y :: xs => pyStrInner x ++ ", " ++ pyStrItems (y :: xs)
def pyStrPairs : List (String × JVal) → String
  | [] => ""
  | [kv] => String.singleton sq ++ kv.1 ++ String.singleton sq ++ ": " ++ pyStrInner kv.2
  | kv :: kv2 :: rest =>
      String.singleton sq ++ kv.1 ++ String.singleton sq ++ ": " ++ pyStrInner kv.2 ++
        ", " ++ pyStrPairs (kv2 :: rest)
end

/-- The `except SourceError` wrapper around the per-source expansion in
`load_sources`: only a `SourceError` is caught and re-raised with the
prefix; any other exception propagates unchanged. -/
def wrapExpand : Except PyErr JVal → Except PyErr JVal
  | .ok v => .ok v
  | .error (.sourceError m) =>
      .error (.sourceError ("Failed to expand environment variables: " ++ m))
  | .error e => .error e

/-- One iteration of the `for idx, source_config in enumerate(...)` loop
in `load_sources`: expand (wrapping a `SourceError`), read `type` and
`name` off the expanded dict (`.get` on a non-dict raises
`AttributeError`), and dispatch on the type string. -/
def loadSourceItem (env : Env) (idx : Nat) (sc : JVal) : Except PyErr SourceSpec := do
  let expanded ← wrapExpand (expand_config_env_vars env sc)
  let scObj ← asObj expanded
  let ty := getD scObj "type" .null
  let nm := getD scObj "name" (.str ("source-" ++ Nat.repr idx))
  if pyEq ty (.str "local") then pure (.localSrc nm expanded)
  else if pyEq ty (.str "github") then pure (.githubSrc nm expanded)
  else if pyEq ty (.str "zip") then pure (.zipSrc nm expanded)
  else .error (.sourceError ("Unknown source type: " ++ pyStr ty))

/-- Python iteration order of a value, as `enumerate` sees it: list
elements, string characters, dict keys; scalars are not iterable. -/
def pyIterItems : JVal → Except PyErr (List JVal)
  | .arr xs => .ok xs
  | .str s => .ok (s.data.map fun c => .str (String.mk [c]))
  | .obj o => .ok (o.map fun kv => .str kv.1)
  | _ => .error .typeError

def loadSourcesLoop (env : Env) : Nat → List JVal → Except PyErr (List SourceSpec)
  | _, [] => .ok []
  | idx, sc :: rest => do
      let spec ← loadSourceItem env idx sc
      let specs ← loadSourcesLoop env (idx + 1) rest
      pure (spec :: specs)

/-- `SourceManager.load_sources` from `sources.py`, after the JSON file
has been read and parsed: the list of fetchers it constructs (in order),
or the first error raised.  No fetcher's `fetch` is involved — fetching
happens only in the separate `fetch_all`/`get_primary_source` calls,
which consume the list this builds. -/
def load_sources (env : Env) (config : JVal) : Except PyErr (List SourceSpec) := do
  let co ← asObj config
  let items ← pyIterItems (getD co "sources" (.arr []))
  loadSourcesLoop env 0 items

/-- A `$\x7bV\x7d` environment-variable reference, as a string. -/
def envRef (V : String) : String :=
  String.mk (dollar :: openBrace :: V.data ++ [closeBrace])

/-- A sources document with one local source whose `path` field holds an
environment-variable reference. -/
def c7SourcesDoc (V : String) : JVal :=
  .obj [("sources", .arr [.obj [("type", .str "local"), ("path", .str (envRef V))]])]

/-! ## Backup directory naming (`create_backup` in `backup.py`) -/

/-- A wall-clock instant as `datetime.now()` observes it. -/
structure DateTime where
  year : Nat
  month : Nat
  day : Nat
  hour : Nat
  minute : Nat
  second : Nat
  micro : Nat
deriving Repr, DecidableEq

/-- `%m`/`%d`/`%H`/`%M`/`%S`: zero-padded to two digits. -/
def pad2 (n : Nat) : String :=
  if n < 10 then "0" ++ Nat.repr n else Nat.repr n

/-- `%Y`: zero-padded to four digits. -/
def pad4 (n : Nat) : String :=
  if n < 10 then "000" ++ Nat.repr n
  else if n < 100 then "00" ++ Nat.repr n
  else if n < 1000 then "0" ++ Nat.repr n
  else Nat.repr n

/-- `datetime.now().strftime("%Y-%m-%d-%H%M%S")` from `create_backup`. -/
def strftimeStamp (t : DateTime) : String :=
  pad4 t.year ++ "-" ++ pad2 t.month ++ "-" ++ pad2 t.day ++ "-" ++
    pad2 t.hour ++ pad2 t.minute ++ pad2 t.second

/-- The backup directory name `create_backup` derives from the clock:
`f"claude-setup-{timestamp}"`.  This is the ONLY input to the
name; no sequence number or other disambiguator is involved, and the
directory is made with `mkdir(parents=True, exist_ok=True)`. -/
def backup_name (t : DateTime) : String := "claude-setup-" ++ strftimeStamp t

/-- Two instants within the same wall-clock second (they may differ in
the microsecond field, which the format string never prints). -/
def sameSecond (a b : DateTime) : Prop :=
  a.year = b.year ∧ a.month = b.month ∧ a.day = b.day ∧
    a.hour = b.hour ∧ a.minute = b.minute ∧ a.second = b.second

instance (a b : DateTime) : Decidable (sameSecond a b) := by
  unfold sameSecond; infer_instance

/-! ## Template substitution (`resolve_templates` / `apply_reverse_templates`)

Both functions serialize the document with `json.dumps`, run
`str.replace` on the serialized text, and re-parse with `json.loads`.
The serializer and parser below model the `json` module at the default
settings `dumps` is called with (no indent, separators `", "`/`": "`,
`ensure_ascii=True`); numbers are the integers the embedding carries.
(`json.loads` of a lone UTF-16 surrogate escape produces a string the
`Char` model cannot carry; the parser rejects it instead.) -/

def quoteC : Char := Char.ofNat 34

def backslashC : Char := Char.ofNat 92

def digitChar (n : Nat) : Char := Char.ofNat (48 + n)

def hexChar (n : Nat) : Char :=
  if n < 10 then Char.ofNat (48 + n) else Char.ofNat (87 + n)

/-- Decimal digits of a natural number (fuel: `n + 1` always suffices). -/
def natDigits : Nat → Nat → List Char
  | 0, _ => []
  | f + 1, n =>
      if n < 10 then [digitChar n]
      else natDigits f (n / 10) ++ [digitChar (n % 10)]

/-- `repr` of a Python int, as serialized by `json.dumps`. -/
def intDump (n : Int) : List Char :=
  if n < 0 then '-' :: natDigits (n.natAbs + 1) n.natAbs
  else natDigits (n.natAbs + 1) n.natAbs

/-- A `\uXXXX` escape with four lowercase hex digits. -/
def uEsc (n : Nat) : List Char :=
  [backslashC, 'u', hexChar (n / 4096 % 16), hexChar (n / 256 % 16),
    hexChar (n / 16 % 16), hexChar (n % 16)]

/-- The escaping `json.dumps` applies to one character of a string
(`ensure_ascii=True`: control and non-ASCII characters become `\u`
escapes, astral characters a surrogate pair). -/
def escChar (c : Char) : List Char :=
  if c = quoteC then [backslashC, quoteC]
  else if c = backslashC then [backslashC, backslashC]
  else if c = Char.ofNat 10 then [backslashC, 'n']
  else if c = Char.ofNat 9 then [backslashC, 't']
  else if c = Char.ofNat 13 then [backslashC, 'r']
  else if c = Char.ofNat 8 then [backslashC, 'b']
  else if c = Char.ofNat 12 then [backslashC, 'f']
  else if c.toNat < 32 || 127 ≤ c.toNat then
    if c.toNat < 65536 then uEsc c.toNat
    else uEsc (55296 + (c.toNat - 65536) / 1024) ++ uEsc (56320 + (c.toNat - 65536) % 1024)
  else [c]

def escString : List Char → List Char
  | [] => []
  | c :: cs => escChar c ++ escString cs

mutual
-- `json.dumps(v)` at the call sites' settings: no indent, default
-- separators `", "` and `": "`.
def dumps : JVal → List Char
  | .str s => quoteC :: (escString s.data ++ [quoteC])
  | .num n => intDump n
  | .bool true => ['t', 'r', 'u', 'e']
  | .bool false => ['f', 'a', 'l', 's', 'e']
  | .null => ['n', 'u', 'l', 'l']
  | .arr xs => '[' :: (dumpsItems xs ++ [']'])
  | .obj o => openBrace :: (dumpsPairs o ++ [closeBrace])
def dumpsItems : List JVal → List Char
  | [] => []
  | [x] => dumps x
  | x :: y :: r => dumps x ++ (',' :: ' ' :: dumpsItems (y :: r))
def dumpsPairs : List (String × JVal) → List Char
  | [] => []
  | [kv] => quoteC :: (escString kv.1.data ++ (quoteC :: ':' :: ' ' :: dumps kv.2))
  | kv :: kv2 :: r =>
      (quoteC :: (escString kv.1.data ++ (quoteC :: ':' :: ' ' :: dumps kv.2))) ++
        (',' :: ' ' :: dumpsPairs (kv2 :: r))
end

/-- The scanning loop of Python `str.replace(old, new)`: all
occurrences, leftmost first, non-overlapping; an empty `old` inserts
`new` into every gap.  Fuel decreases every step; `length + 1` always
suffices. -/
def replaceAll (pat rep : List Char) : Nat → List Char → List Char
  | 0, s => s
  | _ + 1, [] => if pat.isEmpty then rep else []
  | fuel + 1, c :: cs =>
      if pat.isEmpty then rep ++ c :: replaceAll pat rep fuel cs
      else if pat.isPrefixOf (c :: cs) then
        rep ++ replaceAll pat rep fuel (List.drop pat.length (c :: cs))
      else c :: replaceAll pat rep fuel cs

/-- Fuel-canonical replacement on character lists. -/
def pyRepL (s pat rep : List Char) : List Char := replaceAll pat rep (s.length + 1) s

/-- Python `s.replace(old, new)`. -/
def pyReplace (s old new : String) : String := String.mk (pyRepL s.data old.data new.data)

/-! ### The `json.loads` model -/

def isWsChar (c : Char) : Bool :=
  c == ' ' || c == Char.ofNat 9 || c == Char.ofNat 10 || c == Char.ofNat 13

def skipWs (cs : List Char) : List Char := cs.dropWhile isWsChar

def isDigitC (c : Char) : Bool := 48 ≤ c.toNat && c.toNat ≤ 57

def digitsToNat : List Char → Nat → Nat
  | [], acc => acc
  | c :: cs, acc => digitsToNat cs (acc * 10 + (c.toNat - 48))

/-- An integer literal (the embedded documents carry no floats). -/
def parseIntTok (cs : List Char) : Option (Int × List Char) :=
  match cs with
  | [] => none
  | c :: rest =>
      if c = '-' then
        match rest.takeWhile isDigitC with
        | [] => none
        | ds => some (-(digitsToNat ds 0 : Int), rest.dropWhile isDigitC)
      else if isDigitC c then
        some ((digitsToNat (List.takeWhile isDigitC (c :: rest)) 0 : Int),
          List.dropWhile isDigitC (c :: rest))
      else none

def hexVal (c : Char) : Option Nat :=
  if 48 ≤ c.toNat && c.toNat ≤ 57 then some (c.toNat - 48)
  else if 97 ≤ c.toNat && c.toNat ≤ 102 then some (c.toNat - 87)
  else if 65 ≤ c.toNat && c.toNat ≤ 70 then some (c.toNat - 55)
  else none

def parseHex4 : List Char → Option (Nat × List Char)
  | a :: b :: c :: d :: rest =>
      match hexVal a, hexVal b, hexVal c, hexVal d with
      | some x, some y, some z, some w => some (x * 4096 + y * 256 + z * 16 + w, rest)
      | _, _, _, _ => none
  | _ => none

/-- The body of a string literal, after the opening quote: plain
characters up to the closing quote, with the JSON escapes (including
`\u` with surrogate-pair combination). -/
def parseStrBody : Nat → List Char → Option (List Char × List Char)
  | 0, _ => none
  | _ + 1, [] => none
  | fuel + 1, c :: cs =>
      if c = quoteC then some ([], cs)
      else if c = backslashC then
        match cs with
        | [] => none
        | e :: cs2 =>
            if e = quoteC || e = backslashC || e = '/' then
              match parseStrBody fuel cs2 with
              | some (b, r) => some (e :: b, r)
              | none => none
            else if e = 'n' then
              match parseStrBody fuel cs2 with
              | some (b, r) => some (Char.ofNat 10 :: b, r)
              | none => none
            else if e = 't' then
              match parseStrBody fuel cs2 with
              | some (b, r) => some (Char.ofNat 9 :: b, r)
              | none => none
            else if e = 'r' then
              match parseStrBody fuel cs2 with
              | some (b, r) => some (Char.ofNat 13 :: b, r)
              | none => none
            else if e = 'b' then
              match parseStrBody fuel cs2 with
              | some (b, r) => some (Char.ofNat 8 :: b, r)
              | none => none
            else if e = 'f' then
              match parseStrBody fuel cs2 with
              | some (b, r) => some (Char.ofNat 12 :: b, r)
              | none => none
            else if e = 'u' then
              match parseHex4 cs2 with
              | none => none
              | some (n, cs3) =>
                  if 55296 ≤ n && n ≤ 56319 then
                    match cs3 with
                    | b1 :: u1 :: cs4 =>
                        if b1 = backslashC && u1 = 'u' then
                          match parseHex4 cs4 with
                          | some (m, cs5) =>
                              if 56320 ≤ m && m ≤ 57343 then
                                match parseStrBody fuel cs5 with
                                | some (b, r) =>
                                    some (Char.ofNat
                                      (65536 + (n - 55296) * 1024 + (m - 56320)) :: b, r)
                                | none => none
                              else none
                          | none => none
                        else none
                    | _ => none
                  else if 56320 ≤ n && n ≤ 57343 then none
                  else
                    match parseStrBody fuel cs3 with
                    | some (b, r) => some (Char.ofNat n :: b, r)
                    | none => none
            else none
      else
        match parseStrBody fuel cs with
        | some (b, r) => some (c :: b, r)
        | none => none

mutual
def parseVal : Nat → List Char → Option (JVal × List Char)
  | 0, _ => none
  | fuel + 1, cs =>
      match skipWs cs with
      | [] => none
      | c :: rest =>
          if c = quoteC then
            match parseStrBody (rest.length + 1) rest with
            | some (b, r) => some (.str (String.mk b), r)
            | none => none
          else if c = '[' then
            match skipWs rest with
            | c2 :: r2 =>
                if c2 = ']' then some (.arr [], r2)
                else
                  match parseItems fuel rest with
                  | some (xs, r) => some (.arr xs, r)
                  | none => none
            | [] => none
          else if c = openBrace then
            match skipWs rest with
            | c2 :: r2 =>
                if c2 = closeBrace then some (.obj [], r2)
                else
                  match parsePairs fuel rest with
                  | some (ps, r) => some (.obj (update [] ps), r)
                  | none => none
            | [] => none
          else if c = 't' then
            match rest with
            | 'r' :: 'u' :: 'e' :: r => some (.bool true, r)
            | _ => none
          else if c = 'f' then
            match rest with
            | 'a' :: 'l' :: 's' :: 'e' :: r => some (.bool false, r)
            | _ => none
          else if c = 'n' then
            match rest with
            | 'u' :: 'l' :: 'l' :: r => some (.null, r)
            | _ => none
          else
            match parseIntTok (c :: rest) with
            | some (n, r) => some (.num n, r)
            | none => none
def parseItems : Nat → List Char → Option (List JVal × List Char)
  | 0, _ => none
  | fuel + 1, cs =>
      match parseVal fuel cs with
      | some (v, r) =>
          match skipWs r with
          | c :: r2 =>
              if c = ',' then
                match parseItems fuel r2 with
                | some (vs, r3) => some (v :: vs, r3)
                | none => none
              else if c = ']' then some ([v], r2)
              else none
          | [] => none
      | none => none
def parsePairs : Nat → List Char → Option (List (String × JVal) × List Char)
  | 0, _ => none
  | fuel + 1, cs =>
      match skipWs cs with
      | [] => none
      | c :: rest =>
          if c = quoteC then
            match parseStrBody (rest.length + 1) rest with
            | some (k, r) =>
                match skipWs r with
                | c2 :: r2 =>
                    if c2 = ':' then
                      match parseVal fuel r2 with
                      | some (v, r3) =>
                          match skipWs r3 with
                          | c3 :: r4 =>
                              if c3 = ',' then
                                match parsePairs fuel r4 with
                                | some (ps, r5) => some ((String.mk k, v) :: ps, r5)
                                | none => none
                              else if c3 = closeBrace then some ([(String.mk k, v)], r4)
                              else none
                          | [] => none
                      | none => none
                    else none
                | [] => none
            | none => none
          else none
end

/-- `json.loads(s)`: parse one value and require only whitespace after
it; `none` models `JSONDecodeError`.  (A dict literal with repeated keys
keeps the last value at the first position, as Python dicts do — the
`update [] ps` in the object case.) -/
def loads (s : String) : Option JVal :=
  match parseVal (2 * s.data.length + 2) s.data with
  | some (v, rest) => if skipWs rest = [] then some v else none
  | none => none

/-! ### The two substitution passes and the predicates they respect -/

/-- The `{{HOME}}` template marker. -/
def Tchars : List Char := [openBrace, openBrace, 'H', 'O', 'M', 'E', closeBrace, closeBrace]

def tmpl : String := String.mk Tchars

/-- `resolve_templates(settings, home_dir)` from `merge.py`:
`json.loads(json.dumps(settings).replace("{{HOME}}", str(home_dir)))`. -/
def resolve_templates (settings : JVal) (home_dir : String) : Option JVal :=
  loads (pyReplace (String.mk (dumps settings)) tmpl home_dir)

/-- `apply_reverse_templates(data, home_dir)` from `create_config.py`:
`json.loads(json.dumps(data).replace(home_dir, "{{HOME}}"))`. -/
def apply_reverse_templates (data : JVal) (home_dir : String) : Option JVal :=
  loads (pyReplace (String.mk (dumps data)) home_dir tmpl)

/-- The composition the round-trip claim is about: reverse substitution
(when generating the config repo) followed by forward substitution
(when installing). -/
def templateRoundTrip (data : JVal) (home_dir : String) : Option JVal :=
  (apply_reverse_templates data home_dir).bind fun s => resolve_templates s home_dir

-- The document-level effect of one serialized `str.replace`: replace
-- inside every string of the document, keys included.
mutual
def walkSubst (pat rep : String) : JVal → JVal
  | .str s => .str (pyReplace s pat rep)
  | .arr xs => .arr (walkSubstItems pat rep xs)
  | .obj o => .obj (walkSubstPairs pat rep o)
  | .num n => .num n
  | .bool b => .bool b
  | .null => .null
def walkSubstItems (pat rep : String) : List JVal → List JVal
  | [] => []
  | v :: vs => walkSubst pat rep v :: walkSubstItems pat rep vs
def walkSubstPairs (pat rep : String) : List (String × JVal) → List (String × JVal)
  | [] => []
  | kv :: r => (pyReplace kv.1 pat rep, walkSubst pat rep kv.2) :: walkSubstPairs pat rep r
end

/-- Printable ASCII other than the quote and the backslash: characters
`json.dumps` emits verbatim. -/
def plainChar (c : Char) : Bool :=
  32 ≤ c.toNat && c.toNat ≤ 126 && c != quoteC && c != backslashC

def plainStrB (s : String) : Bool := s.data.all plainChar

mutual
-- Documents of plain strings (keys included) whose dicts have
-- pairwise-distinct keys.
def plainVal : JVal → Bool
  | .str s => plainStrB s
  | .arr xs => plainItems xs
  | .obj o => decide (nodupKeys o) && plainPairs o
  | .num _ => true
  | .bool _ => true
  | .null => true
def plainItems : List JVal → Bool
  | [] => true
  | v :: vs => plainVal v && plainItems vs
def plainPairs : List (String × JVal) → Bool
  | [] => true
  | kv :: r => plainStrB kv.1 && plainVal kv.2 && plainPairs r
end

mutual
-- No string of the document (keys included) contains the template
-- marker.
def noTmplVal : JVal → Bool
  | .str s => !containsSub Tchars s.data
  | .arr xs => noTmplItems xs
  | .obj o => noTmplPairs o
  | .num _ => true
  | .bool _ => true
  | .null => true
def noTmplItems : List JVal → Bool
  | [] => true
  | v :: vs => noTmplVal v && noTmplItems vs
def noTmplPairs : List (String × JVal) → Bool
  | [] => true
  | kv :: r => !containsSub Tchars kv.1.data && noTmplVal kv.2 && noTmplPairs r
end

/-- Characters a home-directory path is made of: ASCII alphanumerics
and `/`, `.`, `-`, `_`, `~`. -/
def pathChar (c : Char) : Bool :=
  (65 ≤ c.toNat && c.toNat ≤ 90) || (97 ≤ c.toNat && c.toNat ≤ 122) ||
    (48 ≤ c.toNat && c.toNat ≤ 57) ||
    c == '/' || c == '.' || c == '-' || c == '_' || c == '~'

/-- A home-directory path as both substitutions assume it: nonempty,
containing a `/`, made of path characters. -/
def pathSafe (h : String) : Prop :=
  h.data ≠ [] ∧ '/' ∈ h.data ∧ ∀ c ∈ h.data, pathChar c = true

instance (h : String) : Decidable (pathSafe h) := by
  unfold pathSafe; infer_instance

/-- The pure assembly performed by `merge_settings` once the two fallible
helper calls have produced `p` (merged permissions) and `pl` (merged
plugins); `p`/`pl` are ignored when the corresponding guard is false. -/
def mergeAssemble (s t : Obj) (p pl : Obj) : Obj :=
  let r0 : Obj := update [] t
  let r1 : Obj := if permCond s t then setItem r0 "permissions" (.obj p) else r0
  let r2 : Obj := if hasKey s "model" then setItem r1 "model" (getD s "model" .null) else r1
  let r3 : Obj :=
    if hasKey s "statusLine" then setItem r2 "statusLine" (getD s "statusLine" .null) else r2
  let r4 : Obj :=
    if hasKey s "alwaysThinkingEnabled" then
      setItem r3 "alwaysThinkingEnabled" (getD s "alwaysThinkingEnabled" .null)
    else r3
  let r5 : Obj := if plugCond s t then setItem r4 "enabledPlugins" (.obj pl) else r4
  let r6 : Obj :=
    if hasKey t "feedbackSurveyState" then
      setItem r5 "feedbackSurveyState" (getD t "feedbackSurveyState" .null)
    else r5
  if hasKey s "$schema" then setItem r6 "$schema" (getD s "$schema" .null) else r6

/-- The strict numeric order; used only to show the numeric sort output
is canonical on duplicate-free input. -/
def numLt (a b : JVal) : Prop := intKey a < intKey b

/-- A concrete team document for exercising `c3_merge_idempotent`. -/
def c3TeamDoc : Obj :=
  [("model", .str "opus"),
   ("permissions", .obj [("allow", .arr [.str "Bash"])]),
   ("enabledPlugins", .obj [("fmt", .bool true)])]

/-- A concrete user document for exercising `c3_merge_idempotent`. -/
def c3UserDoc : Obj :=
  [("custom", .num 7),
   ("permissions", .obj [("allow", .arr [.str "Write", .str "Bash"]),
                         ("deny", .arr [.str "Edit"])]),
   ("feedbackSurveyState", .bool true)]

/-- The merge of `c3TeamDoc` into `c3UserDoc`. -/
def c3MergedDoc : Obj :=
  [("custom", .num 7),
   ("permissions", .obj [("allow", .arr [.str "Bash", .str "Write"]),
                         ("deny", .arr [.str "Edit"])]),
   ("feedbackSurveyState", .bool true),
   ("model", .str "opus"),
   ("enabledPlugins", .obj [("fmt", .bool true)])]

/-- The nonempty proper suffixes of the template marker, plus `[]`. -/
def TsufList : List (List Char) := (List.range 8).map (fun i => Tchars.drop (i + 1))

-- Parser fuel measure for the correctness proofs.
mutual
def jsizeV : JVal → Nat
  | .arr xs => 1 + jsizeItems xs
  | .obj o => 1 + jsizePairs o
  | .str _ => 1
  | .num _ => 1
  | .bool _ => 1
  | .null => 1
def jsizeItems : List JVal → Nat
  | [] => 1
  | x :: r => 1 + jsizeV x + jsizeItems r
def jsizePairs : List (String × JVal) → Nat
  | [] => 1
  | kv :: r => 1 + jsizeV kv.2 + jsizePairs r
end

/-! ## Association-list lemmas for the dict primitives -/

@[simp] theorem keys_nil : keys ([] : Obj) = [] := rfl

@[simp] theorem keys_cons (kv : String × JVal) (d : Obj) :
    keys (kv :: d) = kv.1 :: keys d := rfl

theorem keys_append (a b : Obj) : keys (a ++ b) = keys a ++ keys b := by
  simp [keys]

theorem nodupKeys_nil : nodupKeys ([] : Obj) := by simp [nodupKeys]

theorem nodupKeys_cons {kv : String × JVal} {d : Obj} :
    nodupKeys (kv :: d) ↔ kv.1 ∉ keys d ∧ nodupKeys d := by
  simp [nodupKeys]

@[simp] theorem update_nil_right (d : Obj) : update d [] = d := rfl

@[simp] theorem update_cons (d : Obj) (kv : String × JVal) (e : Obj) :
    update d (kv :: e) = update (setItem d kv.1 kv.2) e := rfl

theorem lookup?_setItem_self (d : Obj) (k : String) (v : JVal) :
    lookup? (setItem d k v) k = some v := by
  induction d with
  | nil => simp [setItem, lookup?]
  | cons kv rest ih =>
      obtain ⟨k₀, v₀⟩ := kv
      by_cases h0 : k₀ = k
      · simp [setItem, lookup?, h0]
      · simp [setItem, lookup?, h0, ih]

theorem lookup?_setItem_ne (d : Obj) {k' k : String} (v : JVal) (h : k' ≠ k) :
    lookup? (setItem d k' v) k = lookup? d k := by
  induction d with
  | nil => simp [setItem, lookup?, h]
  | cons kv rest ih =>
      obtain ⟨k₀, v₀⟩ := kv
      by_cases h0 : k₀ = k'
      · subst h0
        simp [setItem, lookup?, h]
      · rw [setItem, if_neg h0, lookup?, lookup?]
        by_cases h1 : k₀ = k
        · simp [h1]
        · simp [h1, ih]

theorem setItem_eq_of_lookup {d : Obj} {k : String} {v : JVal}
    (h : lookup? d k = some v) : setItem d k v = d := by
  induction d with
  | nil => simp [lookup?] at h
  | cons kv rest ih =>
      obtain ⟨k₀, v₀⟩ := kv
      by_cases h0 : k₀ = k
      · subst h0
        rw [lookup?, if_pos rfl] at h
        injection h with h
        rw [setItem, if_pos rfl, h]
      · rw [lookup?, if_neg h0] at h
        rw [setItem, if_neg h0, ih h]

theorem mem_keys_setItem (d : Obj) (k' k : String) (v : JVal) :
    k ∈ keys (setItem d k' v) ↔ k ∈ keys d ∨ k = k' := by
  induction d with
  | nil => simp [setItem, eq_comm]
  | cons kv rest ih =>
      obtain ⟨k₀, v₀⟩ := kv
      by_cases h0 : k₀ = k'
      · subst h0
        rw [setItem, if_pos rfl]
        simp only [keys_cons, List.mem_cons]
        tauto
      · rw [setItem, if_neg h0]
        simp only [keys_cons, List.mem_cons, ih]
        tauto

theorem lookup?_eq_none_iff (d : Obj) (k : String) :
    lookup? d k = none ↔ k ∉ keys d := by
  induction d with
  | nil => simp [lookup?]
  | cons kv rest ih =>
      obtain ⟨k₀, v₀⟩ := kv
      rw [lookup?]
      by_cases h0 : k₀ = k
      · subst h0; simp
      · rw [if_neg h0, ih]
        simp only [keys_cons, List.mem_cons, not_or]
        constructor
        · exact fun hn => ⟨fun hc => h0 hc.symm, hn⟩
        · exact fun hn => hn.2

theorem hasKey_iff_mem_keys (d : Obj) (k : String) :
    hasKey d k = true ↔ k ∈ keys d := by
  rw [hasKey, Option.isSome_iff_ne_none]
  constructor
  · intro h
    by_contra hc
    exact h ((lookup?_eq_none_iff d k).mpr hc)
  · intro h hc
    exact ((lookup?_eq_none_iff d k).mp hc) h

theorem hasKey_false_iff (d : Obj) (k : String) :
    hasKey d k = false ↔ k ∉ keys d := by
  rw [← lookup?_eq_none_iff, hasKey]
  cases lookup? d k <;> simp

theorem nodupKeys_setItem {d : Obj} (k : String) (v : JVal) (h : nodupKeys d) :
    nodupKeys (setItem d k v) := by
  induction d with
  | nil => simp [setItem, nodupKeys]
  | cons kv rest ih =>
      obtain ⟨k₀, v₀⟩ := kv
      rw [nodupKeys_cons] at h
      by_cases h0 : k₀ = k
      · subst h0
        rw [setItem, if_pos rfl, nodupKeys_cons]
        exact ⟨h.1, h.2⟩
      · rw [setItem, if_neg h0, nodupKeys_cons]
        refine ⟨?_, ih h.2⟩
        rw [mem_keys_setItem]
        rintro (hmem | rfl)
        · exact h.1 hmem
        · exact h0 rfl

theorem lookup?_update_not_mem {e : Obj} (d : Obj) {k : String} (h : k ∉ keys e) :
    lookup? (update d e) k = lookup? d k := by
  induction e generalizing d with
  | nil => simp
  | cons kv rest ih =>
      obtain ⟨k₀, v₀⟩ := kv
      simp only [keys_cons, List.mem_cons, not_or] at h
      rw [update_cons, ih _ h.2, lookup?_setItem_ne _ _ (fun hh => h.1 hh.symm)]

theorem lookup?_update_mem {e : Obj} (d : Obj) {k : String} {v : JVal}
    (he : nodupKeys e) (hm : (k, v) ∈ e) :
    lookup? (update d e) k = some v := by
  induction e generalizing d with
  | nil => simp at hm
  | cons kv rest ih =>
      obtain ⟨k₀, v₀⟩ := kv
      rw [nodupKeys_cons] at he
      rcases List.mem_cons.mp hm with h | h
      · rw [Prod.mk.injEq] at h
        obtain ⟨rfl, rfl⟩ := h
        rw [update_cons, lookup?_update_not_mem _ he.1, lookup?_setItem_self]
      · rw [update_cons]
        exact ih _ he.2 h

theorem mem_keys_update (d e : Obj) (k : String) :
    k ∈ keys (update d e) ↔ k ∈ keys d ∨ k ∈ keys e := by
  induction e generalizing d with
  | nil => simp
  | cons kv rest ih =>
      obtain ⟨k₀, v₀⟩ := kv
      rw [update_cons, ih, mem_keys_setItem]
      simp only [keys_cons, List.mem_cons]
      tauto

theorem nodupKeys_update {d : Obj} (e : Obj) (h : nodupKeys d) :
    nodupKeys (update d e) := by
  induction e generalizing d with
  | nil => exact h
  | cons kv rest ih => exact ih (nodupKeys_setItem _ _ h)

theorem setItem_eq_append {d : Obj} {k : String} (v : JVal) (h : k ∉ keys d) :
    setItem d k v = d ++ [(k, v)] := by
  induction d with
  | nil => simp [setItem]
  | cons kv rest ih =>
      obtain ⟨k₀, v₀⟩ := kv
      simp only [keys_cons, List.mem_cons, not_or] at h
      rw [setItem, if_neg (fun hh => h.1 hh.symm), ih h.2]
      simp

theorem update_eq_append {d e : Obj} (hdisj : ∀ k ∈ keys e, k ∉ keys d)
    (he : nodupKeys e) : update d e = d ++ e := by
  induction e generalizing d with
  | nil => simp
  | cons kv rest ih =>
      obtain ⟨k₀, v₀⟩ := kv
      rw [nodupKeys_cons] at he
      rw [update_cons, setItem_eq_append _ (hdisj k₀ (by simp))]
      rw [ih ?_ he.2]
      · simp
      · intro k hk
        rw [keys_append]
        simp only [List.mem_append, keys_cons]
        push_neg
        refine ⟨hdisj k (by simp [hk]), ?_⟩
        intro hc
        simp only [keys, List.map_cons, List.map_nil, List.mem_singleton] at hc
        subst hc
        exact he.1 hk

theorem update_nil_of_nodup {e : Obj} (h : nodupKeys e) : update [] e = e := by
  rw [update_eq_append (by simp) h]
  simp

theorem update_eq_self {d e : Obj} (h : ∀ kv ∈ e, lookup? d kv.1 = some kv.2) :
    update d e = d := by
  induction e with
  | nil => rfl
  | cons kv rest ih =>
      obtain ⟨k₀, v₀⟩ := kv
      rw [update_cons, setItem_eq_of_lookup (h (k₀, v₀) (by simp))]
      exact ih fun kv hkv => h kv (by simp [hkv])

theorem nodupKeys_update_nil (e : Obj) : nodupKeys (update [] e) :=
  nodupKeys_update e nodupKeys_nil


/-! ## A pure characterization of the merge pipeline -/


theorem merge_settings_eq_assemble (s t : Obj) (p pl : Obj)
    (hp : permCond s t = true →
      merge_permissions (getD s "permissions" (.obj [])) (getD t "permissions" (.obj [])) = .ok p)
    (hpl : plugCond s t = true →
      merge_plugins (getD s "enabledPlugins" (.obj [])) (getD t "enabledPlugins" (.obj [])) = .ok pl) :
    merge_settings s t = .ok (mergeAssemble s t p pl) := by
  by_cases hc1 : permCond s t = true <;> by_cases hc2 : plugCond s t = true
  · simp [merge_settings, mergeAssemble, hc1, hc2, hp hc1, hpl hc2, Bind.bind, Except.bind, Pure.pure, Except.pure]
  · simp [merge_settings, mergeAssemble, hc1, hc2, hp hc1, Bind.bind, Except.bind, Pure.pure, Except.pure]
  · simp [merge_settings, mergeAssemble, hc1, hc2, hpl hc2, Bind.bind, Except.bind, Pure.pure, Except.pure]
  · simp [merge_settings, mergeAssemble, hc1, hc2, Bind.bind, Except.bind, Pure.pure, Except.pure]

theorem merge_settings_ok_cases {s t M : Obj} (h : merge_settings s t = .ok M) :
    ∃ p pl,
      (permCond s t = true →
        merge_permissions (getD s "permissions" (.obj [])) (getD t "permissions" (.obj [])) = .ok p) ∧
      (plugCond s t = true →
        merge_plugins (getD s "enabledPlugins" (.obj [])) (getD t "enabledPlugins" (.obj [])) = .ok pl) ∧
      M = mergeAssemble s t p pl := by
  by_cases hc1 : permCond s t = true <;> by_cases hc2 : plugCond s t = true
  · cases hmp : merge_permissions (getD s "permissions" (.obj [])) (getD t "permissions" (.obj [])) with
    | error e => rw [merge_settings] at h; simp [hc1, hmp, Bind.bind, Except.bind] at h
    | ok p =>
        cases hmpl : merge_plugins (getD s "enabledPlugins" (.obj [])) (getD t "enabledPlugins" (.obj [])) with
        | error e => rw [merge_settings] at h; simp [hc1, hc2, hmp, hmpl, Bind.bind, Except.bind, Pure.pure, Except.pure] at h
        | ok pl =>
            refine ⟨p, pl, fun _ => rfl, fun _ => rfl, ?_⟩
            have := merge_settings_eq_assemble s t p pl (fun _ => hmp) (fun _ => hmpl)
            rw [this] at h
            exact (Except.ok.injEq .. ▸ h).symm
  · cases hmp : merge_permissions (getD s "permissions" (.obj [])) (getD t "permissions" (.obj [])) with
    | error e => rw [merge_settings] at h; simp [hc1, hmp, Bind.bind, Except.bind] at h
    | ok p =>
        refine ⟨p, [], fun _ => rfl, fun hc => absurd hc hc2, ?_⟩
        have := merge_settings_eq_assemble s t p [] (fun _ => hmp) (fun hc => absurd hc hc2)
        rw [this] at h
        exact (Except.ok.injEq .. ▸ h).symm
  · cases hmpl : merge_plugins (getD s "enabledPlugins" (.obj [])) (getD t "enabledPlugins" (.obj [])) with
    | error e => rw [merge_settings] at h; simp [hc1, hc2, hmpl, Bind.bind, Except.bind, Pure.pure, Except.pure] at h
    | ok pl =>
        refine ⟨[], pl, fun hc => absurd hc hc1, fun _ => rfl, ?_⟩
        have := merge_settings_eq_assemble s t [] pl (fun hc => absurd hc hc1) (fun _ => hmpl)
        rw [this] at h
        exact (Except.ok.injEq .. ▸ h).symm
  · refine ⟨[], [], fun hc => absurd hc hc1, fun hc => absurd hc hc2, ?_⟩
    have := merge_settings_eq_assemble s t [] [] (fun hc => absurd hc hc1) (fun hc => absurd hc hc2)
    rw [this] at h
    exact (Except.ok.injEq .. ▸ h).symm

/-- Push a key lookup through one guarded assignment whose key differs. -/
theorem lookup?_condStage_ne {c : Prop} [Decidable c] (d : Obj) {k' k : String} (v : JVal)
    (h : k' ≠ k) :
    lookup? (if c then setItem d k' v else d) k = lookup? d k := by
  split
  · exact lookup?_setItem_ne d v h
  · rfl

/-- A key lookup at the key of a guarded assignment. -/
theorem lookup?_condStage_self {c : Prop} [Decidable c] (d : Obj) (k : String) (v : JVal) :
    lookup? (if c then setItem d k v else d) k = if c then some v else lookup? d k := by
  by_cases hc : c <;> simp [hc, lookup?_setItem_self]

theorem nodupKeys_condStage {c : Prop} [Decidable c] {d : Obj} (k : String) (v : JVal)
    (h : nodupKeys d) : nodupKeys (if c then setItem d k v else d) := by
  split
  · exact nodupKeys_setItem _ _ h
  · exact h

theorem mem_keys_condStage {c : Prop} [Decidable c] (d : Obj) (k' k : String) (v : JVal) :
    k ∈ keys (if c then setItem d k' v else d) ↔ k ∈ keys d ∨ (c ∧ k = k') := by
  by_cases hc : c <;> simp [hc, mem_keys_setItem]

theorem nodupKeys_mergeAssemble (s t : Obj) (p pl : Obj) :
    nodupKeys (mergeAssemble s t p pl) := by
  simp only [mergeAssemble]
  exact nodupKeys_condStage _ _ (nodupKeys_condStage _ _ (nodupKeys_condStage _ _
    (nodupKeys_condStage _ _ (nodupKeys_condStage _ _ (nodupKeys_condStage _ _
      (nodupKeys_condStage _ _ (nodupKeys_update_nil t)))))))

theorem lookup?_assemble_unrec (s t : Obj) (p pl : Obj) {k : String}
    (h1 : k ≠ "$schema") (h2 : k ≠ "feedbackSurveyState") (h3 : k ≠ "enabledPlugins")
    (h4 : k ≠ "alwaysThinkingEnabled") (h5 : k ≠ "statusLine") (h6 : k ≠ "model")
    (h7 : k ≠ "permissions") :
    lookup? (mergeAssemble s t p pl) k = lookup? (update [] t) k := by
  simp only [mergeAssemble]
  rw [lookup?_condStage_ne _ _ (Ne.symm h1), lookup?_condStage_ne _ _ (Ne.symm h2),
    lookup?_condStage_ne _ _ (Ne.symm h3), lookup?_condStage_ne _ _ (Ne.symm h4),
    lookup?_condStage_ne _ _ (Ne.symm h5), lookup?_condStage_ne _ _ (Ne.symm h6),
    lookup?_condStage_ne _ _ (Ne.symm h7)]

theorem lookup?_assemble_permissions (s t : Obj) (p pl : Obj) :
    lookup? (mergeAssemble s t p pl) "permissions"
      = if permCond s t then some (.obj p) else lookup? (update [] t) "permissions" := by
  simp only [mergeAssemble]
  simp +decide only [lookup?_condStage_ne, lookup?_condStage_self]

theorem lookup?_assemble_model (s t : Obj) (p pl : Obj) :
    lookup? (mergeAssemble s t p pl) "model"
      = if hasKey s "model" then some (getD s "model" .null)
        else lookup? (update [] t) "model" := by
  simp only [mergeAssemble]
  simp +decide only [lookup?_condStage_ne, lookup?_condStage_self]

theorem lookup?_assemble_statusLine (s t : Obj) (p pl : Obj) :
    lookup? (mergeAssemble s t p pl) "statusLine"
      = if hasKey s "statusLine" then some (getD s "statusLine" .null)
        else lookup? (update [] t) "statusLine" := by
  simp only [mergeAssemble]
  simp +decide only [lookup?_condStage_ne, lookup?_condStage_self]

theorem lookup?_assemble_thinking (s t : Obj) (p pl : Obj) :
    lookup? (mergeAssemble s t p pl) "alwaysThinkingEnabled"
      = if hasKey s "alwaysThinkingEnabled" then some (getD s "alwaysThinkingEnabled" .null)
        else lookup? (update [] t) "alwaysThinkingEnabled" := by
  simp only [mergeAssemble]
  simp +decide only [lookup?_condStage_ne, lookup?_condStage_self]

theorem lookup?_assemble_plugins (s t : Obj) (p pl : Obj) :
    lookup? (mergeAssemble s t p pl) "enabledPlugins"
      = if plugCond s t then some (.obj pl) else lookup? (update [] t) "enabledPlugins" := by
  simp only [mergeAssemble]
  simp +decide only [lookup?_condStage_ne, lookup?_condStage_self]

theorem lookup?_assemble_survey (s t : Obj) (p pl : Obj) :
    lookup? (mergeAssemble s t p pl) "feedbackSurveyState"
      = if hasKey t "feedbackSurveyState" then some (getD t "feedbackSurveyState" .null)
        else lookup? (update [] t) "feedbackSurveyState" := by
  simp only [mergeAssemble]
  simp +decide only [lookup?_condStage_ne, lookup?_condStage_self]

theorem lookup?_assemble_schema (s t : Obj) (p pl : Obj) :
    lookup? (mergeAssemble s t p pl) "$schema"
      = if hasKey s "$schema" then some (getD s "$schema" .null)
        else lookup? (update [] t) "$schema" := by
  simp only [mergeAssemble]
  simp +decide only [lookup?_condStage_ne, lookup?_condStage_self]

set_option maxHeartbeats 1000000 in
theorem mem_keys_mergeAssemble (s t : Obj) (p pl : Obj) (k : String) :
    k ∈ keys (mergeAssemble s t p pl) ↔
      k ∈ keys t
      ∨ (permCond s t = true ∧ k = "permissions")
      ∨ (hasKey s "model" = true ∧ k = "model")
      ∨ (hasKey s "statusLine" = true ∧ k = "statusLine")
      ∨ (hasKey s "alwaysThinkingEnabled" = true ∧ k = "alwaysThinkingEnabled")
      ∨ (plugCond s t = true ∧ k = "enabledPlugins")
      ∨ (hasKey t "feedbackSurveyState" = true ∧ k = "feedbackSurveyState")
      ∨ (hasKey s "$schema" = true ∧ k = "$schema") := by
  simp only [mergeAssemble, mem_keys_condStage, mem_keys_update, keys_nil,
    List.not_mem_nil, false_or]
  tauto


/-! ## Lemmas about the embedded Python set/sort primitives -/

theorem pyEq_refl (a : JVal) : pyEq a a = true := by
  unfold pyEq
  cases h : toIntVal a <;> simp

theorem pyEq_symm (a b : JVal) : pyEq a b = pyEq b a := by
  unfold pyEq
  cases ha : toIntVal a <;> cases hb : toIntVal b <;> simp [BEq.comm, eq_comm]

theorem pyEq_true_iff (a b : JVal) :
    pyEq a b = true ↔
      (∃ x y, toIntVal a = some x ∧ toIntVal b = some y ∧ x = y)
      ∨ (toIntVal a = none ∧ toIntVal b = none ∧ a = b) := by
  unfold pyEq
  cases toIntVal a <;> cases toIntVal b <;> simp

theorem pyEq_trans {a b c : JVal} (h1 : pyEq a b = true) (h2 : pyEq b c = true) :
    pyEq a c = true := by
  rw [pyEq_true_iff] at h1 h2 ⊢
  rcases h1 with ⟨x, y, hax, hby, rfl⟩ | ⟨hax, hbx, rfl⟩
  · rcases h2 with ⟨x', z, hbx', hcz, rfl⟩ | ⟨hbn, _, rfl⟩
    · rw [hby] at hbx'
      injection hbx' with hbx'
      exact Or.inl ⟨x, x', hax, hcz, hbx'⟩
    · rw [hby] at hbn
      exact Option.noConfusion hbn
  · rcases h2 with ⟨x', z, hbx', hcz, rfl⟩ | ⟨hbn, hcn, rfl⟩
    · rw [hbx] at hbx'
      exact Option.noConfusion hbx'
    · exact Or.inr ⟨hax, hcn, rfl⟩

theorem pyHashable_of_jIsStr {x : JVal} (h : jIsStr x = true) : pyHashable x = true := by
  cases x <;> simp_all [jIsStr, pyHashable]

theorem mem_pyDedupAux {x : JVal} :
    ∀ {seen l : List JVal}, x ∈ pyDedupAux seen l → x ∈ l := by
  intro seen l
  induction l generalizing seen with
  | nil => simp [pyDedupAux]
  | cons y rest ih =>
      rw [pyDedupAux]
      by_cases hm : pyMemB y seen = true
      · rw [if_pos hm]
        exact fun h => List.mem_cons_of_mem _ (ih h)
      · rw [if_neg hm]
        intro h
        rcases List.mem_cons.mp h with rfl | h
        · exact List.mem_cons_self _ _
        · exact List.mem_cons_of_mem _ (ih h)

theorem mem_pyDedup {x : JVal} {l : List JVal} (h : x ∈ pyDedup l) : x ∈ l :=
  mem_pyDedupAux h

theorem not_mem_seen_of_mem_pyDedupAux {x : JVal} :
    ∀ {seen l : List JVal}, x ∈ pyDedupAux seen l → pyMemB x seen = false := by
  intro seen l
  induction l generalizing seen with
  | nil => simp [pyDedupAux]
  | cons y rest ih =>
      rw [pyDedupAux]
      by_cases hm : pyMemB y seen = true
      · rw [if_pos hm]
        exact ih
      · rw [if_neg hm]
        intro h
        rcases List.mem_cons.mp h with rfl | h
        · simpa using hm
        · have hrec := ih h
          simp only [pyMemB, List.any_cons, Bool.or_eq_false_iff] at hrec
          simpa [pyMemB] using hrec.2

theorem pyNodup_pyDedupAux (seen l : List JVal) : pyNodup (pyDedupAux seen l) := by
  induction l generalizing seen with
  | nil => exact List.Pairwise.nil
  | cons y rest ih =>
      rw [pyDedupAux]
      by_cases hm : pyMemB y seen = true
      · rw [if_pos hm]
        exact ih seen
      · rw [if_neg hm]
        refine List.Pairwise.cons ?_ (ih (y :: seen))
        intro z hz
        have hns := not_mem_seen_of_mem_pyDedupAux hz
        simp only [pyMemB, List.any_cons, Bool.or_eq_false_iff] at hns
        rw [pyEq_symm]
        exact hns.1

theorem pyNodup_pyDedup (l : List JVal) : pyNodup (pyDedup l) :=
  pyNodup_pyDedupAux [] l

theorem pyDedupAux_eq_self {l : List JVal} (hl : pyNodup l) :
    ∀ {seen : List JVal}, (∀ x ∈ l, pyMemB x seen = false) → pyDedupAux seen l = l := by
  induction l with
  | nil => intro seen _; rfl
  | cons y rest ih =>
      intro seen hseen
      rw [pyNodup, List.pairwise_cons] at hl
      rw [pyDedupAux, if_neg (by simp [hseen y (List.mem_cons_self y rest)])]
      congr 1
      refine ih hl.2 ?_
      intro x hx
      simp only [pyMemB, List.any_cons, Bool.or_eq_false_iff]
      constructor
      · rw [pyEq_symm]
        exact hl.1 x hx
      · have := hseen x (List.mem_cons_of_mem _ hx)
        simpa [pyMemB] using this

theorem pyDedup_eq_self {l : List JVal} (hl : pyNodup l) : pyDedup l = l :=
  pyDedupAux_eq_self hl (by simp [pyMemB])

theorem pyNodup_filter (p : JVal → Bool) {l : List JVal} (h : pyNodup l) :
    pyNodup (l.filter p) := List.Pairwise.filter p h

theorem pyNodup_pyUnion {a b : List JVal} (ha : pyNodup a) (hb : pyNodup b) :
    pyNodup (pyUnion a b) := by
  rw [pyUnion, pyNodup, List.pairwise_append]
  refine ⟨ha, pyNodup_filter _ hb, ?_⟩
  intro x hx y hy
  have hmem := List.of_mem_filter hy
  simp only [Bool.not_eq_true'] at hmem
  simp only [pyMemB, List.any_eq_false] at hmem
  rw [pyEq_symm]
  exact Bool.eq_false_iff.mpr (hmem x hx)

theorem pySetOf_ok_spec {v : JVal} {l : List JVal} (h : pySetOf v = .ok l) :
    pyNodup l ∧ l.all pyHashable = true := by
  cases v with
  | arr xs =>
      rw [pySetOf] at h
      by_cases hall : xs.all pyHashable = true
      · rw [if_pos hall] at h
        injection h with h
        subst h
        refine ⟨pyNodup_pyDedup xs, ?_⟩
        rw [List.all_eq_true] at hall ⊢
        exact fun x hx => hall x (mem_pyDedup hx)
      · rw [if_neg hall] at h
        exact absurd h (by simp)
  | str s =>
      rw [pySetOf] at h
      injection h with h
      subst h
      constructor
      · exact pyNodup_pyDedup _
      · rw [List.all_eq_true]
        intro x hx
        have := mem_pyDedup hx
        simp only [List.mem_map] at this
        obtain ⟨c, _, rfl⟩ := this
        rfl
  | obj kvs =>
      rw [pySetOf] at h
      injection h with h
      subst h
      constructor
      · exact pyNodup_pyDedup _
      · rw [List.all_eq_true]
        intro x hx
        have := mem_pyDedup hx
        simp only [List.mem_map] at this
        obtain ⟨c, _, rfl⟩ := this
        rfl
  | num n => exact absurd h (by simp [pySetOf])
  | bool b => exact absurd h (by simp [pySetOf])
  | null => exact absurd h (by simp [pySetOf])


/-! ## The string and numeric orders used by `sorted` -/

theorem strLeB_total : ∀ a b : List Char, strLeB a b = true ∨ strLeB b a = true
  | [], _ => Or.inl rfl
  | _ :: _, [] => Or.inr rfl
  | a :: as, b :: bs => by
      by_cases hab : a = b
      · subst hab
        rw [strLeB, if_pos rfl, strLeB, if_pos rfl]
        exact strLeB_total as bs
      · rw [strLeB, if_neg hab, strLeB, if_neg (Ne.symm hab)]
        rcases lt_trichotomy a b with h | h | h
        · exact Or.inl (by simp [h])
        · exact absurd h hab
        · exact Or.inr (by simp [h])

theorem strLeB_trans : ∀ {a b c : List Char},
    strLeB a b = true → strLeB b c = true → strLeB a c = true
  | [], _, _, _, _ => rfl
  | _ :: _, [], _, h1, _ => by simp [strLeB] at h1
  | _ :: _, _ :: _, [], _, h2 => by simp [strLeB] at h2
  | a :: as, b :: bs, c :: cs, h1, h2 => by
      by_cases hab : a = b <;> by_cases hbc : b = c
      · subst hab; subst hbc
        rw [strLeB, if_pos rfl] at h1 h2 ⊢
        exact strLeB_trans h1 h2
      · subst hab
        rw [strLeB, if_neg hbc] at h2 ⊢
        exact h2
      · subst hbc
        rw [strLeB, if_neg hab] at h1 ⊢
        exact h1
      · rw [strLeB, if_neg hab] at h1
        rw [strLeB, if_neg hbc] at h2
        have hac : a < c := lt_trans (of_decide_eq_true h1) (of_decide_eq_true h2)
        rw [strLeB, if_neg (ne_of_lt hac)]
        simp [hac]

theorem strLeB_antisymm : ∀ {a b : List Char},
    strLeB a b = true → strLeB b a = true → a = b
  | [], [], _, _ => rfl
  | [], _ :: _, _, h2 => by simp [strLeB] at h2
  | _ :: _, [], h1, _ => by simp [strLeB] at h1
  | a :: as, b :: bs, h1, h2 => by
      by_cases hab : a = b
      · subst hab
        rw [strLeB, if_pos rfl] at h1 h2
        rw [strLeB_antisymm h1 h2]
      · rw [strLeB, if_neg hab] at h1
        rw [strLeB, if_neg (Ne.symm hab)] at h2
        exact absurd (lt_trans (of_decide_eq_true h1) (of_decide_eq_true h2))
          (lt_irrefl a)

instance : IsTotal String sLe := ⟨fun a b => by
  rcases strLeB_total a.data b.data with h | h
  · exact Or.inl h
  · exact Or.inr h⟩

instance : IsTrans String sLe := ⟨fun _ _ _ h1 h2 => strLeB_trans h1 h2⟩

instance : IsAntisymm String sLe := ⟨fun a b h1 h2 => by
  cases a; cases b
  congr 1
  exact strLeB_antisymm h1 h2⟩


instance : IsAntisymm JVal numLt :=
  ⟨fun v _ h1 h2 => absurd (lt_trans h1 h2) (lt_irrefl (intKey v))⟩

instance : IsTotal JVal numLe := ⟨fun v w => Int.le_total (intKey v) (intKey w)⟩

instance : IsTrans JVal numLe := ⟨fun _ _ _ h1 h2 => Int.le_trans h1 h2⟩

theorem pyEq_num_iff {a b : JVal} (ha : jIsNum a = true) (hb : jIsNum b = true) :
    pyEq a b = true ↔ intKey a = intKey b := by
  cases a <;> simp [jIsNum] at ha <;> cases b <;> simp [jIsNum] at hb <;>
    simp [pyEq, toIntVal, intKey]

/-! ## Permutation transfer lemmas -/

theorem perm_all_eq {l₁ l₂ : List JVal} (hp : List.Perm l₁ l₂) (p : JVal → Bool) :
    l₁.all p = l₂.all p := by
  cases h1 : l₁.all p <;> cases h2 : l₂.all p
  · rfl
  · rw [List.all_eq_true] at h2
    rw [List.all_eq_false] at h1
    obtain ⟨x, hx, hpx⟩ := h1
    exact absurd (h2 x (hp.mem_iff.mp hx)) hpx
  · rw [List.all_eq_true] at h1
    rw [List.all_eq_false] at h2
    obtain ⟨x, hx, hpx⟩ := h2
    exact absurd (h1 x (hp.mem_iff.mpr hx)) hpx
  · rfl

theorem pyNodup_perm {l₁ l₂ : List JVal} (hp : List.Perm l₁ l₂) (h : pyNodup l₁) :
    pyNodup l₂ :=
  (hp.pairwise_iff fun h => by rw [pyEq_symm]; exact h).mp h

theorem pyMemB_of_mem {x : JVal} {l : List JVal} (h : x ∈ l) : pyMemB x l = true := by
  rw [pyMemB, List.any_eq_true]
  exact ⟨x, h, pyEq_refl x⟩

theorem pyUnion_all {a b : List JVal} (p : JVal → Bool) (ha : a.all p = true)
    (hb : b.all p = true) : (pyUnion a b).all p = true := by
  rw [pyUnion, List.all_append, ha, Bool.true_and, List.all_eq_true]
  rw [List.all_eq_true] at hb
  exact fun x hx => hb x (List.mem_of_mem_filter hx)

theorem pyUnion_perm_right {sa ta M : List JVal}
    (hM : List.Perm M (pyUnion sa ta)) :
    List.Perm (pyUnion sa M) (pyUnion sa ta) := by
  unfold pyUnion at hM ⊢
  refine List.Perm.append_left sa ?_
  have hf := hM.filter fun x => !(pyMemB x sa)
  rw [List.filter_append] at hf
  have h1 : (sa.filter fun x => !(pyMemB x sa)) = [] := by
    rw [List.filter_eq_nil_iff]
    intro x hx
    simp [pyMemB_of_mem hx]
  have h2 : ((ta.filter fun x => !(pyMemB x sa)).filter fun x => !(pyMemB x sa))
      = ta.filter fun x => !(pyMemB x sa) := by
    rw [List.filter_filter]
    simp
  rw [h1, h2, List.nil_append] at hf
  exact hf

/-! ## `sorted` is canonical on duplicate-free input -/

theorem map_str_unStr {l : List JVal} (h : l.all jIsStr = true) :
    (l.map unStr).map JVal.str = l := by
  induction l with
  | nil => rfl
  | cons x rest ih =>
      rw [List.all_cons, Bool.and_eq_true] at h
      obtain ⟨h1, h2⟩ := h
      cases x with
      | str s =>
          rw [List.map_cons, List.map_cons, ih h2]
          rfl
      | num n => exact absurd h1 (by simp [jIsStr])
      | bool b => exact absurd h1 (by simp [jIsStr])
      | null => exact absurd h1 (by simp [jIsStr])
      | arr xs => exact absurd h1 (by simp [jIsStr])
      | obj kvs => exact absurd h1 (by simp [jIsStr])

theorem pySorted_perm {l r : List JVal} (h : pySorted l = .ok r) : List.Perm r l := by
  unfold pySorted at h
  by_cases hl : l.length ≤ 1
  · rw [if_pos hl] at h
    injection h with h
    subst h
    exact List.Perm.refl l
  · rw [if_neg hl] at h
    by_cases hstr : l.all jIsStr = true
    · rw [if_pos hstr] at h
      injection h with h
      subst h
      have := (List.perm_insertionSort sLe (l.map unStr)).map JVal.str
      rwa [map_str_unStr hstr] at this
    · rw [if_neg hstr] at h
      by_cases hnum : l.all jIsNum = true
      · rw [if_pos hnum] at h
        injection h with h
        subst h
        exact List.perm_insertionSort numLe l
      · rw [if_neg hnum] at h
        exact absurd h (by simp)

theorem perm_eq_of_length_le_one {l₁ l₂ : List JVal} (hp : List.Perm l₁ l₂)
    (hl : l₂.length ≤ 1) : l₁ = l₂ := by
  match l₂, hl with
  | [], _ => exact List.Perm.eq_nil hp
  | [a], _ => exact List.perm_singleton.mp hp

theorem sorted_numLt_of_sorted_numLe {l : List JVal} (hs : l.Sorted numLe)
    (hn : pyNodup l) (hnum : l.all jIsNum = true) : l.Sorted numLt := by
  rw [List.all_eq_true] at hnum
  have hand := List.Pairwise.and hs hn
  refine hand.imp_of_mem ?_
  intro a b ha hb hab
  have hne : intKey a ≠ intKey b := by
    intro hc
    rw [← pyEq_num_iff (hnum a ha) (hnum b hb)] at hc
    rw [hab.2] at hc
    exact Bool.noConfusion hc
  exact lt_of_le_of_ne hab.1 hne

theorem pySorted_congr {l₁ l₂ : List JVal} (hp : List.Perm l₁ l₂) (hn : pyNodup l₁) :
    pySorted l₁ = pySorted l₂ := by
  unfold pySorted
  rw [hp.length_eq, perm_all_eq hp jIsStr, perm_all_eq hp jIsNum]
  by_cases hl : l₂.length ≤ 1
  · rw [if_pos hl, if_pos hl, perm_eq_of_length_le_one hp hl]
  · rw [if_neg hl, if_neg hl]
    by_cases hstr : l₂.all jIsStr = true
    · rw [if_pos hstr, if_pos hstr]
      congr 1
      have hsorteq : (l₁.map unStr).insertionSort sLe = (l₂.map unStr).insertionSort sLe := by
        refine List.eq_of_perm_of_sorted (r := sLe) ?_ ?_ ?_
        · exact (List.perm_insertionSort sLe (l₁.map unStr)).trans
            ((hp.map unStr).trans (List.perm_insertionSort sLe (l₂.map unStr)).symm)
        · exact List.sorted_insertionSort sLe (l₁.map unStr)
        · exact List.sorted_insertionSort sLe (l₂.map unStr)
      rw [hsorteq]
    · rw [if_neg hstr, if_neg hstr]
      by_cases hnum : l₂.all jIsNum = true
      · rw [if_pos hnum, if_pos hnum]
        congr 1
        have hnum₁ : l₁.all jIsNum = true := by rw [perm_all_eq hp jIsNum]; exact hnum
        refine List.eq_of_perm_of_sorted (r := numLt) ?_ ?_ ?_
        · exact (List.perm_insertionSort numLe l₁).trans
            (hp.trans (List.perm_insertionSort numLe l₂).symm)
        · refine sorted_numLt_of_sorted_numLe (List.sorted_insertionSort numLe l₁) ?_ ?_
          · exact pyNodup_perm (List.perm_insertionSort numLe l₁).symm hn
          · rw [perm_all_eq (List.perm_insertionSort numLe l₁) jIsNum]
            exact hnum₁
        · refine sorted_numLt_of_sorted_numLe (List.sorted_insertionSort numLe l₂) ?_ ?_
          · exact pyNodup_perm (List.perm_insertionSort numLe l₂).symm
              (pyNodup_perm hp hn)
          · rw [perm_all_eq (List.perm_insertionSort numLe l₂) jIsNum]
            exact hnum
      · rw [if_neg hnum, if_neg hnum]


/-! ## Shape and idempotence of the permission and plugin helpers -/

theorem asObj_ok {v : JVal} {o : Obj} (h : asObj v = .ok o) : v = .obj o := by
  cases v <;> simp_all [asObj]

theorem pySetOf_arr (xs : List JVal) :
    pySetOf (.arr xs)
      = if xs.all pyHashable = true then .ok (pyDedup xs) else .error .typeError := rfl

theorem merge_permissions_eq_ok (so to' : Obj) {sa ta srt : List JVal}
    (h1 : pySetOf (getD so "allow" (.arr [])) = .ok sa)
    (h2 : pySetOf (getD to' "allow" (.arr [])) = .ok ta)
    (h3 : pySorted (pyUnion sa ta) = .ok srt) :
    merge_permissions (.obj so) (.obj to') = .ok (permAssemble to' srt) := by
  rw [merge_permissions]
  simp only [Bind.bind, Except.bind, asObj, h1, h2, h3, Pure.pure, Except.pure]
  rfl

theorem exceptBind_ok_inv {ε α β : Type} {x : Except ε α} {f : α → Except ε β} {b : β}
    (h : (x >>= f) = .ok b) : ∃ a, x = .ok a ∧ f a = .ok b := by
  cases x with
  | error e => simp [Bind.bind, Except.bind] at h
  | ok a => exact ⟨a, rfl, by simpa [Bind.bind, Except.bind] using h⟩

theorem merge_permissions_ok_shape {sv tv : JVal} {p : Obj}
    (h : merge_permissions sv tv = .ok p) :
    ∃ so to' sa ta srt,
      sv = .obj so ∧ tv = .obj to'
      ∧ pySetOf (getD so "allow" (.arr [])) = .ok sa
      ∧ pySetOf (getD to' "allow" (.arr [])) = .ok ta
      ∧ pySorted (pyUnion sa ta) = .ok srt
      ∧ p = permAssemble to' srt := by
  rw [merge_permissions] at h
  obtain ⟨so, hso, h⟩ := exceptBind_ok_inv h
  obtain ⟨sa, hsa, h⟩ := exceptBind_ok_inv h
  obtain ⟨to', hto, h⟩ := exceptBind_ok_inv h
  obtain ⟨ta, hta, h⟩ := exceptBind_ok_inv h
  obtain ⟨srt, hsrt, h⟩ := exceptBind_ok_inv h
  refine ⟨so, to', sa, ta, srt, asObj_ok hso, asObj_ok hto, hsa, hta, hsrt, ?_⟩
  have h' : Except.ok (α := Obj) (ε := PyErr) (permAssemble to' srt) = .ok p := h
  injection h' with h'
  exact h'.symm

theorem lookup?_permAssemble_allow (to' : Obj) (srt : List JVal) :
    lookup? (permAssemble to' srt) "allow"
      = if srt.isEmpty then none else some (.arr srt) := by
  simp only [permAssemble]
  simp +decide only [lookup?_condStage_ne]
  split <;> simp [lookup?]

theorem lookup?_permAssemble_deny (to' : Obj) (srt : List JVal) :
    lookup? (permAssemble to' srt) "deny"
      = if hasKey to' "deny" then some (getD to' "deny" .null) else none := by
  simp only [permAssemble]
  simp +decide only [lookup?_condStage_ne, lookup?_condStage_self]
  by_cases hd : hasKey to' "deny" = true
  · simp [hd]
  · simp only [hd, if_false, Bool.false_eq_true]
    split <;> simp [lookup?]

theorem lookup?_permAssemble_ask (to' : Obj) (srt : List JVal) :
    lookup? (permAssemble to' srt) "ask"
      = if hasKey to' "ask" then some (getD to' "ask" .null) else none := by
  simp only [permAssemble]
  simp +decide only [lookup?_condStage_ne, lookup?_condStage_self]
  by_cases ha : hasKey to' "ask" = true
  · simp [ha]
  · simp only [ha, if_false, Bool.false_eq_true]
    split <;> simp [lookup?]

theorem getD_permAssemble_allow (to' : Obj) (srt : List JVal) :
    getD (permAssemble to' srt) "allow" (.arr []) = .arr srt := by
  rw [getD, lookup?_permAssemble_allow]
  by_cases he : srt.isEmpty
  · rw [if_pos he]
    rw [List.isEmpty_iff] at he
    rw [he]
    rfl
  · rw [if_neg he]
    rfl

theorem hasKey_permAssemble_deny (to' : Obj) (srt : List JVal) :
    hasKey (permAssemble to' srt) "deny" = hasKey to' "deny" := by
  rw [hasKey, lookup?_permAssemble_deny]
  by_cases hd : hasKey to' "deny" = true <;> simp [hd]

theorem hasKey_permAssemble_ask (to' : Obj) (srt : List JVal) :
    hasKey (permAssemble to' srt) "ask" = hasKey to' "ask" := by
  rw [hasKey, lookup?_permAssemble_ask]
  by_cases ha : hasKey to' "ask" = true <;> simp [ha]

theorem getD_permAssemble_deny (to' : Obj) (srt : List JVal) :
    getD (permAssemble to' srt) "deny" .null = getD to' "deny" .null := by
  rw [getD, lookup?_permAssemble_deny]
  by_cases hd : hasKey to' "deny" = true
  · simp [hd]
  · rw [if_neg (by simp [hd])]
    rw [hasKey] at hd
    rw [getD]
    cases hl : lookup? to' "deny"
    · rfl
    · rw [hl] at hd
      simp at hd

theorem getD_permAssemble_ask (to' : Obj) (srt : List JVal) :
    getD (permAssemble to' srt) "ask" .null = getD to' "ask" .null := by
  rw [getD, lookup?_permAssemble_ask]
  by_cases ha : hasKey to' "ask" = true
  · simp [ha]
  · rw [if_neg (by simp [ha])]
    rw [hasKey] at ha
    rw [getD]
    cases hl : lookup? to' "ask"
    · rfl
    · rw [hl] at ha
      simp at ha

theorem permAssemble_congr {d d' : Obj} (srt : List JVal)
    (hd : hasKey d "deny" = hasKey d' "deny")
    (hdv : getD d "deny" .null = getD d' "deny" .null)
    (ha : hasKey d "ask" = hasKey d' "ask")
    (hav : getD d "ask" .null = getD d' "ask" .null) :
    permAssemble d srt = permAssemble d' srt := by
  simp only [permAssemble, hd, hdv, ha, hav]

theorem merge_permissions_idem {sv tv : JVal} {p : Obj}
    (h : merge_permissions sv tv = .ok p) :
    merge_permissions sv (.obj p) = .ok p := by
  obtain ⟨so, to', sa, ta, srt, rfl, rfl, hsa, hta, hsrt, rfl⟩ :=
    merge_permissions_ok_shape h
  have hsaspec := pySetOf_ok_spec hsa
  have htaspec := pySetOf_ok_spec hta
  have hperm : List.Perm srt (pyUnion sa ta) := pySorted_perm hsrt
  have hsrtnodup : pyNodup srt :=
    pyNodup_perm hperm.symm (pyNodup_pyUnion hsaspec.1 htaspec.1)
  have hsrthash : srt.all pyHashable = true := by
    rw [perm_all_eq hperm pyHashable]
    exact pyUnion_all _ hsaspec.2 htaspec.2
  have hset2 : pySetOf (getD (permAssemble to' srt) "allow" (.arr [])) = .ok srt := by
    rw [getD_permAssemble_allow, pySetOf_arr, if_pos hsrthash, pyDedup_eq_self hsrtnodup]
  have hsorted2 : pySorted (pyUnion sa srt) = .ok srt := by
    rw [pySorted_congr (pyUnion_perm_right hperm) (pyNodup_pyUnion hsaspec.1 hsrtnodup)]
    exact hsrt
  rw [merge_permissions_eq_ok so (permAssemble to' srt) hsa hset2 hsorted2]
  rw [permAssemble_congr srt (hasKey_permAssemble_deny to' srt) (getD_permAssemble_deny to' srt)
    (hasKey_permAssemble_ask to' srt) (getD_permAssemble_ask to' srt)]

theorem merge_plugins_eq_ok (so to' : Obj) :
    merge_plugins (.obj so) (.obj to') = .ok (update (update [] to') so) := by
  rw [merge_plugins]
  simp [Bind.bind, Except.bind, asObj, Pure.pure, Except.pure]

theorem merge_plugins_ok_shape {sv tv : JVal} {pl : Obj}
    (h : merge_plugins sv tv = .ok pl) :
    ∃ so to', sv = .obj so ∧ tv = .obj to' ∧ pl = update (update [] to') so := by
  rw [merge_plugins] at h
  obtain ⟨to', hto, h⟩ := exceptBind_ok_inv h
  obtain ⟨so, hso, h⟩ := exceptBind_ok_inv h
  refine ⟨so, to', asObj_ok hso, asObj_ok hto, ?_⟩
  have h' : Except.ok (α := Obj) (ε := PyErr) (update (update [] to') so) = .ok pl := h
  injection h' with h'
  exact h'.symm

theorem merge_plugins_idem {sv tv : JVal} {pl : Obj}
    (h : merge_plugins sv tv = .ok pl) (hs : nodupKeysV sv) :
    merge_plugins sv (.obj pl) = .ok pl := by
  obtain ⟨so, to', rfl, rfl, rfl⟩ := merge_plugins_ok_shape h
  rw [merge_plugins_eq_ok]
  have hnodup : nodupKeys (update (update [] to') so) :=
    nodupKeys_update so (nodupKeys_update_nil to')
  rw [update_nil_of_nodup hnodup]
  rw [update_eq_self ?_]
  intro kv hkv
  exact lookup?_update_mem _ hs hkv


/-! ## Idempotence of the full merge -/

theorem lookup?_eq_none_of_hasKey_false {d : Obj} {k : String}
    (h : hasKey d k = false) : lookup? d k = none := by
  rw [hasKey] at h
  cases hl : lookup? d k
  · rfl
  · rw [hl] at h
    simp at h

theorem condStage_collapse {c : Prop} [Decidable c] {d : Obj} {k : String} {v : JVal}
    (h : c → lookup? d k = some v) : (if c then setItem d k v else d) = d := by
  split
  · exact setItem_eq_of_lookup (h (by assumption))
  · rfl

theorem lookup?_getD_of_hasKey {d : Obj} {k : String} (h : hasKey d k = true) :
    lookup? d k = some (getD d k .null) := by
  rw [hasKey] at h
  rw [getD]
  cases hl : lookup? d k
  · rw [hl] at h
    simp at h
  · rfl

theorem permCond_assemble (s t : Obj) (p pl : Obj) :
    permCond s (mergeAssemble s t p pl) = permCond s t := by
  cases hst : permCond s t with
  | true =>
      have hl : lookup? (mergeAssemble s t p pl) "permissions" = some (.obj p) := by
        rw [lookup?_assemble_permissions, if_pos hst]
      simp [permCond, hasKey, hl]
  | false =>
      have hsp : hasKey s "permissions" = false ∧ hasKey t "permissions" = false := by
        rw [permCond, Bool.or_eq_false_iff] at hst
        exact hst
      have hl : lookup? (mergeAssemble s t p pl) "permissions" = none := by
        rw [lookup?_assemble_permissions, if_neg (by simp [hst])]
        rw [lookup?_eq_none_iff, mem_keys_update]
        simp only [keys_nil, List.not_mem_nil, false_or]
        exact (hasKey_false_iff t "permissions").mp hsp.2
      simp [permCond, hasKey, hl, lookup?_eq_none_of_hasKey_false hsp.1]

theorem plugCond_assemble (s t : Obj) (p pl : Obj) :
    plugCond s (mergeAssemble s t p pl) = plugCond s t := by
  cases hst : plugCond s t with
  | true =>
      have hl : lookup? (mergeAssemble s t p pl) "enabledPlugins" = some (.obj pl) := by
        rw [lookup?_assemble_plugins, if_pos hst]
      simp [plugCond, hasKey, hl]
  | false =>
      have hsp : hasKey s "enabledPlugins" = false ∧ hasKey t "enabledPlugins" = false := by
        rw [plugCond, Bool.or_eq_false_iff] at hst
        exact hst
      have hl : lookup? (mergeAssemble s t p pl) "enabledPlugins" = none := by
        rw [lookup?_assemble_plugins, if_neg (by simp [hst])]
        rw [lookup?_eq_none_iff, mem_keys_update]
        simp only [keys_nil, List.not_mem_nil, false_or]
        exact (hasKey_false_iff t "enabledPlugins").mp hsp.2
      simp [plugCond, hasKey, hl, lookup?_eq_none_of_hasKey_false hsp.1]

theorem mergeAssemble_eq_self {s M p pl : Obj}
    (hnodup : nodupKeys M)
    (hperm : permCond s M = true → lookup? M "permissions" = some (.obj p))
    (hmodel : hasKey s "model" = true → lookup? M "model" = some (getD s "model" .null))
    (hstatus : hasKey s "statusLine" = true →
      lookup? M "statusLine" = some (getD s "statusLine" .null))
    (hthink : hasKey s "alwaysThinkingEnabled" = true →
      lookup? M "alwaysThinkingEnabled" = some (getD s "alwaysThinkingEnabled" .null))
    (hplug : plugCond s M = true → lookup? M "enabledPlugins" = some (.obj pl))
    (hschema : hasKey s "$schema" = true → lookup? M "$schema" = some (getD s "$schema" .null)) :
    mergeAssemble s M p pl = M := by
  rw [mergeAssemble]
  rw [update_nil_of_nodup hnodup]
  rw [condStage_collapse hperm]
  rw [condStage_collapse hmodel]
  rw [condStage_collapse hstatus]
  rw [condStage_collapse hthink]
  rw [condStage_collapse hplug]
  rw [condStage_collapse (fun hc => lookup?_getD_of_hasKey hc)]
  rw [condStage_collapse hschema]


/-! ## Success of the helpers on well-formed input -/

theorem pyDedup_all (p : JVal → Bool) {l : List JVal} (h : l.all p = true) :
    (pyDedup l).all p = true := by
  rw [List.all_eq_true] at h ⊢
  exact fun x hx => h x (mem_pyDedup hx)

theorem all_pyHashable_of_all_jIsStr {l : List JVal} (h : l.all jIsStr = true) :
    l.all pyHashable = true := by
  rw [List.all_eq_true] at h ⊢
  exact fun x hx => pyHashable_of_jIsStr (h x hx)

theorem pySorted_ok_of_all_str {l : List JVal} (h : l.all jIsStr = true) :
    ∃ r, pySorted l = .ok r := by
  unfold pySorted
  by_cases hl : l.length ≤ 1
  · exact ⟨l, if_pos hl⟩
  · rw [if_neg hl, if_pos h]
    exact ⟨_, rfl⟩

theorem permValueOk_setof {o : Obj} (ho : permValueOk (.obj o) = true) :
    ∃ l, pySetOf (getD o "allow" (.arr [])) = .ok l ∧ l.all jIsStr = true := by
  rw [permValueOk] at ho
  cases hl : lookup? o "allow" with
  | none =>
      rw [getD, hl]
      exact ⟨[], rfl, rfl⟩
  | some v =>
      rw [hl] at ho
      cases v with
      | arr xs =>
          rw [getD, hl]
          simp only [Option.getD_some]
          have ho' : xs.all jIsStr = true := ho
          refine ⟨pyDedup xs, ?_, pyDedup_all _ ho'⟩
          rw [pySetOf_arr, if_pos (all_pyHashable_of_all_jIsStr ho')]
      | str s => exact absurd ho (by simp)
      | num n => exact absurd ho (by simp)
      | bool b => exact absurd ho (by simp)
      | null => exact absurd ho (by simp)
      | obj kvs => exact absurd ho (by simp)

theorem merge_permissions_ok_of_permValueOk {sv tv : JVal}
    (hs : permValueOk sv = true) (ht : permValueOk tv = true) :
    ∃ p, merge_permissions sv tv = .ok p := by
  cases sv with
  | obj so =>
      cases tv with
      | obj to' =>
          obtain ⟨sa, hsa, hsastr⟩ := permValueOk_setof hs
          obtain ⟨ta, hta, htastr⟩ := permValueOk_setof ht
          obtain ⟨srt, hsrt⟩ := pySorted_ok_of_all_str (pyUnion_all jIsStr hsastr htastr)
          exact ⟨permAssemble to' srt, merge_permissions_eq_ok so to' hsa hta hsrt⟩
      | str s => exact absurd ht (by simp [permValueOk])
      | num n => exact absurd ht (by simp [permValueOk])
      | bool b => exact absurd ht (by simp [permValueOk])
      | null => exact absurd ht (by simp [permValueOk])
      | arr xs => exact absurd ht (by simp [permValueOk])
  | str s => exact absurd hs (by simp [permValueOk])
  | num n => exact absurd hs (by simp [permValueOk])
  | bool b => exact absurd hs (by simp [permValueOk])
  | null => exact absurd hs (by simp [permValueOk])
  | arr xs => exact absurd hs (by simp [permValueOk])

theorem merge_plugins_ok_of_plugValueOk {sv tv : JVal}
    (hs : plugValueOk sv = true) (ht : plugValueOk tv = true) :
    ∃ pl, merge_plugins sv tv = .ok pl := by
  cases sv with
  | obj so =>
      cases tv with
      | obj to' => exact ⟨_, merge_plugins_eq_ok so to'⟩
      | str s => exact absurd ht (by simp [plugValueOk])
      | num n => exact absurd ht (by simp [plugValueOk])
      | bool b => exact absurd ht (by simp [plugValueOk])
      | null => exact absurd ht (by simp [plugValueOk])
      | arr xs => exact absurd ht (by simp [plugValueOk])
  | str s => exact absurd hs (by simp [plugValueOk])
  | num n => exact absurd hs (by simp [plugValueOk])
  | bool b => exact absurd hs (by simp [plugValueOk])
  | null => exact absurd hs (by simp [plugValueOk])
  | arr xs => exact absurd hs (by simp [plugValueOk])

theorem allowEmpty_setof {o : Obj} (he : allowEmptyV (.obj o) = true) :
    pySetOf (getD o "allow" (.arr [])) = .ok [] := by
  rw [allowEmptyV] at he
  cases hl : lookup? o "allow" with
  | none =>
      rw [getD, hl]
      rfl
  | some v =>
      rw [hl] at he
      cases v with
      | arr xs =>
          cases xs with
          | nil =>
              rw [getD, hl]
              rfl
          | cons y ys => exact absurd he (by simp)
      | str s => exact absurd he (by simp)
      | num n => exact absurd he (by simp)
      | bool b => exact absurd he (by simp)
      | null => exact absurd he (by simp)
      | obj kvs => exact absurd he (by simp)


/-! ## Claim theorems: the merge engine -/

/-- Claim C1: on the end-to-end scenario documents, `merge_settings`
returns exactly the expected document — team model wins, the allow lists
union sorted and deduplicated, the user's deny list and
`feedbackSurveyState` preserved. -/
theorem c1_end_to_end_merge :
    merge_settings
      [("model", .str "opus"),
       ("permissions", .obj [("allow", .arr [.str "Bash"])])]
      [("model", .str "sonnet"),
       ("permissions", .obj [("allow", .arr [.str "Write"]), ("deny", .arr [.str "Edit"])]),
       ("feedbackSurveyState", .obj [("seen", .bool true)])]
    = .ok
      [("model", .str "opus"),
       ("permissions", .obj [("allow", .arr [.str "Bash", .str "Write"]),
                             ("deny", .arr [.str "Edit"])]),
       ("feedbackSurveyState", .obj [("seen", .bool true)])] := by decide

/-- Claim C3: `merge_settings` is idempotent in its second argument:
whenever `merge_settings s t` succeeds with `M`, merging `s` against `M`
succeeds and returns `M` again, so a second install with an unchanged
team document reproduces the settings file byte for byte.  (The
`nodupKeysV` hypothesis records that the team's `enabledPlugins` map,
being a Python dict, has unique keys.) -/
theorem c3_merge_idempotent (s t M : Obj)
    (hs : nodupKeysV (getD s "enabledPlugins" (.obj [])))
    (h : merge_settings s t = .ok M) :
    merge_settings s M = .ok M := by
  obtain ⟨p, pl, hp, hpl, rfl⟩ := merge_settings_ok_cases h
  have hpc := permCond_assemble s t p pl
  have hplc := plugCond_assemble s t p pl
  have hp2 : permCond s (mergeAssemble s t p pl) = true →
      merge_permissions (getD s "permissions" (.obj []))
        (getD (mergeAssemble s t p pl) "permissions" (.obj [])) = .ok p := by
    intro hc
    rw [hpc] at hc
    have hMperm : getD (mergeAssemble s t p pl) "permissions" (.obj []) = .obj p := by
      rw [getD, lookup?_assemble_permissions, if_pos hc]
      rfl
    rw [hMperm]
    exact merge_permissions_idem (hp hc)
  have hpl2 : plugCond s (mergeAssemble s t p pl) = true →
      merge_plugins (getD s "enabledPlugins" (.obj []))
        (getD (mergeAssemble s t p pl) "enabledPlugins" (.obj [])) = .ok pl := by
    intro hc
    rw [hplc] at hc
    have hMpl : getD (mergeAssemble s t p pl) "enabledPlugins" (.obj []) = .obj pl := by
      rw [getD, lookup?_assemble_plugins, if_pos hc]
      rfl
    rw [hMpl]
    exact merge_plugins_idem (hpl hc) hs
  rw [merge_settings_eq_assemble s (mergeAssemble s t p pl) p pl hp2 hpl2]
  rw [mergeAssemble_eq_self (nodupKeys_mergeAssemble s t p pl) ?hperm ?hmodel ?hstatus
    ?hthink ?hplug ?hschema]
  case hperm =>
    intro hc
    rw [hpc] at hc
    rw [lookup?_assemble_permissions, if_pos hc]
  case hmodel =>
    intro hc
    rw [lookup?_assemble_model, if_pos hc]
  case hstatus =>
    intro hc
    rw [lookup?_assemble_statusLine, if_pos hc]
  case hthink =>
    intro hc
    rw [lookup?_assemble_thinking, if_pos hc]
  case hplug =>
    intro hc
    rw [hplc] at hc
    rw [lookup?_assemble_plugins, if_pos hc]
  case hschema =>
    intro hc
    rw [lookup?_assemble_schema, if_pos hc]


theorem c3_merge_idempotent_witness :
    (nodupKeysV (getD c3TeamDoc "enabledPlugins" (.obj []))
      ∧ merge_settings c3TeamDoc c3UserDoc = .ok c3MergedDoc)
    ∧ merge_settings c3TeamDoc c3MergedDoc = .ok c3MergedDoc :=
  ⟨⟨by decide, by decide⟩, c3_merge_idempotent c3TeamDoc c3UserDoc c3MergedDoc (by decide) (by decide)⟩

/-- Claim C4: keys outside the recognized set pass through the merge
untouched — the target's binding (if any) is kept verbatim, and a
team-only unrecognized key is never copied into the result. -/
theorem c4_unrecognized_keys (s t M : Obj) (k : String)
    (ht : nodupKeys t) (h : merge_settings s t = .ok M) (hk : k ∉ recognizedKeys) :
    lookup? M k = lookup? t k ∧ (hasKey t k = false → hasKey M k = false) := by
  obtain ⟨p, pl, hp, hpl, rfl⟩ := merge_settings_ok_cases h
  simp only [recognizedKeys, List.mem_cons, List.not_mem_nil, or_false, not_or] at hk
  obtain ⟨h1, h2, h3, h4, h5, h6, h7⟩ := hk
  have hfirst : lookup? (mergeAssemble s t p pl) k = lookup? t k := by
    rw [lookup?_assemble_unrec s t p pl h1 h7 h6 h4 h3 h2 h5, update_nil_of_nodup ht]
  refine ⟨hfirst, fun hf => ?_⟩
  rw [hasKey, hfirst, ← hasKey]
  exact hf

theorem c4_unrecognized_keys_witness :
    (nodupKeys ([("custom", JVal.num 2)] : Obj)
      ∧ merge_settings [("model", .str "opus"), ("teamOnly", .num 1)] [("custom", .num 2)]
          = .ok [("custom", .num 2), ("model", .str "opus")]
      ∧ "custom" ∉ recognizedKeys ∧ "teamOnly" ∉ recognizedKeys)
    ∧ lookup? [("custom", JVal.num 2), ("model", JVal.str "opus")] "teamOnly"
        = lookup? [("custom", JVal.num 2)] "teamOnly" :=
  ⟨⟨by decide, by decide, by decide, by decide⟩,
    (c4_unrecognized_keys [("model", .str "opus"), ("teamOnly", .num 1)] [("custom", .num 2)]
      [("custom", .num 2), ("model", .str "opus")] "teamOnly"
      (by decide) (by decide) (by decide)).1⟩


/-- Claim C5 counterexample: merging against an empty target does NOT
yield exactly the team document's fields — a team-side
`permissions.deny` is dropped, so the result differs from the team
document. -/
theorem c5_counterexample :
    merge_settings [("permissions", JVal.obj [("deny", JVal.arr [JVal.str "x"])])] []
      = .ok [("permissions", JVal.obj [])]
    ∧ ([("permissions", JVal.obj [])] : Obj)
        ≠ [("permissions", JVal.obj [("deny", JVal.arr [JVal.str "x"])])] := by decide

/-- Claim C5 (amended): merging a team document against an empty target
yields a document all of whose keys come from the team document, with
the recognized override keys copied verbatim, `permissions` and
`enabledPlugins` passed through their merge helpers (so team `deny`/
`ask` and unrecognized team keys are dropped, and the allow list is
sorted and deduplicated), and no `feedbackSurveyState`; separately, the
installer's first-install path short-circuits and writes the team
document as-is without invoking `merge_settings`. -/
theorem c5_empty_target_amended (s M : Obj) (h : merge_settings s [] = .ok M) :
    (∀ k, hasKey M k = true → hasKey s k = true)
    ∧ (hasKey s "model" = true → lookup? M "model" = lookup? s "model")
    ∧ (hasKey s "statusLine" = true → lookup? M "statusLine" = lookup? s "statusLine")
    ∧ (hasKey s "alwaysThinkingEnabled" = true →
        lookup? M "alwaysThinkingEnabled" = lookup? s "alwaysThinkingEnabled")
    ∧ (hasKey s "$schema" = true → lookup? M "$schema" = lookup? s "$schema")
    ∧ (hasKey s "permissions" = true →
        ∃ p, merge_permissions (getD s "permissions" (.obj [])) (.obj []) = .ok p
          ∧ lookup? M "permissions" = some (.obj p))
    ∧ (hasKey s "enabledPlugins" = true →
        ∃ pl, merge_plugins (getD s "enabledPlugins" (.obj [])) (.obj []) = .ok pl
          ∧ lookup? M "enabledPlugins" = some (.obj pl))
    ∧ hasKey M "feedbackSurveyState" = false
    ∧ installer_merge_choice s [] = .ok s := by
  obtain ⟨p, pl, hp, hpl, rfl⟩ := merge_settings_ok_cases h
  have hgetD : ∀ key : String, getD ([] : Obj) key (.obj []) = .obj [] := fun _ => rfl
  refine ⟨?_, ?_, ?_, ?_, ?_, ?_, ?_, ?_, rfl⟩
  · intro k hk
    rw [hasKey_iff_mem_keys] at hk ⊢
    rw [mem_keys_mergeAssemble] at hk
    rcases hk with hk | ⟨hc, rfl⟩ | ⟨hc, rfl⟩ | ⟨hc, rfl⟩ | ⟨hc, rfl⟩ | ⟨hc, rfl⟩
      | ⟨hc, rfl⟩ | ⟨hc, rfl⟩
    · exact absurd hk (by simp)
    · rw [permCond] at hc
      simp only [Bool.or_eq_true] at hc
      rcases hc with hc | hc
      · exact (hasKey_iff_mem_keys s "permissions").mp hc
      · exact absurd hc (by decide)
    · exact (hasKey_iff_mem_keys s "model").mp hc
    · exact (hasKey_iff_mem_keys s "statusLine").mp hc
    · exact (hasKey_iff_mem_keys s "alwaysThinkingEnabled").mp hc
    · rw [plugCond] at hc
      simp only [Bool.or_eq_true] at hc
      rcases hc with hc | hc
      · exact (hasKey_iff_mem_keys s "enabledPlugins").mp hc
      · exact absurd hc (by decide)
    · exact absurd hc (by decide)
    · exact (hasKey_iff_mem_keys s "$schema").mp hc
  · intro hc
    rw [lookup?_assemble_model, if_pos hc, lookup?_getD_of_hasKey hc]
  · intro hc
    rw [lookup?_assemble_statusLine, if_pos hc, lookup?_getD_of_hasKey hc]
  · intro hc
    rw [lookup?_assemble_thinking, if_pos hc, lookup?_getD_of_hasKey hc]
  · intro hc
    rw [lookup?_assemble_schema, if_pos hc, lookup?_getD_of_hasKey hc]
  · intro hc
    have hcond : permCond s [] = true := by simp [permCond, hc]
    refine ⟨p, ?_, ?_⟩
    · have := hp hcond
      rwa [hgetD] at this
    · rw [lookup?_assemble_permissions, if_pos hcond]
  · intro hc
    have hcond : plugCond s [] = true := by simp [plugCond, hc]
    refine ⟨pl, ?_, ?_⟩
    · have := hpl hcond
      rwa [hgetD] at this
    · rw [lookup?_assemble_plugins, if_pos hcond]
  · rw [hasKey, lookup?_assemble_survey]
    rw [if_neg (by decide)]
    rfl

theorem c5_empty_target_amended_witness :
    merge_settings [("model", JVal.str "opus"), ("custom", JVal.num 1)] []
        = .ok [("model", JVal.str "opus")]
    ∧ hasKey ([("model", JVal.str "opus")] : Obj) "feedbackSurveyState" = false
    ∧ installer_merge_choice [("model", JVal.str "opus"), ("custom", JVal.num 1)] []
        = .ok [("model", JVal.str "opus"), ("custom", JVal.num 1)] :=
  ⟨by decide,
    (c5_empty_target_amended [("model", JVal.str "opus"), ("custom", JVal.num 1)]
      [("model", JVal.str "opus")] (by decide)).2.2.2.2.2.2.2.1,
    (c5_empty_target_amended [("model", JVal.str "opus"), ("custom", JVal.num 1)]
      [("model", JVal.str "opus")] (by decide)).2.2.2.2.2.2.2.2⟩

/-- Claim C8 counterexample: `merge_settings` is not total over all
settings documents — a non-object `permissions` value makes the helper
call `source.get("allow", [])` on an `int`, raising `AttributeError`. -/
theorem c8_counterexample :
    merge_settings [("permissions", JVal.num 5)] [] = .error .attributeError := by decide

/-- Claim C8 (amended): `merge_settings` returns a merged document
without raising for every pair of settings documents whose
`permissions` values (when present) are objects with string-list
`allow` entries and whose `enabledPlugins` values (when present) are
objects; outside that shape (for example `permissions: 5`) it raises. -/
theorem c8_total_on_wellformed (s t : Obj)
    (hs : mergeInputOk s = true) (ht : mergeInputOk t = true) :
    ∃ M, merge_settings s t = .ok M := by
  rw [mergeInputOk, Bool.and_eq_true] at hs ht
  obtain ⟨p, hperm⟩ := merge_permissions_ok_of_permValueOk hs.1 ht.1
  obtain ⟨pl, hplug⟩ := merge_plugins_ok_of_plugValueOk hs.2 ht.2
  exact ⟨mergeAssemble s t p pl,
    merge_settings_eq_assemble s t p pl (fun _ => hperm) (fun _ => hplug)⟩

theorem c8_total_on_wellformed_witness :
    (mergeInputOk [("permissions", .obj [("allow", .arr [.str "Bash"])])] = true
      ∧ mergeInputOk [("enabledPlugins", .obj [("fmt", .bool false)])] = true)
    ∧ ∃ M, merge_settings [("permissions", .obj [("allow", .arr [.str "Bash"])])]
        [("enabledPlugins", .obj [("fmt", .bool false)])] = .ok M :=
  ⟨⟨by decide, by decide⟩,
    c8_total_on_wellformed [("permissions", .obj [("allow", .arr [.str "Bash"])])]
      [("enabledPlugins", .obj [("fmt", .bool false)])] (by decide) (by decide)⟩

/-- Claim C10: when both allow contributions are empty (absent or the
empty list), the merged `permissions` object carries no `allow` key at
all — a user's explicit `allow: []` disappears from the output. -/
theorem c10_empty_allow_omitted (s t M : Obj)
    (h : merge_settings s t = .ok M) (hc : permCond s t = true)
    (hs : allowEmptyV (getD s "permissions" (.obj [])) = true)
    (ht : allowEmptyV (getD t "permissions" (.obj [])) = true) :
    ∃ p, lookup? M "permissions" = some (.obj p) ∧ hasKey p "allow" = false := by
  obtain ⟨p, pl, hp, hpl, rfl⟩ := merge_settings_ok_cases h
  obtain ⟨so, to', sa, ta, srt, hsv, htv, hsa, hta, hsrt, rfl⟩ :=
    merge_permissions_ok_shape (hp hc)
  rw [hsv] at hs
  rw [htv] at ht
  have hsa0 : sa = [] := by
    rw [allowEmpty_setof hs] at hsa
    injection hsa with hsa
    exact hsa.symm
  have hta0 : ta = [] := by
    rw [allowEmpty_setof ht] at hta
    injection hta with hta
    exact hta.symm
  subst hsa0
  subst hta0
  have hsrt0 : srt = [] := by
    have : pySorted (pyUnion [] []) = .ok ([] : List JVal) := rfl
    rw [this] at hsrt
    injection hsrt with hsrt
    exact hsrt.symm
  subst hsrt0
  refine ⟨permAssemble to' [], ?_, ?_⟩
  · rw [lookup?_assemble_permissions, if_pos hc]
  · rw [hasKey, lookup?_permAssemble_allow]
    simp

theorem c10_empty_allow_omitted_witness :
    (merge_settings [] [("permissions", .obj [("allow", .arr []), ("deny", .arr [.str "Edit"])])]
        = .ok [("permissions", .obj [("deny", .arr [.str "Edit"])])]
      ∧ permCond [] [("permissions", .obj [("allow", .arr []), ("deny", .arr [.str "Edit"])])] = true)
    ∧ ∃ p, lookup? [("permissions", JVal.obj [("deny", JVal.arr [JVal.str "Edit"])])] "permissions"
        = some (.obj p) ∧ hasKey p "allow" = false :=
  ⟨⟨by decide, by decide⟩,
    c10_empty_allow_omitted []
      [("permissions", .obj [("allow", .arr []), ("deny", .arr [.str "Edit"])])]
      [("permissions", .obj [("deny", .arr [.str "Edit"])])]
      (by decide) (by decide) (by decide) (by decide)⟩


/-! ## Behavior of the classifier -/

theorem classifyPermissions_obj (o : Obj) :
    classifyPermissions (.obj o) = .ok (permTeamPart o, permPersonalPart o) := by
  cases hal : lookup? o "allow" <;> cases hde : lookup? o "deny" <;>
    cases has : lookup? o "ask" <;>
      simp +decide [classifyPermissions, pyContains, pyIndex, hasKey, permTeamPart,
        permPersonalObj, permPersonalPart, hal, hde, has, Bind.bind, Except.bind,
        Pure.pure, Except.pure, setItem]

theorem classifyStep_team {t0 p0 : Obj} {k₀ : String} {v₀ : JVal} (h : teamKeyP k₀) :
    classifyStep (t0, p0) (k₀, v₀) = .ok (setItem t0 k₀ v₀, p0) := by
  rcases h with h | rfl
  · simp [classifyStep, h]
  · simp +decide [classifyStep]

theorem classifyStep_personal {t0 p0 : Obj} {k₀ : String} {v₀ : JVal}
    (h1 : ¬ teamKeyP k₀) (h2 : k₀ ≠ "permissions") :
    classifyStep (t0, p0) (k₀, v₀) = .ok (t0, setItem p0 k₀ v₀) := by
  have hn : k₀ ∉ teamFieldNames := fun hc => h1 (Or.inl hc)
  have he : ¬ (k₀ = "enabledPlugins") := fun hc => h1 (Or.inr hc)
  by_cases hf : k₀ = "feedbackSurveyState" <;> simp +decide [classifyStep, hn, he, h2, hf]

theorem classifyStep_permissions {t0 p0 : Obj} {v₀ : JVal} {tp pp : Option JVal}
    (hcp : classifyPermissions v₀ = .ok (tp, pp)) :
    classifyStep (t0, p0) ("permissions", v₀)
      = .ok ((match tp with | some tv => setItem t0 "permissions" tv | none => t0),
             (match pp with | some pv => setItem p0 "permissions" pv | none => p0)) := by
  cases tp <;> cases pp <;>
    simp +decide [classifyStep, hcp, Bind.bind, Except.bind, Pure.pure, Except.pure]

theorem ok_pair_inv {X Y t p : Obj}
    (h : (Except.ok (X, Y) : Except PyErr (Obj × Obj)) = .ok (t, p)) : t = X ∧ p = Y := by
  injection h with h
  exact ⟨(congrArg Prod.fst h).symm, (congrArg Prod.snd h).symm⟩

theorem classify_fold (raw : Obj) : ∀ (t0 p0 team personal : Obj),
    raw.foldlM classifyStep (t0, p0) = .ok (team, personal) →
    nodupKeys raw →
    ∀ k : String,
      (k ∉ keys raw → lookup? team k = lookup? t0 k ∧ lookup? personal k = lookup? p0 k)
      ∧ (∀ v, lookup? raw k = some v → teamKeyP k →
          lookup? team k = some v ∧ lookup? personal k = lookup? p0 k)
      ∧ (∀ v, lookup? raw k = some v → ¬ teamKeyP k → k ≠ "permissions" →
          lookup? team k = lookup? t0 k ∧ lookup? personal k = some v)
      ∧ (∀ v, lookup? raw k = some v → k = "permissions" →
          ∃ tp pp, classifyPermissions v = .ok (tp, pp)
            ∧ lookup? team k = (match tp with | some tv => some tv | none => lookup? t0 k)
            ∧ lookup? personal k
                = (match pp with | some pv => some pv | none => lookup? p0 k)) := by
  induction raw with
  | nil =>
      intro t0 p0 team personal h _ k
      rw [List.foldlM_nil] at h
      have hpair : team = t0 ∧ personal = p0 := ok_pair_inv h
      obtain ⟨rfl, rfl⟩ := hpair
      refine ⟨fun _ => ⟨rfl, rfl⟩, ?_, ?_, ?_⟩
      · exact fun v hv _ => absurd hv (by simp [lookup?])
      · exact fun v hv _ _ => absurd hv (by simp [lookup?])
      · exact fun v hv _ => absurd hv (by simp [lookup?])
  | cons kv rest ih =>
      obtain ⟨k₀, v₀⟩ := kv
      intro t0 p0 team personal h hnodup k
      rw [List.foldlM_cons] at h
      obtain ⟨acc1, hstep, hrest⟩ := exceptBind_ok_inv h
      obtain ⟨t1, p1⟩ := acc1
      rw [nodupKeys_cons] at hnodup
      have IH := ih t1 p1 team personal hrest hnodup.2
      by_cases hkk : k = k₀
      · subst hkk
        have hbase := (IH k).1 (by
          rw [← hasKey_false_iff]
          exact (hasKey_false_iff rest k).mpr hnodup.1)
        have hrawk : lookup? ((k, v₀) :: rest) k = some v₀ := by
          rw [lookup?, if_pos rfl]
        refine ⟨?_, ?_, ?_, ?_⟩
        · intro hnot
          exact absurd (by simp) hnot
        · intro v hv hteam
          rw [hrawk] at hv
          injection hv with hv
          subst hv
          rw [classifyStep_team hteam] at hstep
          obtain ⟨rfl, rfl⟩ := ok_pair_inv hstep
          refine ⟨?_, hbase.2⟩
          rw [hbase.1, lookup?_setItem_self]
        · intro v hv hteam hperm
          rw [hrawk] at hv
          injection hv with hv
          subst hv
          rw [classifyStep_personal hteam hperm] at hstep
          obtain ⟨rfl, rfl⟩ := ok_pair_inv hstep
          refine ⟨hbase.1, ?_⟩
          rw [hbase.2, lookup?_setItem_self]
        · intro v hv hperm
          rw [hrawk] at hv
          injection hv with hv
          subst hv
          subst hperm
          cases hcp : classifyPermissions v₀ with
          | error e =>
              rw [classifyStep] at hstep
              simp +decide [hcp, Bind.bind, Except.bind] at hstep
          | ok parts =>
              obtain ⟨tp, pp⟩ := parts
              rw [classifyStep_permissions hcp] at hstep
              obtain ⟨rfl, rfl⟩ := ok_pair_inv hstep
              refine ⟨tp, pp, rfl, ?_, ?_⟩
              · rw [hbase.1]
                cases tp with
                | some tv => rw [lookup?_setItem_self]
                | none => rfl
              · rw [hbase.2]
                cases pp with
                | some pv => rw [lookup?_setItem_self]
                | none => rfl
      · have hrawk : lookup? ((k₀, v₀) :: rest) k = lookup? rest k := by
          rw [lookup?, if_neg (fun hc => hkk hc.symm)]
        have hmem : (k ∈ keys ((k₀, v₀) :: rest)) ↔ k ∈ keys rest := by
          simp only [keys_cons, List.mem_cons]
          exact ⟨fun hc => hc.resolve_left hkk, Or.inr⟩
        have ht1 : lookup? t1 k = lookup? t0 k ∧ lookup? p1 k = lookup? p0 k := by
          by_cases hteam : teamKeyP k₀
          · rw [classifyStep_team hteam] at hstep
            obtain ⟨rfl, rfl⟩ := ok_pair_inv hstep
            exact ⟨lookup?_setItem_ne _ _ (fun hc => hkk hc.symm), rfl⟩
          · by_cases hperm : k₀ = "permissions"
            · subst hperm
              cases hcp : classifyPermissions v₀ with
              | error e =>
                  rw [classifyStep] at hstep
                  simp +decide [hcp, Bind.bind, Except.bind] at hstep
              | ok parts =>
                  obtain ⟨tp, pp⟩ := parts
                  rw [classifyStep_permissions hcp] at hstep
                  obtain ⟨rfl, rfl⟩ := ok_pair_inv hstep
                  constructor
                  · cases tp with
                    | some tv => exact lookup?_setItem_ne _ _ (fun hc => hkk hc.symm)
                    | none => rfl
                  · cases pp with
                    | some pv => exact lookup?_setItem_ne _ _ (fun hc => hkk hc.symm)
                    | none => rfl
            · rw [classifyStep_personal hteam hperm] at hstep
              obtain ⟨rfl, rfl⟩ := ok_pair_inv hstep
              exact ⟨rfl, lookup?_setItem_ne _ _ (fun hc => hkk hc.symm)⟩
        refine ⟨?_, ?_, ?_, ?_⟩
        · intro hnot
          have := (IH k).1 (fun hc => hnot (hmem.mpr hc))
          rw [ht1.1, ht1.2] at this
          exact this
        · intro v hv hteam
          rw [hrawk] at hv
          have := (IH k).2.1 v hv hteam
          rw [ht1.2] at this
          exact this
        · intro v hv hteam hperm
          rw [hrawk] at hv
          have := (IH k).2.2.1 v hv hteam hperm
          rw [ht1.1] at this
          exact this
        · intro v hv hperm
          rw [hrawk] at hv
          obtain ⟨tp, pp, hcp, h2, h3⟩ := (IH k).2.2.2 v hv hperm
          refine ⟨tp, pp, hcp, ?_, ?_⟩
          · rw [h2]
            cases tp with
            | some tv => rfl
            | none => exact ht1.1
          · rw [h3]
            cases pp with
            | some pv => rfl
            | none => exact ht1.2


/-! ## Claim theorems: the field classifier -/

/-- Claim C2 counterexample: an unrecognized `permissions` sub-key is
dropped from both buckets — classifying `{permissions: {defaultMode:
"acceptEdits"}}` yields two empty buckets even though the document has a
`permissions` key. -/
theorem c2_counterexample :
    scan_settings_classify [("permissions", JVal.obj [("defaultMode", JVal.str "acceptEdits")])]
      = .ok ([], [])
    ∧ hasKey [("permissions", JVal.obj [("defaultMode", JVal.str "acceptEdits")])] "permissions"
        = true := by decide

/-- Claim C2 (amended): for every settings document with unique keys,
every top-level key other than `permissions` lands in exactly one bucket
with its value verbatim — `$schema`, `model`, `statusLine`,
`alwaysThinkingEnabled` and `enabledPlugins` in the team bucket,
everything else (unknown keys included) in the personal bucket; an
object-valued `permissions` entry contributes its `allow` sub-key to the
team bucket and its `deny`/`ask` sub-keys to the personal bucket, each
side emitted only when nonempty, while any other `permissions` sub-key
is dropped. -/
theorem c2_classifier_partition (raw team personal : Obj)
    (hnodup : nodupKeys raw)
    (h : scan_settings_classify raw = .ok (team, personal)) :
    (∀ k, k ≠ "permissions" →
      (teamKeyP k → lookup? team k = lookup? raw k ∧ lookup? personal k = none)
      ∧ (¬ teamKeyP k → lookup? team k = none ∧ lookup? personal k = lookup? raw k))
    ∧ (∀ o, lookup? raw "permissions" = some (.obj o) →
        lookup? team "permissions" = permTeamPart o
        ∧ lookup? personal "permissions" = permPersonalPart o)
    ∧ (lookup? raw "permissions" = none →
        lookup? team "permissions" = none ∧ lookup? personal "permissions" = none) := by
  rw [scan_settings_classify] at h
  have F := classify_fold raw [] [] team personal h hnodup
  refine ⟨?_, ?_, ?_⟩
  · intro k hk
    constructor
    · intro hteam
      cases hv : lookup? raw k with
      | none =>
          have hnot : k ∉ keys raw := (lookup?_eq_none_iff raw k).mp hv
          have := (F k).1 hnot
          exact ⟨this.1, this.2⟩
      | some v =>
          have := (F k).2.1 v hv hteam
          exact ⟨this.1, this.2⟩
    · intro hteam
      cases hv : lookup? raw k with
      | none =>
          have hnot : k ∉ keys raw := (lookup?_eq_none_iff raw k).mp hv
          have := (F k).1 hnot
          exact ⟨this.1, this.2⟩
      | some v =>
          have := (F k).2.2.1 v hv hteam hk
          exact ⟨this.1, this.2⟩
  · intro o hv
    obtain ⟨tp, pp, hcp, h2, h3⟩ := (F "permissions").2.2.2 (.obj o) hv rfl
    rw [classifyPermissions_obj] at hcp
    injection hcp with hcp
    have htp : tp = permTeamPart o := (congrArg Prod.fst hcp).symm
    have hpp : pp = permPersonalPart o := (congrArg Prod.snd hcp).symm
    subst htp
    subst hpp
    constructor
    · rw [h2]
      cases permTeamPart o <;> rfl
    · rw [h3]
      cases permPersonalPart o <;> rfl
  · intro hv
    have hnot : "permissions" ∉ keys raw := (lookup?_eq_none_iff raw "permissions").mp hv
    have := (F "permissions").1 hnot
    exact ⟨this.1, this.2⟩

theorem c2_classifier_partition_witness :
    (nodupKeys ([("model", JVal.str "opus"),
       ("permissions", JVal.obj [("allow", JVal.arr [JVal.str "B"]), ("ask", JVal.arr [])]),
       ("custom", JVal.num 3)] : Obj)
      ∧ scan_settings_classify
          [("model", JVal.str "opus"),
           ("permissions", JVal.obj [("allow", JVal.arr [JVal.str "B"]), ("ask", JVal.arr [])]),
           ("custom", JVal.num 3)]
        = .ok ([("model", JVal.str "opus"),
                ("permissions", JVal.obj [("allow", JVal.arr [JVal.str "B"])])],
               [("permissions", JVal.obj [("ask", JVal.arr [])]),
                ("custom", JVal.num 3)]))
    ∧ lookup? [("model", JVal.str "opus"),
        ("permissions", JVal.obj [("allow", JVal.arr [JVal.str "B"])])] "permissions"
        = permTeamPart [("allow", JVal.arr [JVal.str "B"]), ("ask", JVal.arr [])]
    ∧ lookup? [("permissions", JVal.obj [("ask", JVal.arr [])]),
        ("custom", JVal.num 3)] "permissions"
        = permPersonalPart [("allow", JVal.arr [JVal.str "B"]), ("ask", JVal.arr [])] :=
  ⟨⟨by decide, by decide⟩,
    (c2_classifier_partition
      [("model", JVal.str "opus"),
       ("permissions", JVal.obj [("allow", JVal.arr [JVal.str "B"]), ("ask", JVal.arr [])]),
       ("custom", JVal.num 3)]
      [("model", JVal.str "opus"),
       ("permissions", JVal.obj [("allow", JVal.arr [JVal.str "B"])])]
      [("permissions", JVal.obj [("ask", JVal.arr [])]), ("custom", JVal.num 3)]
      (by decide) (by decide)).2.1
      [("allow", JVal.arr [JVal.str "B"]), ("ask", JVal.arr [])] (by decide)⟩

/-! ## Environment-variable expansion: failure at load time (claim C7) -/

theorem findClose_append (rest : List Char) :
    ∀ (body : List Char), closeBrace ∉ body →
      findClose (body ++ closeBrace :: rest) = some (body, rest) := by
  intro body
  induction body with
  | nil => intro _; simp [findClose]
  | cons c cs ih =>
      intro h
      rw [List.mem_cons] at h
      push_neg at h
      have hc : ¬ (c = closeBrace) := fun hcc => h.1 hcc.symm
      simp [findClose, hc, ih h.2]

theorem expandAux_no_dollar (env : Env) :
    ∀ (cs : List Char) (fuel : Nat), cs.length < fuel → (∀ c ∈ cs, c ≠ dollar) →
      expandAux env fuel cs = .ok cs := by
  intro cs
  induction cs with
  | nil =>
      intro fuel _ _
      cases fuel with
      | zero => simp [expandAux]
      | succ f => simp [expandAux]
  | cons c rest ih =>
      intro fuel hf hnd
      cases fuel with
      | zero => simp at hf
      | succ f =>
          have hc : ¬ (c = dollar) := hnd c (by simp)
          have hfr : rest.length < f := by
            simp only [List.length_cons] at hf; omega
          have hrec := ih f hfr (fun x hx => hnd x (by simp [hx]))
          simp [expandAux, hc, hrec, Bind.bind, Except.bind, Pure.pure, Except.pure]

theorem expandAux_ref_error (env : Env) (V : String) (h1 : V.data ≠ [])
    (h2 : closeBrace ∉ V.data) (h3 : envLookup? env V = none) :
    ∀ (pre : List Char) (fuel : Nat) (suf : List Char), pre.length < fuel →
      (∀ c ∈ pre, c ≠ dollar) →
      expandAux env fuel (pre ++ dollar :: openBrace :: (V.data ++ closeBrace :: suf)) =
        .error (.sourceError (envMsg V)) := by
  intro pre
  induction pre with
  | nil =>
      intro fuel suf hf _
      cases fuel with
      | zero => simp at hf
      | succ f =>
          have hfc := findClose_append suf V.data h2
          have h1' : V.data.isEmpty = false := by
            cases hV : V.data with
            | nil => exact absurd hV h1
            | cons a l => rfl
          have hmk : String.mk V.data = V := rfl
          simp [expandAux, hfc, h1', hmk, h3]
  | cons p ps ih =>
      intro fuel suf hf hnd
      cases fuel with
      | zero => simp at hf
      | succ f =>
          have hp : ¬ (p = dollar) := hnd p (by simp)
          have hfp : ps.length < f := by
            simp only [List.length_cons] at hf; omega
          have hrec := ih f suf hfp (fun c hc => hnd c (by simp [hc]))
          simp [List.cons_append, expandAux, hp, hrec, Bind.bind, Except.bind]

theorem expand_env_vars_no_dollar (env : Env) (s : String)
    (h : ∀ c ∈ s.data, c ≠ dollar) : expand_env_vars env s = .ok s := by
  have h0 : expandAux env (s.length + 1) s.data = .ok s.data :=
    expandAux_no_dollar env s.data (s.length + 1) (Nat.lt_succ_self _) h
  simp [expand_env_vars, h0, Bind.bind, Except.bind, Pure.pure, Except.pure]

theorem expand_env_vars_ref_error (env : Env) (V : String) (h1 : V.data ≠ [])
    (h2 : closeBrace ∉ V.data) (h3 : envLookup? env V = none) :
    expand_env_vars env (envRef V) = .error (.sourceError (envMsg V)) := by
  have h0 := expandAux_ref_error env V h1 h2 h3 [] (V.length + 1 + 1 + 1 + 1) []
    (by simp) (by simp)
  simp only [List.nil_append] at h0
  simp [expand_env_vars, envRef, h0, Bind.bind, Except.bind]

theorem containsSub_append_self (pat b : List Char) :
    ∀ a : List Char, containsSub pat (a ++ (pat ++ b)) = true := by
  intro a
  induction a with
  | nil =>
      simp only [List.nil_append]
      cases hp : pat with
      | nil =>
          cases b with
          | nil => rfl
          | cons c bs => simp [containsSub]
      | cons c cs =>
          have hpre : (c :: cs).isPrefixOf ((c :: cs) ++ b) = true :=
            List.isPrefixOf_iff_prefix.mpr (List.prefix_append _ _)
          simp only [List.cons_append, containsSub] at hpre ⊢
          simp [hpre]
  | cons x a' ih =>
      simp only [List.cons_append, containsSub, List.append_eq, ih, Bool.or_true]

/-- C7: a sources document whose (first) source config references an
unset environment variable makes `load_sources` fail with the wrapped
`SourceError` whose message names that variable — the failure happens
while the fetcher list is being built, so no fetcher exists to fetch
from. -/
theorem c7_unset_var_load_error (env : Env) (V : String)
    (h1 : V.data ≠ []) (h2 : closeBrace ∉ V.data)
    (h3 : envLookup? env V = none) :
    load_sources env (c7SourcesDoc V) =
      .error (.sourceError ("Failed to expand environment variables: " ++ envMsg V)) ∧
    containsSub V.data ("Failed to expand environment variables: " ++ envMsg V).data
      = true := by
  constructor
  · have hlocal : expand_env_vars env "local" = .ok "local" :=
      expand_env_vars_no_dollar env "local" (by decide)
    have hpath := expand_env_vars_ref_error env V h1 h2 h3
    simp [load_sources, c7SourcesDoc, asObj, getD, lookup?, pyIterItems, loadSourcesLoop,
      loadSourceItem, wrapExpand, expand_config_env_vars, expandObjVars, hlocal, hpath,
      Bind.bind, Except.bind]
  · have hd : ("Failed to expand environment variables: " ++ envMsg V).data =
        ("Failed to expand environment variables: ".data ++
          ("Environment variable ".data ++ [sq])) ++
        (V.data ++ (sq :: (" not set. Please set it with: export ".data ++
          (V.data ++ "=<value>".data)))) := by
      simp [envMsg, String.singleton]
    rw [hd]
    exact containsSub_append_self V.data _ _

theorem c7_unset_var_load_error_witness :
    envLookup? [] "UNSET_VAR" = none ∧
    (load_sources [] (c7SourcesDoc "UNSET_VAR") =
        .error (.sourceError
          ("Failed to expand environment variables: " ++ envMsg "UNSET_VAR")) ∧
      containsSub "UNSET_VAR".data
        ("Failed to expand environment variables: " ++ envMsg "UNSET_VAR").data = true) :=
  ⟨rfl, c7_unset_var_load_error [] "UNSET_VAR" (by decide) (by decide) rfl⟩

/-! ## Backup name collisions (claim C9) -/

/-- C9: the code has no disambiguation at all — any two `create_backup`
calls that observe the same wall-clock second compute the SAME backup
directory name, and `mkdir(exist_ok=True)` then makes the second call
silently share (and its files overwrite) the first call's directory.
The claimed monotonic-suffix scheme does not exist in the code. -/
theorem c9_backup_name_collision (a b : DateTime) (h : sameSecond a b) :
    backup_name a = backup_name b := by
  obtain ⟨h1, h2, h3, h4, h5, h6⟩ := h
  simp [backup_name, strftimeStamp, h1, h2, h3, h4, h5, h6]

theorem c9_backup_name_collision_witness :
    sameSecond ⟨2026, 1, 2, 3, 4, 5, 0⟩ ⟨2026, 1, 2, 3, 4, 5, 999999⟩ ∧
    backup_name ⟨2026, 1, 2, 3, 4, 5, 0⟩ = backup_name ⟨2026, 1, 2, 3, 4, 5, 999999⟩ :=
  ⟨by decide, c9_backup_name_collision ⟨2026, 1, 2, 3, 4, 5, 0⟩
    ⟨2026, 1, 2, 3, 4, 5, 999999⟩ (by decide)⟩

/-! ## Template round trip: counterexample and groundwork (claim C6) -/

theorem c6_counterexample :
    templateRoundTrip (.obj [("a", .str tmpl)]) "/home/u"
        = some (.obj [("a", .str "/home/u")]) ∧
      JVal.obj [("a", JVal.str "/home/u")] ≠ .obj [("a", .str tmpl)] := by
  constructor
  · decide
  · decide

theorem replaceAll_fuel_congr {pat rep : List Char} (hp : pat ≠ []) :
    ∀ (f : Nat) (s : List Char) (f2 : Nat), s.length < f → s.length < f2 →
      replaceAll pat rep f s = replaceAll pat rep f2 s := by
  intro f
  induction f with
  | zero => intro s f2 hf; simp at hf
  | succ g ih =>
      intro s f2 hf hf2
      have hpe : pat.isEmpty = false := by
        cases pat with
        | nil => exact absurd rfl hp
        | cons a l => rfl
      cases f2 with
      | zero => simp at hf2
      | succ g2 =>
          cases s with
          | nil => simp [replaceAll, hpe]
          | cons c cs =>
              by_cases hpre : pat.isPrefixOf (c :: cs) = true
              · have hlen : pat.length ≤ (c :: cs).length :=
                  (List.isPrefixOf_iff_prefix.mp hpre).length_le
                have hplen : 1 ≤ pat.length := by
                  cases pat with
                  | nil => exact absurd rfl hp
                  | cons a l => simp
                have hdl : (List.drop pat.length (c :: cs)).length < g := by
                  simp only [List.length_drop, List.length_cons] at *
                  omega
                have hdl2 : (List.drop pat.length (c :: cs)).length < g2 := by
                  simp only [List.length_drop, List.length_cons] at *
                  omega
                simp [replaceAll, hpe, hpre, ih _ g2 hdl hdl2]
              · have hcl : cs.length < g := by
                  simp only [List.length_cons] at hf; omega
                have hcl2 : cs.length < g2 := by
                  simp only [List.length_cons] at hf2; omega
                simp [replaceAll, hpe, hpre, ih _ g2 hcl hcl2]

theorem pyRepL_nil (pat rep : List Char) (hp : pat ≠ []) : pyRepL [] pat rep = [] := by
  have hpe : pat.isEmpty = false := by
    cases pat with
    | nil => exact absurd rfl hp
    | cons a l => rfl
  simp [pyRepL, replaceAll, hpe]

theorem pyRepL_match {pat : List Char} (rep : List Char) {c : Char} {cs : List Char}
    (hp : pat ≠ []) (h : pat.isPrefixOf (c :: cs) = true) :
    pyRepL (c :: cs) pat rep = rep ++ pyRepL (List.drop pat.length (c :: cs)) pat rep := by
  have hpe : pat.isEmpty = false := by
    cases pat with
    | nil => exact absurd rfl hp
    | cons a l => rfl
  have hplen : 1 ≤ pat.length := by
    cases pat with
    | nil => exact absurd rfl hp
    | cons a l => simp
  have hcongr := @replaceAll_fuel_congr pat rep hp ((c :: cs).length)
    (List.drop pat.length (c :: cs)) ((List.drop pat.length (c :: cs)).length + 1)
    (by simp only [List.length_drop, List.length_cons]; omega) (Nat.lt_succ_self _)
  simp only [pyRepL, List.length_cons, replaceAll, hpe, h]
  simp only [List.length_cons] at hcongr
  rw [hcongr]
  simp

theorem pyRepL_nomatch {pat : List Char} (rep : List Char) {c : Char} {cs : List Char}
    (hp : pat ≠ []) (h : ¬ pat.isPrefixOf (c :: cs) = true) :
    pyRepL (c :: cs) pat rep = c :: pyRepL cs pat rep := by
  have hpe : pat.isEmpty = false := by
    cases pat with
    | nil => exact absurd rfl hp
    | cons a l => rfl
  have hcongr := @replaceAll_fuel_congr pat rep hp ((c :: cs).length) cs
    (cs.length + 1) (by simp) (Nat.lt_succ_self _)
  simp only [pyRepL, List.length_cons, replaceAll, hpe, h, if_false]
  simp

theorem isPrefixOf_cons_head {pat : List Char} {c : Char} {X : List Char}
    (hp : pat ≠ []) (h : pat.isPrefixOf (c :: X) = true) :
    ∃ pr, pat = c :: pr ∧ pr.isPrefixOf X = true := by
  cases pat with
  | nil => exact absurd rfl hp
  | cons p0 pr =>
      simp only [List.isPrefixOf, Bool.and_eq_true, beq_iff_eq] at h
      exact ⟨pr, by rw [h.1], h.2⟩

theorem cover_head {pat a b : List Char}
    (h : pat.isPrefixOf (a ++ b) = true) (hl : a.length < pat.length) :
    ∃ q b2, b = q :: b2 ∧ q ∈ pat := by
  have hpre := List.isPrefixOf_iff_prefix.mp h
  cases b with
  | nil =>
      have := hpre.length_le
      simp only [List.append_nil] at this
      omega
  | cons q b2 =>
      refine ⟨q, b2, rfl, ?_⟩
      have htake := List.prefix_iff_eq_take.mp hpre
      rw [List.take_append_eq_append_take] at htake
      have h1 : List.take pat.length a = a := List.take_of_length_le (le_of_lt hl)
      have h2 : pat.length - a.length = (pat.length - a.length - 1) + 1 := by omega
      rw [h1, h2, List.take_succ_cons] at htake
      rw [htake]
      exact List.mem_append.mpr (Or.inr (List.mem_cons_self _ _))

theorem pyRepL_skip_not_mem {pat rep : List Char} (hp : pat ≠ []) :
    ∀ (a : List Char), (∀ c ∈ a, c ∉ pat) →
      ∀ b, pyRepL (a ++ b) pat rep = a ++ pyRepL b pat rep := by
  intro a
  induction a with
  | nil => intro _ b; simp
  | cons c a2 ih =>
      intro ha b
      have hnp : ¬ pat.isPrefixOf (c :: (a2 ++ b)) = true := by
        intro hcon
        obtain ⟨pr, hpr, _⟩ := isPrefixOf_cons_head hp hcon
        exact ha c (List.mem_cons_self _ _) (hpr ▸ List.mem_cons_self _ _)
      rw [List.cons_append, pyRepL_nomatch rep hp hnp,
        ih (fun x hx => ha x (List.mem_cons_of_mem _ hx)) b, List.cons_append]

theorem pyRepL_skip_marker {pat rep : List Char} {mark : Char} (hm : mark ∈ pat) :
    ∀ (a : List Char), (∀ c ∈ a, c ≠ mark) →
      ∀ b, (∀ q b2, b = q :: b2 → q ∉ pat) →
        pyRepL (a ++ b) pat rep = a ++ pyRepL b pat rep := by
  have hp : pat ≠ [] := fun he => by rw [he] at hm; exact absurd hm (List.not_mem_nil _)
  intro a
  induction a with
  | nil => intro _ b _; simp
  | cons c a2 ih =>
      intro ha b hb
      have hnp : ¬ pat.isPrefixOf (c :: (a2 ++ b)) = true := by
        intro hcon
        by_cases hlen : pat.length ≤ (c :: a2).length
        · have hpa : pat <+: c :: a2 :=
            List.prefix_of_prefix_length_le (List.isPrefixOf_iff_prefix.mp
              (by rw [← List.cons_append] at hcon; exact hcon))
              (List.prefix_append _ _) hlen
          exact ha mark (hpa.subset hm) rfl
        · rw [← List.cons_append] at hcon
          obtain ⟨q, b2, hqb, hq⟩ := cover_head hcon (by omega)
          exact hb q b2 hqb hq
      rw [List.cons_append, pyRepL_nomatch rep hp hnp,
        ih (fun x hx => ha x (List.mem_cons_of_mem _ hx)) b hb, List.cons_append]

theorem pyRepL_append_split {pat rep : List Char} (hp : pat ≠ []) :
    ∀ (n : Nat) (a : List Char), a.length ≤ n →
      ∀ b, (∀ q b2, b = q :: b2 → q ∉ pat) →
        pyRepL (a ++ b) pat rep = pyRepL a pat rep ++ pyRepL b pat rep := by
  intro n
  induction n with
  | zero =>
      intro a ha b _
      have : a = [] := List.length_eq_zero.mp (Nat.le_zero.mp ha)
      rw [this, pyRepL_nil _ _ hp]
      simp
  | succ m ih =>
      intro a ha b hb
      cases a with
      | nil => rw [pyRepL_nil _ _ hp]; simp
      | cons c a2 =>
          by_cases hm : pat.isPrefixOf (c :: a2) = true
          · have hmm : pat.isPrefixOf (c :: (a2 ++ b)) = true := by
              rw [← List.cons_append]
              exact List.isPrefixOf_iff_prefix.mpr
                ((List.isPrefixOf_iff_prefix.mp hm).trans (List.prefix_append _ _))
            have hlen : pat.length ≤ (c :: a2).length :=
              (List.isPrefixOf_iff_prefix.mp hm).length_le
            have hplen : 1 ≤ pat.length := by
              cases pat with
              | nil => exact absurd rfl hp
              | cons x l => simp
            rw [List.cons_append, pyRepL_match rep hp hmm, pyRepL_match rep hp hm,
              ← List.cons_append, List.drop_append_of_le_length hlen]
            have hdl : (List.drop pat.length (c :: a2)).length ≤ m := by
              simp only [List.length_drop, List.length_cons] at *
              omega
            rw [ih _ hdl b hb, List.append_assoc]
          · have hnp : ¬ pat.isPrefixOf (c :: (a2 ++ b)) = true := by
              intro hcon
              by_cases hlen : pat.length ≤ (c :: a2).length
              · exact hm (List.isPrefixOf_iff_prefix.mpr
                  (List.prefix_of_prefix_length_le (List.isPrefixOf_iff_prefix.mp
                    (by rw [← List.cons_append] at hcon; exact hcon))
                    (List.prefix_append _ _) hlen))
              · rw [← List.cons_append] at hcon
                obtain ⟨q, b2, hqb, hq⟩ := cover_head hcon (by omega)
                exact hb q b2 hqb hq
            have hal : a2.length ≤ m := by
              simp only [List.length_cons] at ha; omega
            rw [List.cons_append, pyRepL_nomatch rep hp hnp, pyRepL_nomatch rep hp hm,
              ih _ hal b hb, List.cons_append]

theorem mem_replaceAll {pat rep : List Char} :
    ∀ (f : Nat) (s : List Char) (c : Char), c ∈ replaceAll pat rep f s → c ∈ s ∨ c ∈ rep := by
  intro f
  induction f with
  | zero => intro s c hc; exact Or.inl hc
  | succ g ih =>
      intro s c hc
      cases s with
      | nil =>
          simp only [replaceAll] at hc
          by_cases hpe : pat.isEmpty = true
          · rw [if_pos hpe] at hc; exact Or.inr hc
          · rw [if_neg hpe] at hc; exact absurd hc (List.not_mem_nil _)
      | cons x cs =>
          simp only [replaceAll] at hc
          by_cases hpe : pat.isEmpty = true
          · rw [if_pos hpe] at hc
            rcases List.mem_append.mp hc with h1 | h1
            · exact Or.inr h1
            · rcases List.mem_cons.mp h1 with h2 | h2
              · exact Or.inl (h2 ▸ List.mem_cons_self _ _)
              · rcases ih cs c h2 with h3 | h3
                · exact Or.inl (List.mem_cons_of_mem _ h3)
                · exact Or.inr h3
          · rw [if_neg hpe] at hc
            by_cases hpre : pat.isPrefixOf (x :: cs) = true
            · rw [if_pos hpre] at hc
              rcases List.mem_append.mp hc with h1 | h1
              · exact Or.inr h1
              · rcases ih _ c h1 with h3 | h3
                · exact Or.inl (List.drop_subset _ _ h3)
                · exact Or.inr h3
            · rw [if_neg hpre] at hc
              rcases List.mem_cons.mp hc with h2 | h2
              · exact Or.inl (h2 ▸ List.mem_cons_self _ _)
              · rcases ih cs c h2 with h3 | h3
                · exact Or.inl (List.mem_cons_of_mem _ h3)
                · exact Or.inr h3

theorem mem_pyRepL {pat rep s : List Char} {c : Char}
    (hc : c ∈ pyRepL s pat rep) : c ∈ s ∨ c ∈ rep :=
  mem_replaceAll _ s c hc

theorem containsSub_cons (pat : List Char) (c : Char) (x : List Char) :
    containsSub pat (c :: x) = (pat.isPrefixOf (c :: x) || containsSub pat x) := rfl

theorem containsSub_tail {pat : List Char} {c : Char} {x : List Char}
    (h : containsSub pat (c :: x) = false) : containsSub pat x = false := by
  rw [containsSub_cons, Bool.or_eq_false_iff] at h
  exact h.2

theorem containsSub_drop {pat : List Char} :
    ∀ (n : Nat) (s : List Char), containsSub pat s = false →
      containsSub pat (List.drop n s) = false := by
  intro n
  induction n with
  | zero => intro s h; simpa using h
  | succ m ih =>
      intro s h
      cases s with
      | nil => simpa using h
      | cons c x => rw [List.drop_succ_cons]; exact ih x (containsSub_tail h)

theorem containsSub_skip_head {pat : List Char} {p0 : Char}
    (hph : pat.head? = some p0) :
    ∀ (a : List Char), (∀ c ∈ a, c ≠ p0) →
      ∀ b, containsSub pat (a ++ b) = containsSub pat b := by
  obtain ⟨pr, rfl⟩ : ∃ pr, pat = p0 :: pr := by
    cases pat with
    | nil => simp at hph
    | cons x l =>
        simp only [List.head?_cons, Option.some_inj] at hph
        exact ⟨l, by rw [hph]⟩
  intro a
  induction a with
  | nil => intro _ b; simp
  | cons c a2 ih =>
      intro ha b
      have hc : c ≠ p0 := ha c (List.mem_cons_self _ _)
      rw [List.cons_append, containsSub_cons]
      have hnp : (p0 :: pr).isPrefixOf (c :: (a2 ++ b)) = false := by
        simp only [List.isPrefixOf]
        have hbe : (p0 == c) = false := beq_eq_false_iff_ne.mpr (fun h => hc h.symm)
        rw [hbe, Bool.false_and]
      rw [hnp, Bool.false_or, ih (fun x hx => ha x (List.mem_cons_of_mem _ hx)) b]

theorem containsSub_skip_two {pat : List Char} {p0 p1 : Char} {pr : List Char}
    (hph : pat = p0 :: p1 :: pr) {x : Char} (hx : x ≠ p1) (c : Char) (X : List Char) :
    containsSub pat (c :: x :: X) = containsSub pat (x :: X) := by
  rw [containsSub_cons]
  have hnp : pat.isPrefixOf (c :: x :: X) = false := by
    rw [hph]
    simp only [List.isPrefixOf]
    have hbe : (p1 == x) = false := beq_eq_false_iff_ne.mpr (fun h => hx h.symm)
    rw [hbe, Bool.false_and, Bool.and_false]
  rw [hnp, Bool.false_or]

theorem containsSub_append_content {pat : List Char} (hp : pat ≠ []) :
    ∀ (a : List Char), containsSub pat a = false →
      ∀ b, (∀ q b2, b = q :: b2 → q ∉ pat) →
        containsSub pat (a ++ b) = containsSub pat b := by
  intro a
  induction a with
  | nil => intro _ b _; simp
  | cons c a2 ih =>
      intro ha b hb
      rw [containsSub_cons, Bool.or_eq_false_iff] at ha
      rw [List.cons_append, containsSub_cons]
      have hnp : pat.isPrefixOf (c :: (a2 ++ b)) = false := by
        cases hcc : pat.isPrefixOf (c :: (a2 ++ b)) with
        | false => rfl
        | true =>
            exfalso
            by_cases hlen : pat.length ≤ (c :: a2).length
            · have hpa : pat <+: c :: a2 :=
                List.prefix_of_prefix_length_le (List.isPrefixOf_iff_prefix.mp
                  (by rw [← List.cons_append] at hcc; exact hcc))
                  (List.prefix_append _ _) hlen
              exact absurd (List.isPrefixOf_iff_prefix.mpr hpa) (by simp [ha.1])
            · rw [← List.cons_append] at hcc
              obtain ⟨q, b2, hqb, hq⟩ := cover_head hcc (by omega)
              exact hb q b2 hqb hq
      rw [hnp, Bool.false_or, ih ha.2 b hb]

/-! ### The string-level round trip for the template marker -/

theorem replaceAll_cons_match {pat rep : List Char} {c : Char} {cs : List Char}
    (hp : pat ≠ []) (h : pat.isPrefixOf (c :: cs) = true) (f : Nat) :
    replaceAll pat rep (f + 1) (c :: cs) =
      rep ++ replaceAll pat rep f (List.drop pat.length (c :: cs)) := by
  have hpe : pat.isEmpty = false := by
    cases pat with
    | nil => exact absurd rfl hp
    | cons a l => rfl
  simp [replaceAll, hpe, h]

theorem replaceAll_cons_nomatch {pat rep : List Char} {c : Char} {cs : List Char}
    (hp : pat ≠ []) (h : pat.isPrefixOf (c :: cs) = false) (f : Nat) :
    replaceAll pat rep (f + 1) (c :: cs) = c :: replaceAll pat rep f cs := by
  have hpe : pat.isEmpty = false := by
    cases pat with
    | nil => exact absurd rfl hp
    | cons a l => rfl
  simp [replaceAll, hpe, h]

theorem replaceAll_nil_of_ne {pat rep : List Char} (hp : pat ≠ []) (f : Nat) :
    replaceAll pat rep (f + 1) [] = [] := by
  have hpe : pat.isEmpty = false := by
    cases pat with
    | nil => exact absurd rfl hp
    | cons a l => rfl
  simp [replaceAll, hpe]


theorem hT_ne : Tchars ≠ [] := by decide

theorem Tsuf_not_prefix : ∀ p ∈ TsufList, p ≠ [] → p.isPrefixOf Tchars = false := by decide

theorem Tsuf_tail : ∀ p ∈ TsufList, p ≠ [] → p.tail ∈ TsufList := by decide

theorem Tsuf_len : ∀ p ∈ TsufList, p.length < Tchars.length := by decide

theorem Ttail_mem : Tchars.tail ∈ TsufList := by decide

/-- A proper suffix of the marker is a prefix of the reverse-substituted
text only where it is already a prefix of the original text: the marker
has no nontrivial border, so its copies cannot be entered mid-way. -/
theorem tsuf_prefix_transfer {h : List Char} (hh : h ≠ []) :
    ∀ (fuel : Nat) (s : List Char), s.length < fuel → containsSub Tchars s = false →
      ∀ p ∈ TsufList, p.isPrefixOf (replaceAll h Tchars fuel s) = true →
        p.isPrefixOf s = true := by
  intro fuel
  induction fuel with
  | zero => intro s hs; simp at hs
  | succ g ih =>
      intro s hs hcs p hpmem hpre
      cases s with
      | nil =>
          rw [replaceAll_nil_of_ne hh] at hpre
          exact hpre
      | cons c cs =>
          by_cases hm : h.isPrefixOf (c :: cs) = true
          · rw [replaceAll_cons_match hh hm] at hpre
            cases hpn : p with
            | nil => rfl
            | cons d pr =>
                exfalso
                rw [hpn] at hpre hpmem
                have hplen := Tsuf_len _ hpmem
                have hpa : (d :: pr) <+: Tchars :=
                  List.prefix_of_prefix_length_le (List.isPrefixOf_iff_prefix.mp hpre)
                    (List.prefix_append _ _) (le_of_lt hplen)
                have := Tsuf_not_prefix _ hpmem (by simp)
                rw [List.isPrefixOf_iff_prefix.mpr hpa] at this
                exact Bool.noConfusion this
          · have hm2 : h.isPrefixOf (c :: cs) = false := by
              cases hval : h.isPrefixOf (c :: cs) with
              | false => rfl
              | true => exact absurd hval hm
            rw [replaceAll_cons_nomatch hh hm2] at hpre
            cases hpn : p with
            | nil => rfl
            | cons d pr =>
                rw [hpn] at hpre hpmem
                simp only [List.isPrefixOf, Bool.and_eq_true, beq_iff_eq] at hpre
                have hpr : pr ∈ TsufList := by
                  have := Tsuf_tail _ hpmem (by simp)
                  simpa using this
                have hrec := ih cs (by simp only [List.length_cons] at hs; omega)
                  (containsSub_tail hcs) pr hpr hpre.2
                show ((d == c) && pr.isPrefixOf cs) = true
                rw [hpre.1, beq_self_eq_true, Bool.true_and]
                exact hrec

theorem replaceAll_append_self {rep Q : List Char} (f : Nat) :
    replaceAll Tchars rep (f + 1) (Tchars ++ Q) = rep ++ replaceAll Tchars rep f Q := by
  have hcons : Tchars ++ Q = openBrace :: (List.drop 1 Tchars ++ Q) := rfl
  have hpre : Tchars.isPrefixOf (openBrace :: (List.drop 1 Tchars ++ Q)) = true := by
    rw [← hcons]
    exact List.isPrefixOf_iff_prefix.mpr (List.prefix_append _ _)
  rw [hcons, replaceAll_cons_match hT_ne hpre]
  congr 1

/-- The string-level round trip: substituting a marker-free text's
occurrences of `h` by the marker and then the marker's occurrences
back by `h` restores the text. -/
theorem replace_round_trip {h : List Char} (hh : h ≠ []) :
    ∀ (f1 : Nat) (s : List Char), s.length < f1 → containsSub Tchars s = false →
      ∀ f2, 8 * s.length < f2 →
        replaceAll Tchars h f2 (replaceAll h Tchars f1 s) = s := by
  intro f1
  induction f1 with
  | zero => intro s hs; simp at hs
  | succ g ih =>
      intro s hs hcs f2 hf2
      cases s with
      | nil =>
          rw [replaceAll_nil_of_ne hh]
          cases f2 with
          | zero => simp at hf2
          | succ f3 => exact replaceAll_nil_of_ne hT_ne f3
      | cons c cs =>
          have hlh : 1 ≤ h.length := by
            cases h with
            | nil => exact absurd rfl hh
            | cons a l => simp
          cases f2 with
          | zero => simp at hf2
          | succ f3 =>
              by_cases hm : h.isPrefixOf (c :: cs) = true
              · rw [replaceAll_cons_match hh hm, replaceAll_append_self f3]
                have hdlen : (List.drop h.length (c :: cs)).length < g := by
                  simp only [List.length_drop, List.length_cons] at *
                  omega
                have hrec := ih (List.drop h.length (c :: cs)) hdlen
                  (containsSub_drop _ _ hcs) f3
                  (by simp only [List.length_drop, List.length_cons] at *; omega)
                rw [hrec]
                conv_rhs => rw [← List.take_append_drop h.length (c :: cs)]
                congr 1
                exact List.prefix_iff_eq_take.mp (List.isPrefixOf_iff_prefix.mp hm)
              · have hm2 : h.isPrefixOf (c :: cs) = false := by
                  cases hval : h.isPrefixOf (c :: cs) with
                  | false => rfl
                  | true => exact absurd hval hm
                rw [replaceAll_cons_nomatch hh hm2]
                have hnT : Tchars.isPrefixOf (c :: replaceAll h Tchars g cs) = false := by
                  cases hcc : Tchars.isPrefixOf (c :: replaceAll h Tchars g cs) with
                  | false => rfl
                  | true =>
                      exfalso
                      obtain ⟨pr, hpr, hpre⟩ := isPrefixOf_cons_head hT_ne hcc
                      have hprmem : pr ∈ TsufList := by
                        have htl : Tchars.tail = pr := by rw [hpr]; rfl
                        exact htl ▸ Ttail_mem
                      have hcs2 : containsSub Tchars cs = false := containsSub_tail hcs
                      have hlcs : cs.length < g := by
                        simp only [List.length_cons] at hs; omega
                      have hpc := tsuf_prefix_transfer hh g cs hlcs hcs2 pr hprmem hpre
                      have hTc : Tchars.isPrefixOf (c :: cs) = true := by
                        rw [hpr]
                        show ((c == c) && pr.isPrefixOf cs) = true
                        rw [beq_self_eq_true, Bool.true_and]
                        exact hpc
                      rw [containsSub_cons, hTc, Bool.true_or] at hcs
                      exact Bool.noConfusion hcs
                rw [replaceAll_cons_nomatch hT_ne hnT]
                congr 1
                exact ih cs (by simp only [List.length_cons] at hs; omega)
                  (containsSub_tail hcs) f3
                  (by simp only [List.length_cons] at hf2; omega)

/-! ### Characters of the serializer output -/

theorem dcVal : ∀ m, m < 10 → (digitChar m).toNat = 48 + m := by decide

theorem isDigitC_digitChar : ∀ m, m < 10 → isDigitC (digitChar m) = true := by decide

theorem natDigits_chars :
    ∀ (f n : Nat) (c : Char), c ∈ natDigits f n → isDigitC c = true := by
  intro f
  induction f with
  | zero => intro n c hc; simp [natDigits] at hc
  | succ g ih =>
      intro n c hc
      by_cases hn : n < 10
      · simp only [natDigits, if_pos hn, List.mem_singleton] at hc
        rw [hc]
        exact isDigitC_digitChar n hn
      · simp only [natDigits, if_neg hn] at hc
        rcases List.mem_append.mp hc with h1 | h1
        · exact ih _ c h1
        · rw [List.mem_singleton.mp h1]
          exact isDigitC_digitChar _ (Nat.mod_lt _ (by omega))

theorem intDump_chars {n : Int} {c : Char} (hc : c ∈ intDump n) :
    isDigitC c = true ∨ c = '-' := by
  by_cases hn : n < 0
  · simp only [intDump, if_pos hn, List.mem_cons] at hc
    rcases hc with h1 | h1
    · exact Or.inr h1
    · exact Or.inl (natDigits_chars _ _ c h1)
  · simp only [intDump, if_neg hn] at hc
    exact Or.inl (natDigits_chars _ _ c hc)

theorem intDump_not_brace {n : Int} {c : Char} (hc : c ∈ intDump n) : c ≠ openBrace := by
  rcases intDump_chars hc with h1 | h1
  · intro he
    rw [he] at h1
    exact absurd h1 (by decide)
  · rw [h1]
    decide

theorem escChar_plain {c : Char} (hc : plainChar c = true) : escChar c = [c] := by
  simp only [plainChar, Bool.and_eq_true, bne_iff_ne, ne_eq,
    decide_eq_true_eq] at hc
  obtain ⟨⟨⟨h1, h2⟩, h3⟩, h4⟩ := hc
  have e1 : ¬ c = quoteC := h3
  have e2 : ¬ c = backslashC := h4
  have e3 : ¬ c = Char.ofNat 10 := fun he => by rw [he] at h1; revert h1; decide
  have e4 : ¬ c = Char.ofNat 9 := fun he => by rw [he] at h1; revert h1; decide
  have e5 : ¬ c = Char.ofNat 13 := fun he => by rw [he] at h1; revert h1; decide
  have e6 : ¬ c = Char.ofNat 8 := fun he => by rw [he] at h1; revert h1; decide
  have e7 : ¬ c = Char.ofNat 12 := fun he => by rw [he] at h1; revert h1; decide
  have e8 : (c.toNat < 32 || 127 ≤ c.toNat) = false := by
    rw [Bool.or_eq_false_iff]
    constructor <;> [skip; skip] <;> simp <;> omega
  simp [escChar, e1, e2, e3, e4, e5, e6, e7, e8]

theorem escString_plain {s : List Char} (hs : ∀ c ∈ s, plainChar c = true) :
    escString s = s := by
  induction s with
  | nil => rfl
  | cons c cs ih =>
      rw [escString, escChar_plain (hs c (List.mem_cons_self _ _)),
        ih (fun x hx => hs x (List.mem_cons_of_mem _ hx))]
      rfl

/-! ### The serializer never creates a template marker -/

theorem ThdO : Tchars.head? = some openBrace := by decide

theorem Ttwo : Tchars = openBrace :: openBrace :: List.drop 2 Tchars := by decide

theorem quote_head_not_T : ∀ q b2 (b : List Char), [quoteC] ++ b = q :: b2 → q ∉ Tchars := by
  intro q b2 b he
  injection he with h1 _
  rw [← h1]
  decide

theorem dumpsPairs_cons_shape (kv : String × JVal) (rest : List (String × JVal)) :
    ∃ W, dumpsPairs (kv :: rest) = quoteC :: W := by
  cases rest with
  | nil => exact ⟨_, rfl⟩
  | cons kv2 r => exact ⟨_, rfl⟩

mutual
theorem noT_dumps : ∀ (v : JVal), plainVal v = true → noTmplVal v = true →
    ∀ b, containsSub Tchars (dumps v ++ b) = containsSub Tchars b
  | .str s, hp, ht, b => by
      have hs : ∀ c ∈ s.data, plainChar c = true := by
        simp only [plainVal, plainStrB, List.all_eq_true] at hp
        exact hp
      have hcs : containsSub Tchars s.data = false := by
        simp only [noTmplVal, Bool.not_eq_true'] at ht
        exact ht
      have e1 : dumps (.str s) ++ b = [quoteC] ++ (s.data ++ ([quoteC] ++ b)) := by
        simp [dumps, escString_plain hs, List.append_assoc]
      rw [e1, containsSub_skip_head ThdO [quoteC] (by decide),
        containsSub_append_content hT_ne s.data hcs _ (fun q b2 he => quote_head_not_T q b2 b he),
        containsSub_skip_head ThdO [quoteC] (by decide)]
  | .num n, _, _, b => by
      have e1 : dumps (.num n) ++ b = intDump n ++ b := rfl
      rw [e1, containsSub_skip_head ThdO (intDump n) (fun c hc => intDump_not_brace hc)]
  | .bool true, _, _, b => by
      rw [show dumps (.bool true) ++ b = ['t', 'r', 'u', 'e'] ++ b from rfl,
        containsSub_skip_head ThdO _ (by decide)]
  | .bool false, _, _, b => by
      rw [show dumps (.bool false) ++ b = ['f', 'a', 'l', 's', 'e'] ++ b from rfl,
        containsSub_skip_head ThdO _ (by decide)]
  | .null, _, _, b => by
      rw [show dumps .null ++ b = ['n', 'u', 'l', 'l'] ++ b from rfl,
        containsSub_skip_head ThdO _ (by decide)]
  | .arr xs, hp, ht, b => by
      have hpi : plainItems xs = true := hp
      have hti : noTmplItems xs = true := ht
      have e1 : dumps (.arr xs) ++ b = ['['] ++ (dumpsItems xs ++ ([']'] ++ b)) := by
        simp [dumps, List.append_assoc]
      rw [e1, containsSub_skip_head ThdO _ (by decide), noT_dumpsItems xs hpi hti _,
        containsSub_skip_head ThdO _ (by decide)]
  | .obj o, hp, ht, b => by
      have hpp : plainPairs o = true := by
        simp only [plainVal, Bool.and_eq_true] at hp
        exact hp.2
      have htp : noTmplPairs o = true := ht
      cases o with
      | nil =>
          rw [show dumps (.obj []) ++ b = openBrace :: closeBrace :: b from rfl,
            containsSub_skip_two Ttwo (by decide) openBrace b,
            ← List.singleton_append, containsSub_skip_head ThdO _ (by decide)]
      | cons kv rest =>
          obtain ⟨W, hW⟩ := dumpsPairs_cons_shape kv rest
          have e1 : dumps (.obj (kv :: rest)) ++ b =
              openBrace :: quoteC :: (W ++ ([closeBrace] ++ b)) := by
            simp [dumps, hW, List.append_assoc]
          rw [e1, containsSub_skip_two Ttwo (by decide) openBrace _,
            show quoteC :: (W ++ ([closeBrace] ++ b)) =
              dumpsPairs (kv :: rest) ++ ([closeBrace] ++ b) from by rw [hW]; rfl,
            noT_dumpsPairs (kv :: rest) hpp htp _,
            containsSub_skip_head ThdO _ (by decide)]
theorem noT_dumpsItems : ∀ (xs : List JVal), plainItems xs = true → noTmplItems xs = true →
    ∀ b, containsSub Tchars (dumpsItems xs ++ b) = containsSub Tchars b
  | [], _, _, b => by rw [show dumpsItems [] ++ b = b from rfl]
  | [x], hp, ht, b => by
      have hpx : plainVal x = true := by
        simp only [plainItems, Bool.and_eq_true] at hp
        exact hp.1
      have htx : noTmplVal x = true := by
        simp only [noTmplItems, Bool.and_eq_true] at ht
        exact ht.1
      rw [show dumpsItems [x] ++ b = dumps x ++ b from rfl, noT_dumps x hpx htx b]
  | x :: y :: r, hp, ht, b => by
      have hpx : plainVal x = true ∧ plainItems (y :: r) = true := by
        rw [show plainItems (x :: y :: r) = (plainVal x && plainItems (y :: r)) from rfl,
          Bool.and_eq_true] at hp
        exact hp
      have htx : noTmplVal x = true ∧ noTmplItems (y :: r) = true := by
        rw [show noTmplItems (x :: y :: r) = (noTmplVal x && noTmplItems (y :: r)) from rfl,
          Bool.and_eq_true] at ht
        exact ht
      have e1 : dumpsItems (x :: y :: r) ++ b =
          dumps x ++ ([',', ' '] ++ (dumpsItems (y :: r) ++ b)) := by
        simp [dumpsItems, List.append_assoc]
      rw [e1, noT_dumps x hpx.1 htx.1 _, containsSub_skip_head ThdO _ (by decide),
        noT_dumpsItems (y :: r) hpx.2 htx.2 b]
theorem noT_dumpsPairs : ∀ (o : List (String × JVal)), plainPairs o = true →
    noTmplPairs o = true →
    ∀ b, containsSub Tchars (dumpsPairs o ++ b) = containsSub Tchars b
  | [], _, _, b => by rw [show dumpsPairs [] ++ b = b from rfl]
  | [kv], hp, ht, b => by
      have hpk : ∀ c ∈ kv.1.data, plainChar c = true := by
        simp only [plainPairs, plainStrB, Bool.and_eq_true, List.all_eq_true] at hp
        exact hp.1.1
      have hpv : plainVal kv.2 = true := by
        simp only [plainPairs, Bool.and_eq_true] at hp
        exact hp.1.2
      have htk : containsSub Tchars kv.1.data = false := by
        simp only [noTmplPairs, Bool.and_eq_true, Bool.not_eq_true'] at ht
        exact ht.1.1
      have htv : noTmplVal kv.2 = true := by
        simp only [noTmplPairs, Bool.and_eq_true] at ht
        exact ht.1.2
      have e1 : dumpsPairs [kv] ++ b =
          [quoteC] ++ (kv.1.data ++ ([quoteC, ':', ' '] ++ (dumps kv.2 ++ b))) := by
        simp [dumpsPairs, escString_plain hpk, List.append_assoc]
      rw [e1, containsSub_skip_head ThdO [quoteC] (by decide),
        containsSub_append_content hT_ne kv.1.data htk _
          (fun q b2 he => by
            injection he with h1 _
            rw [← h1]
            decide),
        containsSub_skip_head ThdO [quoteC, ':', ' '] (by decide),
        noT_dumps kv.2 hpv htv b]
  | kv :: kv2 :: r, hp, ht, b => by
      have hpk : ∀ c ∈ kv.1.data, plainChar c = true := by
        simp only [plainPairs, plainStrB, Bool.and_eq_true, List.all_eq_true] at hp
        exact hp.1.1
      have hpv : plainVal kv.2 = true := by
        simp only [plainPairs, Bool.and_eq_true] at hp
        exact hp.1.2
      have hpr : plainPairs (kv2 :: r) = true := by
        rw [show plainPairs (kv :: kv2 :: r) =
            (plainStrB kv.1 && plainVal kv.2 && plainPairs (kv2 :: r)) from rfl,
          Bool.and_eq_true] at hp
        exact hp.2
      have htk : containsSub Tchars kv.1.data = false := by
        simp only [noTmplPairs, Bool.and_eq_true, Bool.not_eq_true'] at ht
        exact ht.1.1
      have htv : noTmplVal kv.2 = true := by
        simp only [noTmplPairs, Bool.and_eq_true] at ht
        exact ht.1.2
      have htr : noTmplPairs (kv2 :: r) = true := by
        rw [show noTmplPairs (kv :: kv2 :: r) =
            ((!containsSub Tchars kv.1.data) && noTmplVal kv.2 && noTmplPairs (kv2 :: r)) from rfl,
          Bool.and_eq_true] at ht
        exact ht.2
      have e1 : dumpsPairs (kv :: kv2 :: r) ++ b =
          [quoteC] ++ (kv.1.data ++ ([quoteC, ':', ' '] ++ (dumps kv.2 ++
            ([',', ' '] ++ (dumpsPairs (kv2 :: r) ++ b))))) := by
        simp [dumpsPairs, escString_plain hpk, List.append_assoc]
      rw [e1, containsSub_skip_head ThdO [quoteC] (by decide),
        containsSub_append_content hT_ne kv.1.data htk _
          (fun q b2 he => by
            injection he with h1 _
            rw [← h1]
            decide),
        containsSub_skip_head ThdO [quoteC, ':', ' '] (by decide),
        noT_dumps kv.2 hpv htv _, containsSub_skip_head ThdO [',', ' '] (by decide),
        noT_dumpsPairs (kv2 :: r) hpr htr b]
end

/-- The serialization of a plain, marker-free document never contains
the template marker. -/
theorem noT_dumps_closed {v : JVal} (hp : plainVal v = true) (ht : noTmplVal v = true) :
    containsSub Tchars (dumps v) = false := by
  have := noT_dumps v hp ht []
  rw [List.append_nil] at this
  rw [this]
  decide

/-! ### Serialized replacement commutes with per-string replacement -/

theorem Tplain : ∀ c ∈ Tchars, plainChar c = true := by decide

theorem plain_pyRepL {s pat : List Char} (hs : ∀ c ∈ s, plainChar c = true) :
    ∀ c ∈ pyRepL s pat Tchars, plainChar c = true := by
  intro c hc
  rcases mem_pyRepL hc with h1 | h1
  · exact hs c h1
  · exact Tplain c h1

theorem not_mem_of_pathSafe {h : String} (hs : pathSafe h) {c : Char}
    (hc : pathChar c = false) : c ∉ h.data := by
  intro hmem
  rw [hs.2.2 c hmem] at hc
  exact Bool.noConfusion hc

theorem syntax_not_mem {h : String} (hs : pathSafe h) (a : List Char)
    (ha : ∀ c ∈ a, pathChar c = false) : ∀ c ∈ a, c ∉ h.data :=
  fun c hc => not_mem_of_pathSafe hs (ha c hc)

theorem intDump_not_slash {n : Int} {c : Char} (hc : c ∈ intDump n) : c ≠ '/' := by
  rcases intDump_chars hc with h1 | h1
  · intro he
    rw [he] at h1
    exact absurd h1 (by decide)
  · rw [h1]
    decide

mutual
theorem subst_commute (h : String) (hs : pathSafe h) :
    ∀ (v : JVal), plainVal v = true →
      ∀ b, (∀ q b2, b = q :: b2 → q ∉ h.data) →
        pyRepL (dumps v ++ b) h.data Tchars =
          dumps (walkSubst h tmpl v) ++ pyRepL b h.data Tchars
  | .str s, hp, b, hb => by
      have hne : h.data ≠ [] := hs.1
      have hsp : ∀ c ∈ s.data, plainChar c = true := by
        simp only [plainVal, plainStrB, List.all_eq_true] at hp
        exact hp
      have hq1 : ∀ c ∈ [quoteC], c ∉ h.data :=
        syntax_not_mem hs _ (by decide)
      have hq2 : ∀ q b2, [quoteC] ++ b = q :: b2 → q ∉ h.data := by
        intro q b2 he
        injection he with h1 _
        rw [← h1]
        exact not_mem_of_pathSafe hs (by decide)
      have e1 : dumps (.str s) ++ b = [quoteC] ++ (s.data ++ ([quoteC] ++ b)) := by
        simp [dumps, escString_plain hsp, List.append_assoc]
      have e2 : escString (pyReplace s h tmpl).data = pyRepL s.data h.data Tchars := by
        have hdata : (pyReplace s h tmpl).data = pyRepL s.data h.data Tchars := rfl
        rw [hdata]
        exact escString_plain (plain_pyRepL hsp)
      rw [e1, pyRepL_skip_not_mem hne [quoteC] hq1,
        pyRepL_append_split hne s.data.length s.data le_rfl ([quoteC] ++ b) hq2,
        pyRepL_skip_not_mem hne [quoteC] hq1,
        show walkSubst h tmpl (.str s) = .str (pyReplace s h tmpl) from rfl]
      simp [dumps, e2, List.append_assoc]
  | .num n, _, b, hb => by
      rw [show dumps (.num n) ++ b = intDump n ++ b from rfl,
        pyRepL_skip_marker hs.2.1 (intDump n) (fun c hc => intDump_not_slash hc) b hb,
        show walkSubst h tmpl (.num n) = .num n from rfl]
      rfl
  | .bool true, _, b, hb => by
      rw [show dumps (.bool true) ++ b = ['t', 'r', 'u', 'e'] ++ b from rfl,
        pyRepL_skip_marker hs.2.1 ['t', 'r', 'u', 'e'] (by decide) b hb,
        show walkSubst h tmpl (.bool true) = .bool true from rfl]
      rfl
  | .bool false, _, b, hb => by
      rw [show dumps (.bool false) ++ b = ['f', 'a', 'l', 's', 'e'] ++ b from rfl,
        pyRepL_skip_marker hs.2.1 ['f', 'a', 'l', 's', 'e'] (by decide) b hb,
        show walkSubst h tmpl (.bool false) = .bool false from rfl]
      rfl
  | .null, _, b, hb => by
      rw [show dumps .null ++ b = ['n', 'u', 'l', 'l'] ++ b from rfl,
        pyRepL_skip_marker hs.2.1 ['n', 'u', 'l', 'l'] (by decide) b hb,
        show walkSubst h tmpl .null = .null from rfl]
      rfl
  | .arr xs, hp, b, hb => by
      have hne : h.data ≠ [] := hs.1
      have hpi : plainItems xs = true := hp
      have hbr : ∀ q b2, [']'] ++ b = q :: b2 → q ∉ h.data := by
        intro q b2 he
        injection he with h1 _
        rw [← h1]
        exact not_mem_of_pathSafe hs (by decide)
      have e1 : dumps (.arr xs) ++ b = ['['] ++ (dumpsItems xs ++ ([']'] ++ b)) := by
        simp [dumps, List.append_assoc]
      rw [e1, pyRepL_skip_not_mem hne ['['] (syntax_not_mem hs _ (by decide)),
        subst_commute_items h hs xs hpi ([']'] ++ b) hbr,
        pyRepL_skip_not_mem hne [']'] (syntax_not_mem hs _ (by decide)),
        show walkSubst h tmpl (.arr xs) = .arr (walkSubstItems h tmpl xs) from rfl]
      simp [dumps, List.append_assoc]
  | .obj o, hp, b, hb => by
      have hne : h.data ≠ [] := hs.1
      have hpp : plainPairs o = true := by
        simp only [plainVal, Bool.and_eq_true] at hp
        exact hp.2
      have hbr : ∀ q b2, [closeBrace] ++ b = q :: b2 → q ∉ h.data := by
        intro q b2 he
        injection he with h1 _
        rw [← h1]
        exact not_mem_of_pathSafe hs (by decide)
      have e1 : dumps (.obj o) ++ b = [openBrace] ++ (dumpsPairs o ++ ([closeBrace] ++ b)) := by
        simp [dumps, List.append_assoc]
      rw [e1, pyRepL_skip_not_mem hne [openBrace] (syntax_not_mem hs _ (by decide)),
        subst_commute_pairs h hs o hpp ([closeBrace] ++ b) hbr,
        pyRepL_skip_not_mem hne [closeBrace] (syntax_not_mem hs _ (by decide)),
        show walkSubst h tmpl (.obj o) = .obj (walkSubstPairs h tmpl o) from rfl]
      simp [dumps, List.append_assoc]
theorem subst_commute_items (h : String) (hs : pathSafe h) :
    ∀ (xs : List JVal), plainItems xs = true →
      ∀ b, (∀ q b2, b = q :: b2 → q ∉ h.data) →
        pyRepL (dumpsItems xs ++ b) h.data Tchars =
          dumpsItems (walkSubstItems h tmpl xs) ++ pyRepL b h.data Tchars
  | [], _, b, _ => by
      rw [show dumpsItems [] ++ b = b from rfl,
        show walkSubstItems h tmpl [] = [] from rfl]
      rfl
  | [x], hp, b, hb => by
      have hpx : plainVal x = true := by
        simp only [plainItems, Bool.and_eq_true] at hp
        exact hp.1
      rw [show dumpsItems [x] ++ b = dumps x ++ b from rfl,
        subst_commute h hs x hpx b hb,
        show walkSubstItems h tmpl [x] = [walkSubst h tmpl x] from rfl]
      rfl
  | x :: y :: r, hp, b, hb => by
      have hne : h.data ≠ [] := hs.1
      have hpx : plainVal x = true ∧ plainItems (y :: r) = true := by
        rw [show plainItems (x :: y :: r) = (plainVal x && plainItems (y :: r)) from rfl,
          Bool.and_eq_true] at hp
        exact hp
      have hbc : ∀ q b2, [',', ' '] ++ (dumpsItems (y :: r) ++ b) = q :: b2 → q ∉ h.data := by
        intro q b2 he
        injection he with h1 _
        rw [← h1]
        exact not_mem_of_pathSafe hs (by decide)
      have e1 : dumpsItems (x :: y :: r) ++ b =
          dumps x ++ ([',', ' '] ++ (dumpsItems (y :: r) ++ b)) := by
        simp [dumpsItems, List.append_assoc]
      rw [e1, subst_commute h hs x hpx.1 _ hbc,
        pyRepL_skip_not_mem hne [',', ' '] (syntax_not_mem hs _ (by decide)),
        subst_commute_items h hs (y :: r) hpx.2 b hb]
      simp [walkSubstItems, dumpsItems, List.append_assoc]
theorem subst_commute_pairs (h : String) (hs : pathSafe h) :
    ∀ (o : List (String × JVal)), plainPairs o = true →
      ∀ b, (∀ q b2, b = q :: b2 → q ∉ h.data) →
        pyRepL (dumpsPairs o ++ b) h.data Tchars =
          dumpsPairs (walkSubstPairs h tmpl o) ++ pyRepL b h.data Tchars
  | [], _, b, _ => by
      rw [show dumpsPairs [] ++ b = b from rfl,
        show walkSubstPairs h tmpl [] = [] from rfl]
      rfl
  | [kv], hp, b, hb => by
      have hne : h.data ≠ [] := hs.1
      have hpk : ∀ c ∈ kv.1.data, plainChar c = true := by
        simp only [plainPairs, plainStrB, Bool.and_eq_true, List.all_eq_true] at hp
        exact hp.1.1
      have hpv : plainVal kv.2 = true := by
        simp only [plainPairs, Bool.and_eq_true] at hp
        exact hp.1.2
      have hq2 : ∀ q b2, [quoteC, ':', ' '] ++ (dumps kv.2 ++ b) = q :: b2 → q ∉ h.data := by
        intro q b2 he
        injection he with h1 _
        rw [← h1]
        exact not_mem_of_pathSafe hs (by decide)
      have e1 : dumpsPairs [kv] ++ b =
          [quoteC] ++ (kv.1.data ++ ([quoteC, ':', ' '] ++ (dumps kv.2 ++ b))) := by
        simp [dumpsPairs, escString_plain hpk, List.append_assoc]
      have e2 : escString (pyReplace kv.1 h tmpl).data = pyRepL kv.1.data h.data Tchars := by
        have hdata : (pyReplace kv.1 h tmpl).data = pyRepL kv.1.data h.data Tchars := rfl
        rw [hdata]
        exact escString_plain (plain_pyRepL hpk)
      rw [e1, pyRepL_skip_not_mem hne [quoteC] (syntax_not_mem hs _ (by decide)),
        pyRepL_append_split hne kv.1.data.length kv.1.data le_rfl _ hq2,
        pyRepL_skip_not_mem hne [quoteC, ':', ' '] (syntax_not_mem hs _ (by decide)),
        subst_commute h hs kv.2 hpv b hb,
        show walkSubstPairs h tmpl [kv] =
          [(pyReplace kv.1 h tmpl, walkSubst h tmpl kv.2)] from rfl]
      simp [dumpsPairs, e2, List.append_assoc]
  | kv :: kv2 :: r, hp, b, hb => by
      have hne : h.data ≠ [] := hs.1
      have hpk : ∀ c ∈ kv.1.data, plainChar c = true := by
        simp only [plainPairs, plainStrB, Bool.and_eq_true, List.all_eq_true] at hp
        exact hp.1.1
      have hpv : plainVal kv.2 = true := by
        simp only [plainPairs, Bool.and_eq_true] at hp
        exact hp.1.2
      have hpr : plainPairs (kv2 :: r) = true := by
        rw [show plainPairs (kv :: kv2 :: r) =
            (plainStrB kv.1 && plainVal kv.2 && plainPairs (kv2 :: r)) from rfl,
          Bool.and_eq_true] at hp
        exact hp.2
      have hq2 : ∀ q b2, [quoteC, ':', ' '] ++
          (dumps kv.2 ++ ([',', ' '] ++ (dumpsPairs (kv2 :: r) ++ b))) = q :: b2 →
          q ∉ h.data := by
        intro q b2 he
        injection he with h1 _
        rw [← h1]
        exact not_mem_of_pathSafe hs (by decide)
      have hq3 : ∀ q b2, [',', ' '] ++ (dumpsPairs (kv2 :: r) ++ b) = q :: b2 →
          q ∉ h.data := by
        intro q b2 he
        injection he with h1 _
        rw [← h1]
        exact not_mem_of_pathSafe hs (by decide)
      have e1 : dumpsPairs (kv :: kv2 :: r) ++ b =
          [quoteC] ++ (kv.1.data ++ ([quoteC, ':', ' '] ++
            (dumps kv.2 ++ ([',', ' '] ++ (dumpsPairs (kv2 :: r) ++ b))))) := by
        simp [dumpsPairs, escString_plain hpk, List.append_assoc]
      have e2 : escString (pyReplace kv.1 h tmpl).data = pyRepL kv.1.data h.data Tchars := by
        have hdata : (pyReplace kv.1 h tmpl).data = pyRepL kv.1.data h.data Tchars := rfl
        rw [hdata]
        exact escString_plain (plain_pyRepL hpk)
      rw [e1, pyRepL_skip_not_mem hne [quoteC] (syntax_not_mem hs _ (by decide)),
        pyRepL_append_split hne kv.1.data.length kv.1.data le_rfl _ hq2,
        pyRepL_skip_not_mem hne [quoteC, ':', ' '] (syntax_not_mem hs _ (by decide)),
        subst_commute h hs kv.2 hpv _ hq3,
        pyRepL_skip_not_mem hne [',', ' '] (syntax_not_mem hs _ (by decide)),
        subst_commute_pairs h hs (kv2 :: r) hpr b hb,
        show walkSubstPairs h tmpl (kv :: kv2 :: r) =
          (pyReplace kv.1 h tmpl, walkSubst h tmpl kv.2) ::
            walkSubstPairs h tmpl (kv2 :: r) from rfl,
        show walkSubstPairs h tmpl (kv2 :: r) =
          (pyReplace kv2.1 h tmpl, walkSubst h tmpl kv2.2) ::
            walkSubstPairs h tmpl r from rfl]
      simp [dumpsPairs, e2, List.append_assoc]
end

/-! ### Parsing back the serializer output -/

theorem digitsToNat_cons (c : Char) (cs : List Char) (acc : Nat) :
    digitsToNat (c :: cs) acc = digitsToNat cs (acc * 10 + (c.toNat - 48)) := rfl

theorem digitsToNat_append (a b : List Char) :
    ∀ acc, digitsToNat (a ++ b) acc = digitsToNat b (digitsToNat a acc) := by
  induction a with
  | nil => intro acc; rfl
  | cons c cs ih =>
      intro acc
      rw [List.cons_append, digitsToNat_cons, digitsToNat_cons, ih]

theorem natDigits_ne_nil : ∀ (f n : Nat), n < f → natDigits f n ≠ [] := by
  intro f n hf
  cases f with
  | zero => omega
  | succ g =>
      by_cases hn : n < 10
      · simp [natDigits, hn]
      · simp [natDigits, hn]

theorem digitsToNat_natDigits :
    ∀ (f n : Nat), n < f →
      ∀ acc, digitsToNat (natDigits f n) acc = acc * 10 ^ (natDigits f n).length + n := by
  intro f
  induction f with
  | zero => intro n hf; omega
  | succ g ih =>
      intro n hf acc
      by_cases hn : n < 10
      · rw [show natDigits (g + 1) n = [digitChar n] from by simp [natDigits, hn]]
        rw [show digitsToNat [digitChar n] acc =
          digitsToNat [] (acc * 10 + ((digitChar n).toNat - 48)) from rfl]
        rw [dcVal n hn]
        simp [digitsToNat]
      · rw [show natDigits (g + 1) n =
          natDigits g (n / 10) ++ [digitChar (n % 10)] from by simp [natDigits, hn]]
        have hdiv : n / 10 < g := by omega
        rw [digitsToNat_append, ih (n / 10) hdiv acc]
        rw [show digitsToNat [digitChar (n % 10)] (acc * 10 ^ (natDigits g (n / 10)).length + n / 10)
          = (acc * 10 ^ (natDigits g (n / 10)).length + n / 10) * 10 +
              ((digitChar (n % 10)).toNat - 48) from rfl]
        rw [dcVal (n % 10) (Nat.mod_lt _ (by omega))]
        rw [List.length_append, List.length_singleton, pow_succ]
        have hdm : n / 10 * 10 + n % 10 = n := by omega
        calc (acc * 10 ^ (natDigits g (n / 10)).length + n / 10) * 10 + (48 + n % 10 - 48)
            = acc * (10 ^ (natDigits g (n / 10)).length * 10) + (n / 10 * 10 + n % 10) := by
              ring_nf
              omega
          _ = acc * (10 ^ (natDigits g (n / 10)).length * 10) + n := by rw [hdm]

theorem takeWhile_digits_append {ds : List Char} (hds : ∀ c ∈ ds, isDigitC c = true)
    {r : List Char} (hr : ∀ q r2, r = q :: r2 → isDigitC q = false) :
    List.takeWhile isDigitC (ds ++ r) = ds ∧ List.dropWhile isDigitC (ds ++ r) = r := by
  induction ds with
  | nil =>
      simp only [List.nil_append]
      cases r with
      | nil => exact ⟨rfl, rfl⟩
      | cons q r2 =>
          have := hr q r2 rfl
          simp [List.takeWhile, List.dropWhile, this]
  | cons d ds2 ih =>
      have hd : isDigitC d = true := hds d (List.mem_cons_self _ _)
      have ⟨ih1, ih2⟩ := ih (fun c hc => hds c (List.mem_cons_of_mem _ hc))
      rw [List.cons_append]
      constructor
      · rw [List.takeWhile_cons, hd, if_pos rfl, ih1]
      · rw [List.dropWhile_cons, hd, if_pos rfl, ih2]

theorem isDigitC_not_dash {c : Char} (hc : isDigitC c = true) : ¬ c = '-' := by
  intro he
  rw [he] at hc
  exact absurd hc (by decide)

theorem parseIntTok_intDump (n : Int) {r : List Char}
    (hr : ∀ q r2, r = q :: r2 → isDigitC q = false) :
    parseIntTok (intDump n ++ r) = some (n, r) := by
  have hchars := natDigits_chars (n.natAbs + 1) n.natAbs
  have hdn := digitsToNat_natDigits (n.natAbs + 1) n.natAbs (Nat.lt_succ_self _) 0
  rw [Nat.zero_mul, Nat.zero_add] at hdn
  obtain ⟨d, ds, hds⟩ : ∃ d ds, natDigits (n.natAbs + 1) n.natAbs = d :: ds := by
    cases hnd : natDigits (n.natAbs + 1) n.natAbs with
    | nil => exact absurd hnd (natDigits_ne_nil _ _ (Nat.lt_succ_self _))
    | cons d ds => exact ⟨d, ds, rfl⟩
  have ⟨htw, hdw⟩ := takeWhile_digits_append hchars hr
  by_cases hn : n < 0
  · rw [show intDump n ++ r = '-' :: (natDigits (n.natAbs + 1) n.natAbs ++ r) from by
      simp [intDump, hn]]
    rw [show parseIntTok ('-' :: (natDigits (n.natAbs + 1) n.natAbs ++ r)) =
      (if ('-' : Char) = '-' then
        match (natDigits (n.natAbs + 1) n.natAbs ++ r).takeWhile isDigitC with
        | [] => none
        | ds => some (-(digitsToNat ds 0 : Int),
            (natDigits (n.natAbs + 1) n.natAbs ++ r).dropWhile isDigitC)
      else if isDigitC '-' then
        some ((digitsToNat (List.takeWhile isDigitC
            ('-' :: (natDigits (n.natAbs + 1) n.natAbs ++ r))) 0 : Int),
          List.dropWhile isDigitC ('-' :: (natDigits (n.natAbs + 1) n.natAbs ++ r)))
      else none) from rfl]
    rw [if_pos rfl, htw, hdw, hds]
    have hdd : digitsToNat (d :: ds) 0 = n.natAbs := by rw [← hds]; exact hdn
    show some (-(digitsToNat (d :: ds) 0 : Int), r) = some (n, r)
    rw [hdd]
    have hneg : -(n.natAbs : Int) = n := by omega
    rw [hneg]
  · obtain ⟨hd, hds2⟩ : isDigitC d = true ∧ d ∈ natDigits (n.natAbs + 1) n.natAbs := by
      constructor
      · exact hchars d (hds ▸ List.mem_cons_self _ _)
      · exact hds ▸ List.mem_cons_self _ _
    rw [show intDump n ++ r = natDigits (n.natAbs + 1) n.natAbs ++ r from by
      simp [intDump, hn]]
    rw [hds, List.cons_append]
    rw [show parseIntTok (d :: (ds ++ r)) =
      (if d = '-' then
        match (ds ++ r).takeWhile isDigitC with
        | [] => none
        | ds2 => some (-(digitsToNat ds2 0 : Int), (ds ++ r).dropWhile isDigitC)
      else if isDigitC d then
        some ((digitsToNat (List.takeWhile isDigitC (d :: (ds ++ r))) 0 : Int),
          List.dropWhile isDigitC (d :: (ds ++ r)))
      else none) from rfl]
    rw [if_neg (isDigitC_not_dash hd), if_pos hd]
    rw [show List.takeWhile isDigitC (d :: (ds ++ r)) =
        List.takeWhile isDigitC ((d :: ds) ++ r) from rfl,
      show List.dropWhile isDigitC (d :: (ds ++ r)) =
        List.dropWhile isDigitC ((d :: ds) ++ r) from rfl]
    rw [← hds, htw, hdw, hdn]
    have hpos : ((n.natAbs : Int)) = n := by omega
    rw [hpos]

theorem parseStrBody_plain :
    ∀ (f : Nat) (s : List Char), s.length < f → (∀ c ∈ s, plainChar c = true) →
      ∀ r, parseStrBody f (s ++ (quoteC :: r)) = some (s, r) := by
  intro f
  induction f with
  | zero => intro s hs; omega
  | succ g ih =>
      intro s hs hp r
      cases s with
      | nil =>
          rw [List.nil_append]
          simp [parseStrBody]
      | cons c cs =>
          have hc := hp c (List.mem_cons_self _ _)
          have hcq : ¬ c = quoteC := by
            simp only [plainChar, Bool.and_eq_true, bne_iff_ne, ne_eq] at hc
            exact hc.1.2
          have hcb : ¬ c = backslashC := by
            simp only [plainChar, Bool.and_eq_true, bne_iff_ne, ne_eq] at hc
            exact hc.2
          have hrec := ih cs (by simp only [List.length_cons] at hs; omega)
            (fun x hx => hp x (List.mem_cons_of_mem _ hx)) r
          rw [List.cons_append]
          simp only [parseStrBody, if_neg hcq, if_neg hcb, hrec]

theorem skipWs_not_ws {c : Char} (hc : isWsChar c = false) (x : List Char) :
    skipWs (c :: x) = c :: x := by
  simp [skipWs, List.dropWhile_cons, hc]

theorem skipWs_space (x : List Char) : skipWs (' ' :: x) = skipWs x := by
  have hws : isWsChar ' ' = true := by decide
  simp [skipWs, List.dropWhile_cons, hws]

theorem parseVal_ws : ∀ (f : Nat) (X : List Char), parseVal f (' ' :: X) = parseVal f X := by
  intro f X
  cases f with
  | zero => rfl
  | succ g =>
      show (match skipWs (' ' :: X) with | [] => none | c :: rest => _) =
        (match skipWs X with | [] => none | c :: rest => _)
      rw [skipWs_space]

theorem parseItems_ws : ∀ (f : Nat) (X : List Char),
    parseItems f (' ' :: X) = parseItems f X := by
  intro f X
  cases f with
  | zero => rfl
  | succ g =>
      show (match parseVal g (' ' :: X) with | some (v, r) => _ | none => none) =
        (match parseVal g X with | some (v, r) => _ | none => none)
      rw [parseVal_ws]

theorem parsePairs_ws : ∀ (f : Nat) (X : List Char),
    parsePairs f (' ' :: X) = parsePairs f X := by
  intro f X
  cases f with
  | zero => rfl
  | succ g =>
      show (match skipWs (' ' :: X) with | [] => none | c :: rest => _) =
        (match skipWs X with | [] => none | c :: rest => _)
      rw [skipWs_space]


theorem digit_not_ws {c : Char} (h : isDigitC c = true) : isWsChar c = false := by
  cases hw : isWsChar c with
  | false => rfl
  | true =>
      exfalso
      simp only [isWsChar, Bool.or_eq_true, beq_iff_eq] at hw
      rcases hw with ((h1 | h1) | h1) | h1 <;> rw [h1] at h <;> exact absurd h (by decide)

theorem digit_not_rbracket {c : Char} (h : isDigitC c = true) : c ≠ ']' := by
  intro he
  rw [he] at h
  exact absurd h (by decide)

theorem dumps_head (v : JVal) :
    ∃ c t, dumps v = c :: t ∧ isWsChar c = false ∧ c ≠ ']' := by
  cases v with
  | str s => exact ⟨quoteC, _, rfl, by decide, by decide⟩
  | num n =>
      by_cases hn : n < 0
      · refine ⟨'-', natDigits (n.natAbs + 1) n.natAbs, ?_, by decide, by decide⟩
        simp [dumps, intDump, hn]
      · obtain ⟨d, ds, hds⟩ : ∃ d ds, natDigits (n.natAbs + 1) n.natAbs = d :: ds := by
          cases hnd : natDigits (n.natAbs + 1) n.natAbs with
          | nil => exact absurd hnd (natDigits_ne_nil _ _ (Nat.lt_succ_self _))
          | cons d ds => exact ⟨d, ds, rfl⟩
        have hd : isDigitC d = true :=
          natDigits_chars _ _ d (hds ▸ List.mem_cons_self _ _)
        refine ⟨d, ds, ?_, digit_not_ws hd, digit_not_rbracket hd⟩
        simp [dumps, intDump, hn, hds]
  | bool b => cases b with
      | true => exact ⟨'t', _, rfl, by decide, by decide⟩
      | false => exact ⟨'f', _, rfl, by decide, by decide⟩
  | null => exact ⟨'n', _, rfl, by decide, by decide⟩
  | arr xs => exact ⟨'[', _, rfl, by decide, by decide⟩
  | obj o => exact ⟨openBrace, _, rfl, by decide, by decide⟩

theorem dumpsItems_cons_shape (x : JVal) (xs : List JVal) :
    ∃ t, dumpsItems (x :: xs) = dumps x ++ t := by
  cases xs with
  | nil => exact ⟨[], by simp [dumpsItems]⟩
  | cons y r => exact ⟨_, rfl⟩

theorem jsizeV_pos : ∀ v : JVal, 1 ≤ jsizeV v := by
  intro v
  cases v <;> simp [jsizeV]

theorem parseItems_step (g : Nat) (cs : List Char) {v : JVal} {r : List Char}
    (h : parseVal g cs = some (v, r)) :
    parseItems (g + 1) cs =
      (match skipWs r with
      | c :: r2 =>
          if c = ',' then
            match parseItems g r2 with
            | some (vs, r3) => some (v :: vs, r3)
            | none => none
          else if c = ']' then some ([v], r2)
          else none
      | [] => none) := by
  simp only [parseItems, h]

theorem parsePairs_step (g : Nat) (rest : List Char) :
    parsePairs (g + 1) (quoteC :: rest) =
      (match parseStrBody (rest.length + 1) rest with
      | some (k, r) =>
          match skipWs r with
          | c2 :: r2 =>
              if c2 = ':' then
                match parseVal g r2 with
                | some (v, r3) =>
                    match skipWs r3 with
                    | c3 :: r4 =>
                        if c3 = ',' then
                          match parsePairs g r4 with
                          | some (ps, r5) => some ((String.mk k, v) :: ps, r5)
                          | none => none
                        else if c3 = closeBrace then some ([(String.mk k, v)], r4)
                        else none
                    | [] => none
                | none => none
              else none
          | [] => none
      | none => none) := by
  simp only [parsePairs, skipWs_not_ws (show isWsChar quoteC = false from by decide),
    if_pos rfl, if_true]

mutual
theorem parse_dumps : ∀ (v : JVal), plainVal v = true →
    ∀ (f : Nat), jsizeV v ≤ f →
      ∀ r, (∀ q r2, r = q :: r2 → isDigitC q = false) →
        parseVal f (dumps v ++ r) = some (v, r)
  | .str s, hp, f, hf, r, _ => by
      have hsp : ∀ c ∈ s.data, plainChar c = true := by
        simp only [plainVal, plainStrB, List.all_eq_true] at hp
        exact hp
      cases f with
      | zero => exact absurd hf (by simp [jsizeV])
      | succ g =>
          have e1 : dumps (.str s) ++ r = quoteC :: (s.data ++ (quoteC :: r)) := by
            simp [dumps, escString_plain hsp]
          have hps := parseStrBody_plain ((s.data ++ (quoteC :: r)).length + 1) s.data
            (by simp only [List.length_append, List.length_cons]; omega) hsp r
          have hmk : String.mk s.data = s := rfl
          rw [e1]
          simp only [parseVal]
          rw [skipWs_not_ws (by decide)]
          simp only [if_true, if_pos rfl, hps, hmk]
  | .num n, _, f, hf, r, hr => by
      cases f with
      | zero => exact absurd hf (by simp [jsizeV])
      | succ g =>
          have e1 : dumps (.num n) ++ r = intDump n ++ r := rfl
          have hpt := parseIntTok_intDump n hr
          obtain ⟨c0, t0, ht0, hw0, _⟩ := dumps_head (.num n)
          have hd0 : isDigitC c0 = true ∨ c0 = '-' := by
            have : c0 ∈ intDump n := by
              have : c0 ∈ dumps (.num n) := ht0 ▸ List.mem_cons_self _ _
              exact this
            exact intDump_chars this
          have hnq : ¬ c0 = quoteC := by
            rcases hd0 with h1 | h1
            · intro he; rw [he] at h1; exact absurd h1 (by decide)
            · rw [h1]; decide
          have hnlb : ¬ c0 = '[' := by
            rcases hd0 with h1 | h1
            · intro he; rw [he] at h1; exact absurd h1 (by decide)
            · rw [h1]; decide
          have hnob : ¬ c0 = openBrace := by
            rcases hd0 with h1 | h1
            · intro he; rw [he] at h1; exact absurd h1 (by decide)
            · rw [h1]; decide
          have hnt : ¬ c0 = 't' := by
            rcases hd0 with h1 | h1
            · intro he; rw [he] at h1; exact absurd h1 (by decide)
            · rw [h1]; decide
          have hnf : ¬ c0 = 'f' := by
            rcases hd0 with h1 | h1
            · intro he; rw [he] at h1; exact absurd h1 (by decide)
            · rw [h1]; decide
          have hnn : ¬ c0 = 'n' := by
            rcases hd0 with h1 | h1
            · intro he; rw [he] at h1; exact absurd h1 (by decide)
            · rw [h1]; decide
          have e2 : dumps (.num n) ++ r = c0 :: (t0 ++ r) := by
            rw [show dumps (.num n) = c0 :: t0 from ht0]
            rfl
          rw [e2]
          simp only [parseVal]
          rw [skipWs_not_ws hw0]
          simp only [if_neg hnq, if_neg hnlb, if_neg hnob, if_neg hnt, if_neg hnf,
            if_neg hnn]
          rw [show c0 :: (t0 ++ r) = (c0 :: t0) ++ r from rfl, ← ht0]
          rw [show dumps (.num n) = intDump n from rfl, hpt]
  | .bool true, _, f, hf, r, _ => by
      cases f with
      | zero => exact absurd hf (by simp [jsizeV])
      | succ g =>
          rw [show dumps (.bool true) ++ r = 't' :: 'r' :: 'u' :: 'e' :: r from rfl]
          simp only [parseVal]
          rw [skipWs_not_ws (by decide)]
          simp only [if_neg (by decide : ¬('t' : Char) = quoteC),
            if_neg (by decide : ¬('t' : Char) = '['),
            if_neg (by decide : ¬('t' : Char) = openBrace), if_pos rfl, if_true]
  | .bool false, _, f, hf, r, _ => by
      cases f with
      | zero => exact absurd hf (by simp [jsizeV])
      | succ g =>
          rw [show dumps (.bool false) ++ r = 'f' :: 'a' :: 'l' :: 's' :: 'e' :: r from rfl]
          simp only [parseVal]
          rw [skipWs_not_ws (by decide)]
          simp only [if_neg (by decide : ¬('f' : Char) = quoteC),
            if_neg (by decide : ¬('f' : Char) = '['),
            if_neg (by decide : ¬('f' : Char) = openBrace),
            if_neg (by decide : ¬('f' : Char) = 't'), if_pos rfl, if_true]
  | .null, _, f, hf, r, _ => by
      cases f with
      | zero => exact absurd hf (by simp [jsizeV])
      | succ g =>
          rw [show dumps .null ++ r = 'n' :: 'u' :: 'l' :: 'l' :: r from rfl]
          simp only [parseVal]
          rw [skipWs_not_ws (by decide)]
          simp only [if_neg (by decide : ¬('n' : Char) = quoteC),
            if_neg (by decide : ¬('n' : Char) = '['),
            if_neg (by decide : ¬('n' : Char) = openBrace),
            if_neg (by decide : ¬('n' : Char) = 't'),
            if_neg (by decide : ¬('n' : Char) = 'f'), if_pos rfl, if_true]
  | .arr [], _, f, hf, r, _ => by
      cases f with
      | zero => exact absurd hf (by simp [jsizeV, jsizeItems])
      | succ g =>
          rw [show dumps (.arr []) ++ r = '[' :: ']' :: r from rfl]
          simp only [parseVal]
          rw [skipWs_not_ws (by decide)]
          simp only [if_neg (by decide : ¬('[' : Char) = quoteC), if_pos rfl, if_true]
          rw [skipWs_not_ws (by decide)]
          simp only [if_true, if_pos rfl, if_true]
  | .arr (x :: xs), hp, f, hf, r, _ => by
      have hpi : plainItems (x :: xs) = true := hp
      cases f with
      | zero =>
          exfalso
          have := jsizeV_pos (.arr (x :: xs))
          omega
      | succ g =>
          have e1 : dumps (.arr (x :: xs)) ++ r =
              '[' :: (dumpsItems (x :: xs) ++ (']' :: r)) := by
            simp [dumps]
          obtain ⟨t1, ht1⟩ := dumpsItems_cons_shape x xs
          obtain ⟨c0, t0, ht0, hw0, hnr0⟩ := dumps_head x
          have e2 : dumpsItems (x :: xs) ++ (']' :: r) =
              c0 :: (t0 ++ t1 ++ (']' :: r)) := by
            rw [ht1, ht0]
            simp [List.append_assoc]
          have hsz : jsizeItems (x :: xs) ≤ g := by
            have : jsizeV (.arr (x :: xs)) = 1 + jsizeItems (x :: xs) := rfl
            omega
          have hpi2 := parse_dumpsItems (x :: xs) (by simp) hpi g hsz r
          rw [e1]
          simp only [parseVal]
          rw [skipWs_not_ws (by decide)]
          simp only [if_neg (by decide : ¬('[' : Char) = quoteC), if_pos rfl, if_true]
          rw [e2, skipWs_not_ws hw0]
          simp only [if_neg hnr0]
          rw [← e2]
          simp only [hpi2]
  | .obj [], _, f, hf, r, _ => by
      cases f with
      | zero => exact absurd hf (by simp [jsizeV, jsizePairs])
      | succ g =>
          rw [show dumps (.obj []) ++ r = openBrace :: closeBrace :: r from rfl]
          simp only [parseVal]
          rw [skipWs_not_ws (by decide)]
          simp only [if_neg (by decide : ¬openBrace = quoteC),
            if_neg (by decide : ¬openBrace = '['), if_pos rfl, if_true]
          rw [skipWs_not_ws (by decide)]
          simp only [if_true, if_pos rfl, if_true]
  | .obj (kv :: o2), hp, f, hf, r, _ => by
      have hnd : nodupKeys (kv :: o2) := by
        simp only [plainVal, Bool.and_eq_true, decide_eq_true_eq] at hp
        exact hp.1
      have hpp : plainPairs (kv :: o2) = true := by
        simp only [plainVal, Bool.and_eq_true] at hp
        exact hp.2
      cases f with
      | zero =>
          exfalso
          have := jsizeV_pos (.obj (kv :: o2))
          omega
      | succ g =>
          have e1 : dumps (.obj (kv :: o2)) ++ r =
              openBrace :: (dumpsPairs (kv :: o2) ++ (closeBrace :: r)) := by
            simp [dumps]
          obtain ⟨W, hW⟩ := dumpsPairs_cons_shape kv o2
          have e2 : dumpsPairs (kv :: o2) ++ (closeBrace :: r) =
              quoteC :: (W ++ (closeBrace :: r)) := by
            rw [hW]
            rfl
          have hsz : jsizePairs (kv :: o2) ≤ g := by
            have : jsizeV (.obj (kv :: o2)) = 1 + jsizePairs (kv :: o2) := rfl
            omega
          have hpp2 := parse_dumpsPairs (kv :: o2) (by simp) hpp g hsz r
          have hupd : update [] (kv :: o2) = kv :: o2 := update_nil_of_nodup hnd
          rw [e1]
          simp only [parseVal]
          rw [skipWs_not_ws (by decide)]
          simp only [if_neg (by decide : ¬openBrace = quoteC),
            if_neg (by decide : ¬openBrace = '['), if_pos rfl, if_true]
          rw [e2, skipWs_not_ws (by decide)]
          simp only [if_neg (by decide : ¬quoteC = closeBrace)]
          rw [← e2]
          simp only [hpp2, hupd]
theorem parse_dumpsItems : ∀ (xs : List JVal), xs ≠ [] → plainItems xs = true →
    ∀ (f : Nat), jsizeItems xs ≤ f →
      ∀ r, parseItems f (dumpsItems xs ++ (']' :: r)) = some (xs, r)
  | [], hne, _, _, _, _ => absurd rfl hne
  | [x], _, hp, f, hf, r => by
      have hpx : plainVal x = true := by
        simp only [plainItems, Bool.and_eq_true] at hp
        exact hp.1
      cases f with
      | zero =>
          exfalso
          have := jsizeV_pos x
          simp only [jsizeItems] at hf
          omega
      | succ g =>
          have hsx : jsizeV x ≤ g := by
            have : jsizeItems [x] = 1 + jsizeV x + 1 := rfl
            omega
          have hpv := parse_dumps x hpx g hsx (']' :: r)
            (fun q r2 he => by injection he with h1 _; rw [← h1]; decide)
          rw [show dumpsItems [x] ++ (']' :: r) = dumps x ++ (']' :: r) from rfl]
          simp only [parseItems, hpv]
          rw [skipWs_not_ws (by decide)]
          simp only [if_neg (by decide : ¬(']' : Char) = ','), if_pos rfl, if_true]
  | x :: y :: ys, _, hp, f, hf, r => by
      have hpx : plainVal x = true ∧ plainItems (y :: ys) = true := by
        rw [show plainItems (x :: y :: ys) = (plainVal x && plainItems (y :: ys)) from rfl,
          Bool.and_eq_true] at hp
        exact hp
      cases f with
      | zero =>
          exfalso
          have := jsizeV_pos x
          simp only [jsizeItems] at hf
          omega
      | succ g =>
          have hsx : jsizeV x ≤ g := by
            have : jsizeItems (x :: y :: ys) = 1 + jsizeV x + jsizeItems (y :: ys) := rfl
            have h2 : 1 ≤ jsizeItems (y :: ys) := by
              have : jsizeItems (y :: ys) = 1 + jsizeV y + jsizeItems ys := rfl
              omega
            omega
          have hsr : jsizeItems (y :: ys) ≤ g := by
            have : jsizeItems (x :: y :: ys) = 1 + jsizeV x + jsizeItems (y :: ys) := rfl
            have h2 := jsizeV_pos x
            omega
          have e1 : dumpsItems (x :: y :: ys) ++ (']' :: r) =
              dumps x ++ (',' :: ' ' :: (dumpsItems (y :: ys) ++ (']' :: r))) := by
            simp [dumpsItems, List.append_assoc]
          have hpv := parse_dumps x hpx.1 g hsx
            (',' :: ' ' :: (dumpsItems (y :: ys) ++ (']' :: r)))
            (fun q r2 he => by injection he with h1 _; rw [← h1]; decide)
          have hrest := parse_dumpsItems (y :: ys) (by simp) hpx.2 g hsr r
          have hrest2 : parseItems g (' ' :: (dumpsItems (y :: ys) ++ (']' :: r))) =
              some (y :: ys, r) := by
            rw [parseItems_ws]
            exact hrest
          rw [e1, parseItems_step g _ hpv,
            skipWs_not_ws (show isWsChar ',' = false from by decide)]
          show (match parseItems g (' ' :: (dumpsItems (y :: ys) ++ (']' :: r))) with
            | some (vs, r3) => some (x :: vs, r3)
            | none => none) = some (x :: y :: ys, r)
          rw [hrest2]
theorem parse_dumpsPairs : ∀ (o : List (String × JVal)), o ≠ [] → plainPairs o = true →
    ∀ (f : Nat), jsizePairs o ≤ f →
      ∀ r, parsePairs f (dumpsPairs o ++ (closeBrace :: r)) = some (o, r)
  | [], hne, _, _, _, _ => absurd rfl hne
  | [kv], _, hp, f, hf, r => by
      have hpk : ∀ c ∈ kv.1.data, plainChar c = true := by
        simp only [plainPairs, plainStrB, Bool.and_eq_true, List.all_eq_true] at hp
        exact hp.1.1
      have hpv : plainVal kv.2 = true := by
        simp only [plainPairs, Bool.and_eq_true] at hp
        exact hp.1.2
      cases f with
      | zero =>
          exfalso
          have := jsizeV_pos kv.2
          simp only [jsizePairs] at hf
          omega
      | succ g =>
          have hsx : jsizeV kv.2 ≤ g := by
            have : jsizePairs [kv] = 1 + jsizeV kv.2 + 1 := rfl
            omega
          have e1 : dumpsPairs [kv] ++ (closeBrace :: r) =
              quoteC :: (kv.1.data ++
                (quoteC :: ':' :: ' ' :: (dumps kv.2 ++ (closeBrace :: r)))) := by
            simp [dumpsPairs, escString_plain hpk]
          have hps := parseStrBody_plain
            ((kv.1.data ++ (quoteC :: ':' :: ' ' :: (dumps kv.2 ++ (closeBrace :: r)))).length + 1)
            kv.1.data (by simp only [List.length_append, List.length_cons]; omega) hpk
            (':' :: ' ' :: (dumps kv.2 ++ (closeBrace :: r)))
          have hpv2 := parse_dumps kv.2 hpv g hsx (closeBrace :: r)
            (fun q r2 he => by injection he with h1 _; rw [← h1]; decide)
          have hmk : String.mk kv.1.data = kv.1 := rfl
          have hpv3 : parseVal g (' ' :: (dumps kv.2 ++ (closeBrace :: r))) =
              some (kv.2, closeBrace :: r) := by
            rw [parseVal_ws]
            exact hpv2
          rw [e1, parsePairs_step g _, hps]
          show (match skipWs (':' :: ' ' :: (dumps kv.2 ++ (closeBrace :: r))) with
            | c2 :: r2 =>
                if c2 = ':' then
                  match parseVal g r2 with
                  | some (v, r3) =>
                      match skipWs r3 with
                      | c3 :: r4 =>
                          if c3 = ',' then
                            match parsePairs g r4 with
                            | some (ps, r5) => some ((String.mk kv.1.data, v) :: ps, r5)
                            | none => none
                          else if c3 = closeBrace then some ([(String.mk kv.1.data, v)], r4)
                          else none
                      | [] => none
                  | none => none
                else none
            | [] => none) = some ([kv], r)
          rw [skipWs_not_ws (show isWsChar ':' = false from by decide)]
          show (match parseVal g (' ' :: (dumps kv.2 ++ (closeBrace :: r))) with
            | some (v, r3) =>
                match skipWs r3 with
                | c3 :: r4 =>
                    if c3 = ',' then
                      match parsePairs g r4 with
                      | some (ps, r5) => some ((String.mk kv.1.data, v) :: ps, r5)
                      | none => none
                    else if c3 = closeBrace then some ([(String.mk kv.1.data, v)], r4)
                    else none
                | [] => none
            | none => none) = some ([kv], r)
          rw [hpv3]
          show (match skipWs (closeBrace :: r) with
            | c3 :: r4 =>
                if c3 = ',' then
                  match parsePairs g r4 with
                  | some (ps, r5) => some ((String.mk kv.1.data, kv.2) :: ps, r5)
                  | none => none
                else if c3 = closeBrace then some ([(String.mk kv.1.data, kv.2)], r4)
                else none
            | [] => none) = some ([kv], r)
          rw [skipWs_not_ws (show isWsChar closeBrace = false from by decide)]
          show (if closeBrace = ',' then
              match parsePairs g r with
              | some (ps, r5) => some ((String.mk kv.1.data, kv.2) :: ps, r5)
              | none => none
            else if closeBrace = closeBrace then some ([(String.mk kv.1.data, kv.2)], r)
            else none) = some ([kv], r)
          rw [if_neg (show ¬closeBrace = ',' from by decide), if_pos rfl]
  | kv :: kv2 :: o2, _, hp, f, hf, r => by
      have hpk : ∀ c ∈ kv.1.data, plainChar c = true := by
        simp only [plainPairs, plainStrB, Bool.and_eq_true, List.all_eq_true] at hp
        exact hp.1.1
      have hpv : plainVal kv.2 = true := by
        simp only [plainPairs, Bool.and_eq_true] at hp
        exact hp.1.2
      have hpr : plainPairs (kv2 :: o2) = true := by
        rw [show plainPairs (kv :: kv2 :: o2) =
            (plainStrB kv.1 && plainVal kv.2 && plainPairs (kv2 :: o2)) from rfl,
          Bool.and_eq_true] at hp
        exact hp.2
      cases f with
      | zero =>
          exfalso
          have := jsizeV_pos kv.2
          simp only [jsizePairs] at hf
          omega
      | succ g =>
          have hsx : jsizeV kv.2 ≤ g := by
            have h1 : jsizePairs (kv :: kv2 :: o2) =
              1 + jsizeV kv.2 + jsizePairs (kv2 :: o2) := rfl
            have h2 : jsizePairs (kv2 :: o2) = 1 + jsizeV kv2.2 + jsizePairs o2 := rfl
            omega
          have hsr : jsizePairs (kv2 :: o2) ≤ g := by
            have h1 : jsizePairs (kv :: kv2 :: o2) =
              1 + jsizeV kv.2 + jsizePairs (kv2 :: o2) := rfl
            have h2 := jsizeV_pos kv.2
            omega
          have e1 : dumpsPairs (kv :: kv2 :: o2) ++ (closeBrace :: r) =
              quoteC :: (kv.1.data ++ (quoteC :: ':' :: ' ' :: (dumps kv.2 ++
                (',' :: ' ' :: (dumpsPairs (kv2 :: o2) ++ (closeBrace :: r)))))) := by
            simp [dumpsPairs, escString_plain hpk, List.append_assoc]
          have hps := parseStrBody_plain
            ((kv.1.data ++ (quoteC :: ':' :: ' ' :: (dumps kv.2 ++
              (',' :: ' ' :: (dumpsPairs (kv2 :: o2) ++ (closeBrace :: r)))))).length + 1)
            kv.1.data (by simp only [List.length_append, List.length_cons]; omega) hpk
            (':' :: ' ' :: (dumps kv.2 ++
              (',' :: ' ' :: (dumpsPairs (kv2 :: o2) ++ (closeBrace :: r)))))
          have hpv2 := parse_dumps kv.2 hpv g hsx
            (',' :: ' ' :: (dumpsPairs (kv2 :: o2) ++ (closeBrace :: r)))
            (fun q r2 he => by injection he with h1 _; rw [← h1]; decide)
          have hrest := parse_dumpsPairs (kv2 :: o2) (by simp) hpr g hsr r
          have hmk : String.mk kv.1.data = kv.1 := rfl
          have hpv3 : parseVal g (' ' :: (dumps kv.2 ++
              (',' :: ' ' :: (dumpsPairs (kv2 :: o2) ++ (closeBrace :: r))))) =
              some (kv.2, ',' :: ' ' :: (dumpsPairs (kv2 :: o2) ++ (closeBrace :: r))) := by
            rw [parseVal_ws]
            exact hpv2
          have hrest2 : parsePairs g (' ' :: (dumpsPairs (kv2 :: o2) ++ (closeBrace :: r))) =
              some (kv2 :: o2, r) := by
            rw [parsePairs_ws]
            exact hrest
          rw [e1, parsePairs_step g _, hps]
          show (match skipWs (':' :: ' ' :: (dumps kv.2 ++
              (',' :: ' ' :: (dumpsPairs (kv2 :: o2) ++ (closeBrace :: r))))) with
            | c2 :: r2 =>
                if c2 = ':' then
                  match parseVal g r2 with
                  | some (v, r3) =>
                      match skipWs r3 with
                      | c3 :: r4 =>
                          if c3 = ',' then
                            match parsePairs g r4 with
                            | some (ps, r5) => some ((String.mk kv.1.data, v) :: ps, r5)
                            | none => none
                          else if c3 = closeBrace then some ([(String.mk kv.1.data, v)], r4)
                          else none
                      | [] => none
                  | none => none
                else none
            | [] => none) = some (kv :: kv2 :: o2, r)
          rw [skipWs_not_ws (show isWsChar ':' = false from by decide)]
          show (match parseVal g (' ' :: (dumps kv.2 ++
              (',' :: ' ' :: (dumpsPairs (kv2 :: o2) ++ (closeBrace :: r))))) with
            | some (v, r3) =>
                match skipWs r3 with
                | c3 :: r4 =>
                    if c3 = ',' then
                      match parsePairs g r4 with
                      | some (ps, r5) => some ((String.mk kv.1.data, v) :: ps, r5)
                      | none => none
                    else if c3 = closeBrace then some ([(String.mk kv.1.data, v)], r4)
                    else none
                | [] => none
            | none => none) = some (kv :: kv2 :: o2, r)
          rw [hpv3]
          show (match skipWs (',' :: ' ' :: (dumpsPairs (kv2 :: o2) ++ (closeBrace :: r))) with
            | c3 :: r4 =>
                if c3 = ',' then
                  match parsePairs g r4 with
                  | some (ps, r5) => some ((String.mk kv.1.data, kv.2) :: ps, r5)
                  | none => none
                else if c3 = closeBrace then some ([(String.mk kv.1.data, kv.2)], r4)
                else none
            | [] => none) = some (kv :: kv2 :: o2, r)
          rw [skipWs_not_ws (show isWsChar ',' = false from by decide)]
          show (if (',' : Char) = ',' then
              match parsePairs g (' ' :: (dumpsPairs (kv2 :: o2) ++ (closeBrace :: r))) with
              | some (ps, r5) => some ((String.mk kv.1.data, kv.2) :: ps, r5)
              | none => none
            else if (',' : Char) = closeBrace then
              some ([(String.mk kv.1.data, kv.2)],
                ' ' :: (dumpsPairs (kv2 :: o2) ++ (closeBrace :: r)))
            else none) = some (kv :: kv2 :: o2, r)
          rw [if_pos rfl, hrest2]
end

/-! ### Fuel bounds and `loads` of a serialized document -/

theorem intDump_ne_nil (n : Int) : intDump n ≠ [] := by
  by_cases hn : n < 0
  · simp [intDump, hn]
  · simp only [intDump, if_neg hn]
    exact natDigits_ne_nil _ _ (Nat.lt_succ_self _)

mutual
theorem jsizeV_le : ∀ v : JVal, jsizeV v + 1 ≤ 2 * (dumps v).length
  | .str s => by
      simp only [jsizeV, dumps, List.length_cons, List.length_append]
      omega
  | .num n => by
      have h1 : 1 ≤ (intDump n).length := by
        cases hd : intDump n with
        | nil => exact absurd hd (intDump_ne_nil n)
        | cons c cs => simp
      simp only [jsizeV]
      rw [show dumps (.num n) = intDump n from rfl]
      omega
  | .bool true => by
      rw [show dumps (.bool true) = ['t', 'r', 'u', 'e'] from rfl]
      simp [jsizeV]
  | .bool false => by
      rw [show dumps (.bool false) = ['f', 'a', 'l', 's', 'e'] from rfl]
      simp [jsizeV]
  | .null => by
      rw [show dumps .null = ['n', 'u', 'l', 'l'] from rfl]
      simp [jsizeV]
  | .arr xs => by
      have h1 := jsizeItems_le xs
      rw [show jsizeV (.arr xs) = 1 + jsizeItems xs from rfl,
        show dumps (.arr xs) = '[' :: (dumpsItems xs ++ [']']) from rfl]
      simp only [List.length_cons, List.length_append, List.length_singleton]
      omega
  | .obj o => by
      have h1 := jsizePairs_le o
      rw [show jsizeV (.obj o) = 1 + jsizePairs o from rfl,
        show dumps (.obj o) = openBrace :: (dumpsPairs o ++ [closeBrace]) from rfl]
      simp only [List.length_cons, List.length_append, List.length_singleton]
      omega
theorem jsizeItems_le : ∀ xs : List JVal, jsizeItems xs ≤ 2 * (dumpsItems xs).length + 1
  | [] => by simp [jsizeItems, dumpsItems]
  | [x] => by
      have h1 := jsizeV_le x
      rw [show jsizeItems [x] = 1 + jsizeV x + 1 from rfl,
        show dumpsItems [x] = dumps x from rfl]
      omega
  | x :: y :: r => by
      have h1 := jsizeV_le x
      have h2 := jsizeItems_le (y :: r)
      rw [show jsizeItems (x :: y :: r) = 1 + jsizeV x + jsizeItems (y :: r) from rfl,
        show dumpsItems (x :: y :: r) = dumps x ++ (',' :: ' ' :: dumpsItems (y :: r)) from rfl]
      simp only [List.length_append, List.length_cons]
      omega
theorem jsizePairs_le : ∀ o : List (String × JVal),
    jsizePairs o ≤ 2 * (dumpsPairs o).length + 1
  | [] => by simp [jsizePairs, dumpsPairs]
  | [kv] => by
      have h1 := jsizeV_le kv.2
      rw [show jsizePairs [kv] = 1 + jsizeV kv.2 + 1 from rfl,
        show dumpsPairs [kv] =
          quoteC :: (escString kv.1.data ++ (quoteC :: ':' :: ' ' :: dumps kv.2)) from rfl]
      simp only [List.length_cons, List.length_append]
      omega
  | kv :: kv2 :: r => by
      have h1 := jsizeV_le kv.2
      have h2 := jsizePairs_le (kv2 :: r)
      rw [show jsizePairs (kv :: kv2 :: r) = 1 + jsizeV kv.2 + jsizePairs (kv2 :: r) from rfl,
        show dumpsPairs (kv :: kv2 :: r) =
          (quoteC :: (escString kv.1.data ++ (quoteC :: ':' :: ' ' :: dumps kv.2))) ++
            (',' :: ' ' :: dumpsPairs (kv2 :: r)) from rfl]
      simp only [List.length_cons, List.length_append]
      omega
end

/-- `json.loads` inverts `json.dumps` on plain documents. -/
theorem loads_dumps {v : JVal} (hp : plainVal v = true) :
    loads (String.mk (dumps v)) = some v := by
  have hb := jsizeV_le v
  have hpd := parse_dumps v hp (2 * (dumps v).length + 2) (by omega) []
    (fun q r2 he => by cases he)
  rw [List.append_nil] at hpd
  have hdata : (String.mk (dumps v)).data = dumps v := rfl
  rw [loads, hdata, hpd]
  rfl

/-! ### The document-level round trip -/

theorem replaceAll_length_le {h : List Char} (hh : h ≠ []) :
    ∀ (f : Nat) (s : List Char), (replaceAll h Tchars f s).length ≤ 8 * s.length := by
  intro f
  induction f with
  | zero => intro s; simp [replaceAll]; omega
  | succ g ih =>
      intro s
      cases s with
      | nil => rw [replaceAll_nil_of_ne hh]; simp
      | cons c cs =>
          have hlh : 1 ≤ h.length := by
            cases h with
            | nil => exact absurd rfl hh
            | cons a l => simp
          by_cases hm : h.isPrefixOf (c :: cs) = true
          · have hlen : h.length ≤ (c :: cs).length :=
              (List.isPrefixOf_iff_prefix.mp hm).length_le
            rw [replaceAll_cons_match hh hm]
            have := ih (List.drop h.length (c :: cs))
            simp only [List.length_append, List.length_drop, List.length_cons] at *
            have hT : Tchars.length = 8 := rfl
            omega
          · have hm2 : h.isPrefixOf (c :: cs) = false := by
              cases hval : h.isPrefixOf (c :: cs) with
              | false => rfl
              | true => exact absurd hval hm
            rw [replaceAll_cons_nomatch hh hm2]
            have := ih cs
            simp only [List.length_cons]
            omega

/-- String-level round trip, packaged for `String`s. -/
theorem pyReplace_round_trip {h : String} (hh : h.data ≠ []) {s : String}
    (hcs : containsSub Tchars s.data = false) :
    pyReplace (pyReplace s h tmpl) tmpl h = s := by
  have hX := replaceAll_length_le hh (s.data.length + 1) s.data
  have hcongr := @replaceAll_fuel_congr Tchars h.data (by decide)
    ((replaceAll h.data Tchars (s.data.length + 1) s.data).length + 1)
    (replaceAll h.data Tchars (s.data.length + 1) s.data)
    (8 * s.data.length + 1) (Nat.lt_succ_self _) (by omega)
  have hrt := replace_round_trip hh (s.data.length + 1) s.data (Nat.lt_succ_self _) hcs
    (8 * s.data.length + 1) (Nat.lt_succ_self _)
  show String.mk (pyRepL (pyRepL s.data h.data Tchars) Tchars h.data) = s
  rw [show pyRepL (pyRepL s.data h.data Tchars) Tchars h.data =
    replaceAll Tchars h.data
      ((replaceAll h.data Tchars (s.data.length + 1) s.data).length + 1)
      (replaceAll h.data Tchars (s.data.length + 1) s.data) from rfl]
  rw [hcongr, hrt]

theorem pyRepL_round_trip {h : List Char} (hh : h ≠ []) {s : List Char}
    (hcs : containsSub Tchars s = false) :
    pyRepL (pyRepL s h Tchars) Tchars h = s := by
  have hX := replaceAll_length_le hh (s.length + 1) s
  have hcongr := @replaceAll_fuel_congr Tchars h (by decide)
    ((replaceAll h Tchars (s.length + 1) s).length + 1)
    (replaceAll h Tchars (s.length + 1) s)
    (8 * s.length + 1) (Nat.lt_succ_self _) (by omega)
  have hrt := replace_round_trip hh (s.length + 1) s (Nat.lt_succ_self _) hcs
    (8 * s.length + 1) (Nat.lt_succ_self _)
  rw [show pyRepL (pyRepL s h Tchars) Tchars h =
    replaceAll Tchars h ((replaceAll h Tchars (s.length + 1) s).length + 1)
      (replaceAll h Tchars (s.length + 1) s) from rfl]
  rw [hcongr, hrt]

theorem keys_walkPairs (h : String) :
    ∀ o : List (String × JVal),
      keys (walkSubstPairs h tmpl o) = (keys o).map (fun k => pyReplace k h tmpl) := by
  intro o
  induction o with
  | nil => rfl
  | cons kv r ih =>
      rw [show walkSubstPairs h tmpl (kv :: r) =
        (pyReplace kv.1 h tmpl, walkSubst h tmpl kv.2) :: walkSubstPairs h tmpl r from rfl]
      simp only [keys, List.map_cons] at ih ⊢
      rw [ih]

theorem noTmplPairs_keys : ∀ (o : List (String × JVal)), noTmplPairs o = true →
    ∀ k ∈ keys o, containsSub Tchars k.data = false := by
  intro o
  induction o with
  | nil => intro _ k hk; exact absurd hk (List.not_mem_nil _)
  | cons kv r ih =>
      intro ht k hk
      rw [show noTmplPairs (kv :: r) =
          ((!containsSub Tchars kv.1.data) && noTmplVal kv.2 && noTmplPairs r) from rfl,
        Bool.and_eq_true, Bool.and_eq_true, Bool.not_eq_true'] at ht
      rcases List.mem_cons.mp hk with h1 | h1
      · rw [h1]; exact ht.1.1
      · exact ih ht.2 k h1

mutual
theorem plain_walk (h : String) (hs : pathSafe h) :
    ∀ (v : JVal), plainVal v = true → noTmplVal v = true →
      plainVal (walkSubst h tmpl v) = true
  | .str s, hp, _ => by
      have hsp : ∀ c ∈ s.data, plainChar c = true := by
        simp only [plainVal, plainStrB, List.all_eq_true] at hp
        exact hp
      show plainStrB (pyReplace s h tmpl) = true
      simp only [plainStrB, List.all_eq_true]
      intro c hc
      exact plain_pyRepL hsp c hc
  | .num n, hp, _ => hp
  | .bool b, hp, _ => hp
  | .null, hp, _ => hp
  | .arr xs, hp, ht => by
      show plainItems (walkSubstItems h tmpl xs) = true
      exact plain_walk_items h hs xs hp ht
  | .obj o, hp, ht => by
      have hnd : nodupKeys o := by
        simp only [plainVal, Bool.and_eq_true, decide_eq_true_eq] at hp
        exact hp.1
      have hpp : plainPairs o = true := by
        simp only [plainVal, Bool.and_eq_true] at hp
        exact hp.2
      have htp : noTmplPairs o = true := ht
      have hkeys := noTmplPairs_keys o htp
      have hnd2 : nodupKeys (walkSubstPairs h tmpl o) := by
        show (keys (walkSubstPairs h tmpl o)).Nodup
        rw [keys_walkPairs h o]
        refine List.Nodup.map_on ?_ hnd
        intro x hx y hy hxy
        have hrx := pyReplace_round_trip hs.1 (hkeys x hx)
        have hry := pyReplace_round_trip hs.1 (hkeys y hy)
        rw [← hrx, ← hry, hxy]
      show (decide (nodupKeys (walkSubstPairs h tmpl o)) &&
        plainPairs (walkSubstPairs h tmpl o)) = true
      rw [Bool.and_eq_true]
      exact ⟨decide_eq_true hnd2, plain_walk_pairs h hs o hpp htp⟩
theorem plain_walk_items (h : String) (hs : pathSafe h) :
    ∀ (xs : List JVal), plainItems xs = true → noTmplItems xs = true →
      plainItems (walkSubstItems h tmpl xs) = true
  | [], _, _ => rfl
  | x :: r, hp, ht => by
      rw [show plainItems (x :: r) = (plainVal x && plainItems r) from rfl,
        Bool.and_eq_true] at hp
      rw [show noTmplItems (x :: r) = (noTmplVal x && noTmplItems r) from rfl,
        Bool.and_eq_true] at ht
      show (plainVal (walkSubst h tmpl x) &&
        plainItems (walkSubstItems h tmpl r)) = true
      rw [Bool.and_eq_true]
      exact ⟨plain_walk h hs x hp.1 ht.1, plain_walk_items h hs r hp.2 ht.2⟩
theorem plain_walk_pairs (h : String) (hs : pathSafe h) :
    ∀ (o : List (String × JVal)), plainPairs o = true → noTmplPairs o = true →
      plainPairs (walkSubstPairs h tmpl o) = true
  | [], _, _ => rfl
  | kv :: r, hp, ht => by
      rw [show plainPairs (kv :: r) =
          (plainStrB kv.1 && plainVal kv.2 && plainPairs r) from rfl,
        Bool.and_eq_true, Bool.and_eq_true] at hp
      rw [show noTmplPairs (kv :: r) =
          ((!containsSub Tchars kv.1.data) && noTmplVal kv.2 && noTmplPairs r) from rfl,
        Bool.and_eq_true, Bool.and_eq_true] at ht
      have hkp : ∀ c ∈ kv.1.data, plainChar c = true := by
        have := hp.1.1
        simp only [plainStrB, List.all_eq_true] at this
        exact this
      show (plainStrB (pyReplace kv.1 h tmpl) &&
        plainVal (walkSubst h tmpl kv.2) &&
        plainPairs (walkSubstPairs h tmpl r)) = true
      rw [Bool.and_eq_true, Bool.and_eq_true]
      refine ⟨⟨?_, plain_walk h hs kv.2 hp.1.2 ht.1.2⟩, plain_walk_pairs h hs r hp.2 ht.2⟩
      simp only [plainStrB, List.all_eq_true]
      intro c hc
      exact plain_pyRepL hkp c hc
end

/-- C6 (amended): the template substitutions round-trip on documents
that do not already contain the `\x7b\x7bHOME\x7d\x7d` marker: for a
document of plain ASCII strings (no quote, no backslash, no control or
non-ASCII characters; dict keys pairwise distinct) none of which
contains the marker, and a home path made of path characters and
containing a `/`, `resolve_templates` after `apply_reverse_templates`
returns the document unchanged.  The original claim's condition — home
appearing only as whole-path substrings — is neither needed nor
sufficient; what breaks the round trip is a pre-existing marker (see
the counterexample). -/
theorem c6_round_trip_amended (D : JVal) (h : String) (hs : pathSafe h)
    (hp : plainVal D = true) (ht : noTmplVal D = true) :
    templateRoundTrip D h = some D := by
  have hne : h.data ≠ [] := hs.1
  have hcomm := subst_commute h hs D hp [] (fun q b2 he => by cases he)
  rw [List.append_nil, pyRepL_nil _ _ hne, List.append_nil] at hcomm
  have hplainW := plain_walk h hs D hp ht
  have happly : apply_reverse_templates D h = some (walkSubst h tmpl D) := by
    show loads (pyReplace (String.mk (dumps D)) h tmpl) = _
    rw [show pyReplace (String.mk (dumps D)) h tmpl =
      String.mk (pyRepL (dumps D) h.data Tchars) from rfl, hcomm]
    exact loads_dumps hplainW
  have hnoT := noT_dumps_closed hp ht
  have hresolve : resolve_templates (walkSubst h tmpl D) h = some D := by
    show loads (pyReplace (String.mk (dumps (walkSubst h tmpl D))) tmpl h) = _
    rw [show pyReplace (String.mk (dumps (walkSubst h tmpl D))) tmpl h =
      String.mk (pyRepL (dumps (walkSubst h tmpl D)) Tchars h.data) from rfl]
    rw [← hcomm, pyRepL_round_trip hne hnoT]
    exact loads_dumps hp
  rw [show templateRoundTrip D h =
    (apply_reverse_templates D h).bind (fun s => resolve_templates s h) from rfl,
    happly, Option.some_bind]
  exact hresolve

theorem c6_round_trip_amended_witness :
    pathSafe "/home/u" ∧
    plainVal (.obj [("path", .str "/home/u/bin"), ("model", .str "opus")]) = true ∧
    noTmplVal (.obj [("path", .str "/home/u/bin"), ("model", .str "opus")]) = true ∧
    templateRoundTrip (.obj [("path", .str "/home/u/bin"), ("model", .str "opus")])
        "/home/u"
      = some (.obj [("path", .str "/home/u/bin"), ("model", .str "opus")]) :=
  ⟨by decide, by decide, by decide,
    c6_round_trip_amended (.obj [("path", .str "/home/u/bin"), ("model", .str "opus")])
      "/home/u" (by decide) (by decide) (by decide)⟩

end ClaudeSetup
